import Mathlib

/-!
# Verification of the spectest assertion engine (`assert.go`)

A shallow embedding of the verifier of `go-spectest/spectest` (file `assert.go`):
the value comparator (`objectsAreEqual`, `validateEqualArgs`), the message composer
(`messageFromMsgAndArgs`), the report renderer (`labeledOutput`, `indentMessageLines`),
the caller-stack locator (`callerInfo`, `isTest`) and the `DefaultVerifier` methods.

Modelling conventions.

* A Go `string` is its sequence of bytes (`GoString = List Nat`, each byte a number below 256);
  `len` is `List.length`.  Literals of the source are written `ascii "..."`.
* A Go `interface{}` value is a `GoValue`: the untyped `nil`, or a value together with its
  dynamic type.  Values are modelled by content; operands are taken to live in separately
  allocated storage, so the same-pointer shortcut of `reflect.DeepEqual` is not modelled.
* A `float64` is its IEEE-754 bit pattern (a `Nat` below `2^64`).
* The reporting sink `TestingT` is observed through the list of calls made on it: every
  verifier method returns its boolean result together with that list.
* Functions of the Go standard library that format values (`fmt`), parse JSON
  (`encoding/json`), read the call stack (`runtime`) or classify runes beyond Latin-1
  (`unicode`), and the function `diff` of the repository's `diff.go`, enter through the
  record `Runtime`.
-/

set_option autoImplicit false

/-! ## Strings -/

/-- A Go string: a sequence of bytes. -/
abbrev GoString := List Nat

/-- The bytes of an ASCII literal of the source (one byte per character). -/
def ascii (s : String) : GoString := s.data.map Char.toNat

namespace strings

/-- Go `strings.Repeat(s, count)` for a non-negative count. -/
def Repeat (s : GoString) (count : Nat) : GoString := (List.replicate count s).flatten

/-- Go `strings.Join(elems, sep)`. -/
def Join (elems : List GoString) (sep : GoString) : GoString := sep.intercalate elems

/-- Go `strings.HasPrefix(s, p)`. -/
def HasPrefix (s p : GoString) : Bool := p.isPrefixOf s

/-- Worker of `Split`: `cur` holds the bytes of the piece being read. -/
def splitAux (sep : Nat) : List Nat → GoString → List GoString
  | [], cur => [cur]
  | b :: rest, cur => if b = sep then cur :: splitAux sep rest [] else splitAux sep rest (cur ++ [b])

/-- Go `strings.Split(s, sep)` for a separator of one byte: the pieces of `s` between
occurrences of `sep`; the result is never empty. -/
def Split (s : GoString) (sep : Nat) : List GoString := splitAux sep s []

end strings

/-- Decimal rendering of a non-negative `int`, the `%d` verb of `fmt`. -/
def decimal (n : Nat) : GoString := (Nat.toDigits 10 n).map Char.toNat

/-! ## Values held by an `interface{}` -/

/-- Dynamic types of the modelled values (`reflect.Type` identity). -/
inductive GoType where
  | bool | int | float64 | string | duration | bytes | failureMessageArgs
  | iface
  | func (sig : String)
  | slice (elem : GoType)
  | map (key val : GoType)
  | struct (name : String)
deriving DecidableEq, Repr

/-- The address of the storage of a slice or of a map: the region in which the storage
was allocated and its offset there.  Two slices, or two maps, share their storage exactly
when their addresses are equal. -/
structure Addr where
  region : Nat
  offset : Nat
deriving DecidableEq, Repr

/-- A value passed as `interface{}`.
`nil` is the nil interface; `bytes none`, `slice _ none`, `map _ _ none` and `func _ none`
are the typed nil values of their types.  A non-nil slice or map is the address of its
storage together with its content; a byte sequence is its content alone, since no
comparison of the engine tells two byte sequences of equal content apart.
`failureMessageArgs` is the struct of that name declared in `assert.go`; `duration` is
`time.Duration`. -/
inductive GoValue where
  | nil
  | bool (b : Bool)
  | int (n : Int)
  | float64 (bits : Nat)
  | string (s : GoString)
  | duration (ns : Int)
  | bytes (data : Option (List Nat))
  | func (sig : String) (code : Option Nat)
  | failureMessageArgs (Name : GoString)
  | slice (elem : GoType) (data : Option (Addr × List GoValue))
  | map (key val : GoType) (data : Option (Addr × List (GoValue × GoValue)))
  | struct (name : String) (fields : List GoValue)

namespace GoValue

/-- Go `x == nil` for an interface value. -/
def isNil : GoValue → Bool
  | .nil => true
  | _ => false

/-- Go `reflect.TypeOf(x)`: `none` for the nil interface. -/
def typeOf : GoValue → Option GoType
  | .nil => none
  | .bool _ => some .bool
  | .int _ => some .int
  | .float64 _ => some .float64
  | .string _ => some .string
  | .duration _ => some .duration
  | .bytes _ => some .bytes
  | .func sig _ => some (.func sig)
  | .failureMessageArgs _ => some .failureMessageArgs
  | .slice elem _ => some (.slice elem)
  | .map key val _ => some (.map key val)
  | .struct name _ => some (.struct name)

end GoValue

/-! ## IEEE-754 comparison of `float64` bit patterns -/

/-- The bit pattern is a NaN: exponent all ones and a non-zero mantissa. -/
def isNaN (bits : Nat) : Bool := (bits / 2 ^ 52) % 2 ^ 11 == 2047 && bits % 2 ^ 52 != 0

/-- Go `==` on two `float64`: false when either is NaN, `+0 == -0`, otherwise same bits. -/
def floatEq (a b : Nat) : Bool :=
  !isNaN a && !isNaN b && (a == b || (a % 2 ^ 63 == 0 && b % 2 ^ 63 == 0))

/-! ## `reflect.DeepEqual` -/

mutual
/-- Go `==` on two comparable values held as map keys. -/
def goEq : GoValue → GoValue → Bool
  | .nil, v2 => match v2 with
    | .nil => true
    | _ => false
  | .bool a, v2 => match v2 with
    | .bool b => a == b
    | _ => false
  | .int a, v2 => match v2 with
    | .int b => a == b
    | _ => false
  | .float64 a, v2 => match v2 with
    | .float64 b => floatEq a b
    | _ => false
  | .string a, v2 => match v2 with
    | .string b => a == b
    | _ => false
  | .duration a, v2 => match v2 with
    | .duration b => a == b
    | _ => false
  | .failureMessageArgs a, v2 => match v2 with
    | .failureMessageArgs b => a == b
    | _ => false
  | .struct n fs, v2 => match v2 with
    | .struct m gs => n == m && fs.length == gs.length && goEqList fs gs
    | _ => false
  | .bytes _, _ => false
  | .func _ _, _ => false
  | .slice _ _, _ => false
  | .map _ _ _, _ => false
/-- Field by field `==` of two struct values. -/
def goEqList : List GoValue → List GoValue → Bool
  | [], _ => true
  | x :: xs, ys => match ys with
    | [] => true
    | y :: ys => goEq x y && goEqList xs ys
end

/-- Go `reflect.Value.MapIndex`: the value stored under key `k`, if any. -/
def MapIndex (m : List (GoValue × GoValue)) (k : GoValue) : Option GoValue :=
  (m.find? (fun e => goEq e.1 k)).map Prod.snd

mutual
/-- Go `reflect.deepValueEqual` on two values (`nil` is an invalid/nil interface element).
Two non-nil slices, or two non-nil maps, of the same length that share their storage are
equal without a look at their content. -/
def deepValueEqual : GoValue → GoValue → Bool
  | .nil, v2 => match v2 with
    | .nil => true
    | _ => false
  | .bool a, v2 => match v2 with
    | .bool b => a == b
    | _ => false
  | .int a, v2 => match v2 with
    | .int b => a == b
    | _ => false
  | .float64 a, v2 => match v2 with
    | .float64 b => floatEq a b
    | _ => false
  | .string a, v2 => match v2 with
    | .string b => a == b
    | _ => false
  | .duration a, v2 => match v2 with
    | .duration b => a == b
    | _ => false
  | .bytes a, v2 => match v2 with
    | .bytes b => a == b
    | _ => false
  | .func s a, v2 => match v2 with
    | .func s2 b => s == s2 && a.isNone && b.isNone
    | _ => false
  | .failureMessageArgs a, v2 => match v2 with
    | .failureMessageArgs b => a == b
    | _ => false
  | .slice t none, v2 => match v2 with
    | .slice t2 none => t == t2
    | _ => false
  | .slice t (some (p, xs)), v2 => match v2 with
    | .slice t2 (some (q, ys)) =>
      t == t2 && xs.length == ys.length && (p == q || deepEqualList xs ys)
    | _ => false
  | .map k v none, v2 => match v2 with
    | .map k2 w2 none => k == k2 && v == w2
    | _ => false
  | .map k v (some (p, m1)), v2 => match v2 with
    | .map k2 w2 (some (q, m2)) =>
      k == k2 && v == w2 && m1.length == m2.length && (p == q || deepEqualEntries m1 m2)
    | _ => false
  | .struct n fs, v2 => match v2 with
    | .struct n2 gs => n == n2 && fs.length == gs.length && deepEqualList fs gs
    | _ => false
/-- Element by element comparison of two sequences of the same length. -/
def deepEqualList : List GoValue → List GoValue → Bool
  | [], _ => true
  | x :: xs, ys => match ys with
    | [] => true
    | y :: ys => deepValueEqual x y && deepEqualList xs ys
/-- Every entry of the first map has a deeply equal value under the same key in the second. -/
def deepEqualEntries : List (GoValue × GoValue) → List (GoValue × GoValue) → Bool
  | [], _ => true
  | (k, v1) :: rest, m2 => (match MapIndex m2 k with
    | some v2 => deepValueEqual v1 v2
    | none => false) && deepEqualEntries rest m2
end

namespace reflect

/-- Go `reflect.DeepEqual(x, y)`. -/
def DeepEqual (x y : GoValue) : Bool :=
  if x.isNil || y.isNil then x.isNil && y.isNil
  else if x.typeOf ≠ y.typeOf then false
  else deepValueEqual x y

end reflect

namespace bytes

/-- Go `bytes.Equal(a, b)`: same length and same bytes. -/
def Equal (a b : List Nat) : Bool := a == b

end bytes

/-! ## The environment of the engine -/

/-- A Go `error` value: the text of `Error()` and its rendering under the `%+v` verb. -/
structure GoError where
  Error : GoString
  plusV : GoString

/-- One frame of the call stack as `runtime.Caller` and `runtime.FuncForPC` report it:
the file path, the line, and the function name (`none` when the function is unresolved). -/
structure Frame where
  file : GoString
  line : Nat
  funcName : Option GoString

/-- What the engine takes from outside `assert.go`. -/
structure Runtime where
  /-- Rendering `fmt.Sprintf("%v", x)`. -/
  sprintV : GoValue → GoString
  /-- Rendering `fmt.Sprintf("%+v", x)`. -/
  sprintPlusV : GoValue → GoString
  /-- Rendering `fmt.Sprintf("%#v", x)`. -/
  sprintSharpV : GoValue → GoString
  /-- Rendering `fmt.Sprintf("%T", x)`. -/
  sprintT : GoValue → GoString
  /-- Decoding `json.Unmarshal([]byte(text), &v)` into an `interface{}`: the decoded
  tree, or the text of the error.  The first argument is the region in which the call
  allocates the storage of the slices and maps of the tree: two calls never share
  storage. -/
  unmarshal : Nat → GoString → Except GoString GoValue
  /-- The function `diff(expected, actual)` of the repository's `diff.go`. -/
  diff : GoValue → GoValue → GoString
  /-- The call stack seen from `callerInfo`: element `i` is `runtime.Caller(i)`. -/
  stack : List Frame
  /-- Membership of a rune above Latin-1 in the range table `unicode.Lower`. -/
  unicodeLower : Nat → Bool

/-- The reporting sink `TestingT`; `Name` is present when the sink also implements
`Name() string`. -/
structure TestingT where
  Name : Option GoString

/-- A call made on the sink. -/
inductive SinkCall where
  | Errorf (format : GoString) (args : List GoValue)
  | Fatal (args : List GoValue)
  | Fatalf (format : GoString) (args : List GoValue)

/-- Source type `labeledContent`. -/
structure labeledContent where
  label : GoString
  content : GoString
deriving DecidableEq

/-- The constant `bufio.MaxScanTokenSize`. -/
def bufio.MaxScanTokenSize : Nat := 64 * 1024

/-! ## Comparator -/

/-- Source `truncatingFormat`. -/
def truncatingFormat (R : Runtime) (data : GoValue) : GoString :=
  let value := R.sprintSharpV data
  let max := bufio.MaxScanTokenSize - 100
  if value.length > max then value.take max ++ ascii "<... truncated>" else value

/-- Source `formatUnequalValues`. -/
def formatUnequalValues (R : Runtime) (expected actual : GoValue) : GoString × GoString :=
  if expected.typeOf ≠ actual.typeOf then
    (R.sprintT expected ++ ascii "(" ++ truncatingFormat R expected ++ ascii ")",
     R.sprintT actual ++ ascii "(" ++ truncatingFormat R actual ++ ascii ")")
  else
    match expected with
    | .duration _ => (R.sprintV expected, R.sprintV actual)
    | _ => (truncatingFormat R expected, truncatingFormat R actual)

/-- Source `objectsAreEqual`. -/
def objectsAreEqual (expected actual : GoValue) : Bool :=
  if expected.isNil || actual.isNil then expected.isNil && actual.isNil
  else
    match expected with
    | .bytes exp =>
      match actual with
      | .bytes act =>
        match exp, act with
        | some e, some a => bytes.Equal e a
        | none, none => true
        | _, _ => false
      | _ => false
    | _ => reflect.DeepEqual expected actual

/-- Source `isFunction`. -/
def isFunction (arg : GoValue) : Bool :=
  match arg with
  | .nil => false
  | .func _ _ => true
  | _ => false

/-- Source `validateEqualArgs`: `none` is the nil error, `some msg` the error built by
`errors.New(msg)`. -/
def validateEqualArgs (expected actual : GoValue) : Option GoString :=
  if expected.isNil && actual.isNil then none
  else if isFunction expected || isFunction actual then
    some (ascii "cannot take func type as argument")
  else none

/-! ## Message composer -/

/-- The loop of `messageFromMsgAndArgs` over two or more arguments: `none` when the loop
returns early on a name-carrier with an empty name, otherwise the collected texts and the
last name-carrier entry. -/
def scanMsgAndArgs : List GoValue → List GoString → Option labeledContent →
    Option (List GoString × Option labeledContent)
  | [], strMsgs, structuredMsg => some (strMsgs, structuredMsg)
  | msg :: rest, strMsgs, structuredMsg =>
    match msg with
    | .string msgAsStr => scanMsgAndArgs rest (strMsgs ++ [msgAsStr]) structuredMsg
    | .failureMessageArgs name =>
      if name = [] then none
      else scanMsgAndArgs rest strMsgs (some ⟨ascii "Name", name⟩)
    | _ => scanMsgAndArgs rest strMsgs structuredMsg

/-- Source `messageFromMsgAndArgs`. -/
def messageFromMsgAndArgs (R : Runtime) (msgAndArgs : List GoValue) : List labeledContent :=
  match msgAndArgs with
  | [] => []
  | [msg] =>
    match msg with
    | .string msgAsStr => [⟨ascii "Messages", msgAsStr⟩]
    | .failureMessageArgs name => if name = [] then [] else [⟨ascii "Name", name⟩]
    | _ => [⟨ascii "Messages", R.sprintPlusV msg⟩]
  | _ =>
    match scanMsgAndArgs msgAndArgs [] none with
    | none => []
    | some (strMsgs, structuredMsg) =>
      (if strMsgs.length > 0 then [⟨ascii "Messages", strings.Join strMsgs (ascii ", ")⟩]
       else []) ++
      (match structuredMsg with
       | some m => [m]
       | none => [])

/-! ## Report renderer -/

/-- Go `bufio.dropCR`: drop one trailing carriage return. -/
def dropCR (data : GoString) : GoString :=
  if data.getLast? = some 13 then data.dropLast else data

/-- The tokens that successive calls of `Scan` on a `bufio.Scanner` (default `ScanLines`
splitter and default buffer) return for the input: `cur` holds the bytes read since the
last newline.  A line of `MaxScanTokenSize` bytes or more fills the buffer before its
end is seen: `Scan` then fails with `ErrTooLong` and returns no further token. -/
def scanLinesAux : List Nat → GoString → List GoString
  | [], cur =>
    if cur = [] then []
    else if cur.length ≥ bufio.MaxScanTokenSize then []
    else [dropCR cur]
  | b :: rest, cur =>
    if b = 10 then
      if cur.length ≥ bufio.MaxScanTokenSize then []
      else dropCR cur :: scanLinesAux rest []
    else scanLinesAux rest (cur ++ [b])

/-- The lines `bufio.NewScanner(strings.NewReader(message))` yields. -/
def scanLines (message : GoString) : List GoString := scanLinesAux message []

/-- The loop body of `indentMessageLines` over the scanned lines, `i` being the index of
the first of them. -/
def indentLoop (longestLabelLen : Nat) : List GoString → Nat → GoString
  | [], _ => []
  | line :: rest, i =>
    (if i ≠ 0 then
       ascii "\n\t" ++ strings.Repeat (ascii " ") (longestLabelLen + 1) ++ ascii "\t"
     else []) ++ line ++ indentLoop longestLabelLen rest (i + 1)

/-- Source `indentMessageLines`. -/
def indentMessageLines (message : GoString) (longestLabelLen : Nat) : GoString :=
  indentLoop longestLabelLen (scanLines message) 0

/-- Source `labeledOutput`. -/
def labeledOutput (content : List labeledContent) : GoString :=
  let longestLabel := content.foldl
    (fun longest v => if v.label.length > longest then v.label.length else longest) 0
  content.foldl
    (fun output v => output ++ (ascii "\t" ++ v.label ++ ascii ":" ++
      strings.Repeat (ascii " ") (longestLabel - v.label.length) ++ ascii "\t" ++
      indentMessageLines v.content longestLabel ++ ascii "\n")) []

/-! ## Caller-stack locator -/

/-- Go `utf8.DecodeRuneInString`, the rune only: the first code point of `s`, and
`RuneError` (U+FFFD) when `s` is empty or does not start with a valid encoding. -/
def decodeRune (s : GoString) : Nat :=
  let cont := fun (b : Nat) => 128 ≤ b ∧ b ≤ 191
  match s with
  | [] => 65533
  | b0 :: rest =>
    if b0 < 128 then b0
    else if 194 ≤ b0 ∧ b0 ≤ 223 then
      match rest with
      | b1 :: _ => if cont b1 then (b0 % 32) * 64 + b1 % 64 else 65533
      | _ => 65533
    else if 224 ≤ b0 ∧ b0 ≤ 239 then
      match rest with
      | b1 :: b2 :: _ =>
        if (if b0 = 224 then 160 ≤ b1 ∧ b1 ≤ 191
            else if b0 = 237 then 128 ≤ b1 ∧ b1 ≤ 159 else cont b1) ∧ cont b2 then
          (b0 % 16) * 4096 + (b1 % 64) * 64 + b2 % 64
        else 65533
      | _ => 65533
    else if 240 ≤ b0 ∧ b0 ≤ 244 then
      match rest with
      | b1 :: b2 :: b3 :: _ =>
        if (if b0 = 240 then 144 ≤ b1 ∧ b1 ≤ 191
            else if b0 = 244 then 128 ≤ b1 ∧ b1 ≤ 143 else cont b1) ∧ cont b2 ∧ cont b3 then
          (b0 % 8) * 262144 + (b1 % 64) * 4096 + (b2 % 64) * 64 + b3 % 64
        else 65533
      | _ => 65533
    else 65533

/-- Go `unicode.IsLower`: within Latin-1 the lower case letters are `a`..`z`, U+00B5,
U+00DF..U+00F6 and U+00F8..U+00FF; above Latin-1 the table `unicode.Lower` decides. -/
def unicodeIsLower (R : Runtime) (r : Nat) : Bool :=
  if r ≤ 255 then
    decide ((97 ≤ r ∧ r ≤ 122) ∨ r = 181 ∨ (223 ≤ r ∧ r ≤ 246) ∨ (248 ≤ r ∧ r ≤ 255))
  else R.unicodeLower r

/-- Source `isTest`. -/
def isTest (R : Runtime) (name pfx : GoString) : Bool :=
  if !strings.HasPrefix name pfx then false
  else if name.length = pfx.length then true
  else !unicodeIsLower R (decodeRune (name.drop pfx.length))

/-- The loop of `callerInfo` over the frames `runtime.Caller(i)`, `i = 0, 1, ...`:
the entries appended to `callers` from the given frame on. -/
def callerInfoLoop (R : Runtime) : List Frame → List GoString
  | [] => []
  | frame :: outer =>
    if frame.file = ascii "<autogenerated>" then []
    else
      match frame.funcName with
      | none => []
      | some name =>
        if name = ascii "testing.tRunner" then []
        else
          let parts := strings.Split frame.file 47
          let file := parts.getLastD []
          let here :=
            if parts.length > 1 then
              let dir := parts.getD (parts.length - 2) []
              if (dir ≠ ascii "assert" ∧ dir ≠ ascii "mock" ∧ dir ≠ ascii "require")
                  ∨ file = ascii "mock_test.go" then
                [file ++ ascii ":" ++ decimal frame.line]
              else []
            else []
          let segments := strings.Split name 46
          let short := segments.getLastD []
          if isTest R short (ascii "Test") || isTest R short (ascii "Benchmark")
              || isTest R short (ascii "Example") then here
          else here ++ callerInfoLoop R outer

/-- Source `callerInfo`. -/
def callerInfo (R : Runtime) : List GoString := callerInfoLoop R R.stack

/-! ## DefaultVerifier -/

namespace DefaultVerifier

/-- Source `DefaultVerifier.Fail`: the result and the calls made on the sink. -/
def Fail (R : Runtime) (t : TestingT) (failureMessage : GoString)
    (msgAndArgs : List GoValue) : Bool × List SinkCall :=
  let content : List labeledContent :=
    [⟨ascii "Error Trace", strings.Join (callerInfo R) (ascii "\n\t\t\t")⟩,
     ⟨ascii "Error", failureMessage⟩]
  let content := match t.Name with
    | some n => content ++ [⟨ascii "Test", n⟩]
    | none => content
  let message := messageFromMsgAndArgs R msgAndArgs
  let content := if message.length > 0 then content ++ message else content
  (false, [SinkCall.Errorf (ascii "\n%s") [GoValue.string (labeledOutput content)]])

/-- Source `DefaultVerifier.True`. -/
def True (R : Runtime) (t : TestingT) (value : Bool)
    (msgAndArgs : List GoValue) : Bool × List SinkCall :=
  if !value then Fail R t (ascii "Should be true") msgAndArgs
  else (true, [])

/-- Source `DefaultVerifier.Equal`. -/
def Equal (R : Runtime) (t : TestingT) (expected actual : GoValue)
    (msgAndArgs : List GoValue) : Bool × List SinkCall :=
  match validateEqualArgs expected actual with
  | some err =>
    Fail R t (ascii "Invalid operation: " ++ R.sprintSharpV expected ++ ascii " == " ++
      R.sprintSharpV actual ++ ascii " (" ++ err ++ ascii ")") msgAndArgs
  | none =>
    if !objectsAreEqual expected actual then
      let diff := R.diff expected actual
      let (expected, actual) := formatUnequalValues R expected actual
      Fail R t (ascii "Not equal: \n" ++ ascii "expected: " ++ expected ++ ascii "\n" ++
        ascii "actual  : " ++ actual ++ diff) msgAndArgs
    else (true, [])

/-- Source `DefaultVerifier.JSONEq`.  The two calls of `json.Unmarshal` allocate in the
regions 0 and 1. -/
def JSONEq (R : Runtime) (t : TestingT) (expected actual : GoString)
    (msgAndArgs : List GoValue) : Bool × List SinkCall :=
  match R.unmarshal 0 expected with
  | .error err =>
    Fail R t (ascii "Expected value ('" ++ expected ++
      ascii "') is not valid json.\nJSON parsing error: '" ++ err ++ ascii "'") msgAndArgs
  | .ok expectedJSONAsInterface =>
    match R.unmarshal 1 actual with
    | .error err =>
      Fail R t (ascii "Input ('" ++ actual ++
        ascii "') needs to be valid json.\nJSON parsing error: '" ++ err ++ ascii "'")
        msgAndArgs
    | .ok actualJSONAsInterface =>
      Equal R t expectedJSONAsInterface actualJSONAsInterface msgAndArgs

/-- Source `DefaultVerifier.NoError`: `none` is the nil error. -/
def NoError (R : Runtime) (t : TestingT) (err : Option GoError)
    (msgAndArgs : List GoValue) : Bool × List SinkCall :=
  match err with
  | some e => Fail R t (ascii "Received unexpected error:\n" ++ e.plusV) msgAndArgs
  | none => (true, [])

end DefaultVerifier

/-! ## The decoder `json.Unmarshal` into an `interface{}` -/

namespace json

/-- What the decoder takes from `strconv` and from its own `unquote`. -/
structure Scalars where
  /-- The call `strconv.ParseFloat(lit, 64)` on a number literal: the bits of the
  `float64`, or `none` when the number is out of range. -/
  parseFloat : GoString → Option Nat
  /-- The text denoted by the body of a string literal: escapes replaced by the bytes
  they stand for, invalid UTF-8 by the replacement character. -/
  unquote : GoString → GoString
  /-- The text of the error returned for a text that is not decoded. -/
  errorText : GoString → GoString

/-- The bytes the scanner skips between tokens: space, tab, carriage return, newline. -/
def isSpace (c : Nat) : Bool := c == 32 || c == 9 || c == 13 || c == 10

/-- The text without its leading space bytes. -/
def skipSpace : GoString → GoString
  | [] => []
  | c :: rest => if isSpace c then skipSpace rest else c :: rest

/-- An ASCII decimal digit. -/
def isDigit (c : Nat) : Bool := decide (48 ≤ c) && decide (c ≤ 57)

/-- An ASCII hexadecimal digit. -/
def isHexDigit (c : Nat) : Bool :=
  isDigit c || (decide (97 ≤ c) && decide (c ≤ 102)) || (decide (65 ≤ c) && decide (c ≤ 70))

/-- A byte that may follow a backslash in a string literal, `u` apart:
`"`, `\`, `/`, `b`, `f`, `n`, `r`, `t`. -/
def isEscape (c : Nat) : Bool :=
  c == 34 || c == 92 || c == 47 || c == 98 || c == 102 || c == 110 || c == 114 || c == 116

/-- The longest run of digits at the start of the text, and what follows it. -/
def scanDigits : GoString → GoString × GoString
  | [] => ([], [])
  | c :: rest =>
    if isDigit c then (c :: (scanDigits rest).1, (scanDigits rest).2) else ([], c :: rest)

/-- The integer part of a number: `0`, or a digit from 1 to 9 followed by digits. -/
def scanInt : GoString → Option (GoString × GoString)
  | [] => none
  | c :: rest =>
    if c = 48 then some ([48], rest)
    else if isDigit c then some (c :: (scanDigits rest).1, (scanDigits rest).2)
    else none

/-- The optional fraction of a number: a dot followed by at least one digit. -/
def scanFrac : GoString → Option (GoString × GoString)
  | [] => some ([], [])
  | c :: rest =>
    if c = 46 then
      (if (scanDigits rest).1 = [] then none
       else some (46 :: (scanDigits rest).1, (scanDigits rest).2))
    else some ([], c :: rest)

/-- The digits of an exponent, at least one. -/
def scanExpDigits (s : GoString) : Option (GoString × GoString) :=
  if (scanDigits s).1 = [] then none else some ((scanDigits s).1, (scanDigits s).2)

/-- The optional exponent of a number: `e` or `E`, an optional sign, at least one digit. -/
def scanExp : GoString → Option (GoString × GoString)
  | [] => some ([], [])
  | c :: rest =>
    if c = 101 ∨ c = 69 then
      match rest with
      | [] => none
      | d :: rest2 =>
        if d = 43 ∨ d = 45 then
          match scanExpDigits rest2 with
          | some (ds, r) => some (c :: d :: ds, r)
          | none => none
        else
          match scanExpDigits (d :: rest2) with
          | some (ds, r) => some (c :: ds, r)
          | none => none
    else some ([], c :: rest)

/-- The optional minus sign and the integer part of a number. -/
def scanSignedInt : GoString → Option (GoString × GoString)
  | [] => none
  | c :: rest =>
    if c = 45 then
      match scanInt rest with
      | some (i, r) => some (45 :: i, r)
      | none => none
    else scanInt (c :: rest)

/-- The number literal at the start of the text, read as the scanner reads it, and what
follows it; `none` when the text does not start with a number. -/
def scanNumber (s : GoString) : Option (GoString × GoString) :=
  match scanSignedInt s with
  | none => none
  | some (i, r1) =>
    match scanFrac r1 with
    | none => none
    | some (f, r2) =>
      match scanExp r2 with
      | none => none
      | some (e, r3) => some (i ++ (f ++ e), r3)

/-- The body of a string literal whose opening quote has been read, up to its closing
quote, and what follows that quote; `none` when the literal is not closed, holds a
control byte, or holds a backslash not followed by a valid escape. -/
def scanString : GoString → Option (GoString × GoString)
  | [] => none
  | c :: rest =>
    if c = 34 then some ([], rest)
    else if c = 92 then
      match rest with
      | [] => none
      | e :: rest2 =>
        if e = 117 then
          match rest2 with
          | h1 :: h2 :: h3 :: h4 :: rest3 =>
            if isHexDigit h1 && isHexDigit h2 && isHexDigit h3 && isHexDigit h4 then
              match scanString rest3 with
              | some (raw, r) => some (92 :: 117 :: h1 :: h2 :: h3 :: h4 :: raw, r)
              | none => none
            else none
          | _ => none
        else if isEscape e then
          match scanString rest2 with
          | some (raw, r) => some (92 :: e :: raw, r)
          | none => none
        else none
    else if c < 32 then none
    else
      match scanString rest with
      | some (raw, r) => some (c :: raw, r)
      | none => none
termination_by structural s => s

/-- The text without the given literal at its start; `none` when it does not start
with it. -/
def dropLiteral : GoString → GoString → Option GoString
  | [], s => some s
  | _ :: _, [] => none
  | c :: lit, d :: s => if c = d then dropLiteral lit s else none

/-- Go `m[key] = value` on the entries of a map: the value under an equal key is
replaced, otherwise the entry is added. -/
def mapAssign (m : List (GoValue × GoValue)) (key value : GoValue) :
    List (GoValue × GoValue) :=
  match m with
  | [] => [(key, value)]
  | (k, v) :: rest =>
    if goEq k key then (k, value) :: rest else (k, v) :: mapAssign rest key value

/-- The greatest number of arrays and objects that may be open at once. -/
def maxNestingDepth : Nat := 10000

mutual
/-- The value at the start of the text, which starts with no space byte: the decoded
value, the next free offset and the text that follows the value.  `depth` is the number
of arrays and objects open around the value, `next` the first free offset of the region;
the first argument bounds the number of nested calls. -/
def parseValue (S : Scalars) (region : Nat) :
    Nat → Nat → Nat → GoString → Option (GoValue × Nat × GoString)
  | 0, _, _, _ => none
  | _ + 1, _, _, [] => none
  | fuel + 1, depth, next, c :: rest =>
    if c = 123 then
      if depth ≥ maxNestingDepth then none
      else
        match skipSpace rest with
        | [] => none
        | c2 :: rest2 =>
          if c2 = 125 then
            some (.map .string .iface (some (⟨region, next⟩, [])), next + 1, rest2)
          else
            match parseMembers S region fuel (depth + 1) (next + 1) [] (c2 :: rest2) with
            | some (m, next2, rest3) =>
              some (.map .string .iface (some (⟨region, next⟩, m)), next2, rest3)
            | none => none
    else if c = 91 then
      if depth ≥ maxNestingDepth then none
      else
        match skipSpace rest with
        | [] => none
        | c2 :: rest2 =>
          if c2 = 93 then
            some (.slice .iface (some (⟨region, next⟩, [])), next + 1, rest2)
          else
            match parseElems S region fuel (depth + 1) (next + 1) (c2 :: rest2) with
            | some (vs, next2, rest3) =>
              some (.slice .iface (some (⟨region, next⟩, vs)), next2, rest3)
            | none => none
    else if c = 34 then
      match scanString rest with
      | some (raw, rest2) => some (.string (S.unquote raw), next, rest2)
      | none => none
    else if c = 116 then
      match dropLiteral (ascii "rue") rest with
      | some rest2 => some (.bool true, next, rest2)
      | none => none
    else if c = 102 then
      match dropLiteral (ascii "alse") rest with
      | some rest2 => some (.bool false, next, rest2)
      | none => none
    else if c = 110 then
      match dropLiteral (ascii "ull") rest with
      | some rest2 => some (.nil, next, rest2)
      | none => none
    else
      match scanNumber (c :: rest) with
      | some (lit, rest2) =>
        match S.parseFloat lit with
        | some bits => some (.float64 bits, next, rest2)
        | none => none
      | none => none
termination_by structural fuel _ _ _ => fuel
/-- The members of an object from a key on, up to the closing brace: each value is
assigned under its key to the entries read so far. -/
def parseMembers (S : Scalars) (region : Nat) :
    Nat → Nat → Nat → List (GoValue × GoValue) → GoString →
      Option (List (GoValue × GoValue) × Nat × GoString)
  | 0, _, _, _, _ => none
  | fuel + 1, depth, next, acc, s =>
    match skipSpace s with
    | [] => none
    | c :: rest =>
      if c = 34 then
        match scanString rest with
        | none => none
        | some (raw, rest2) =>
          match skipSpace rest2 with
          | [] => none
          | c2 :: rest3 =>
            if c2 = 58 then
              match parseValue S region fuel depth next (skipSpace rest3) with
              | none => none
              | some (v, next2, rest4) =>
                match skipSpace rest4 with
                | [] => none
                | c3 :: rest5 =>
                  if c3 = 44 then
                    parseMembers S region fuel depth next2
                      (mapAssign acc (.string (S.unquote raw)) v) rest5
                  else if c3 = 125 then
                    some (mapAssign acc (.string (S.unquote raw)) v, next2, rest5)
                  else none
            else none
      else none
termination_by structural fuel _ _ _ _ => fuel
/-- The elements of an array from a value on, up to the closing bracket. -/
def parseElems (S : Scalars) (region : Nat) :
    Nat → Nat → Nat → GoString → Option (List GoValue × Nat × GoString)
  | 0, _, _, _ => none
  | fuel + 1, depth, next, s =>
    match parseValue S region fuel depth next (skipSpace s) with
    | none => none
    | some (v, next2, rest) =>
      match skipSpace rest with
      | [] => none
      | c :: rest2 =>
        if c = 44 then
          match parseElems S region fuel depth next2 rest2 with
          | some (vs, next3, rest3) => some (v :: vs, next3, rest3)
          | none => none
        else if c = 93 then some ([v], next2, rest2)
        else none
termination_by structural fuel _ _ _ => fuel
end

/-- The tree a text decodes to, its storage allocated in the given region; `none` when
the text is not the JSON encoding of a value followed by space bytes only, nests more
than `maxNestingDepth` arrays and objects, or holds a number out of range. -/
def decode (S : Scalars) (region : Nat) (data : GoString) : Option GoValue :=
  match parseValue S region (data.length + 1) 0 0 (skipSpace data) with
  | some (v, _, rest) => if skipSpace rest = [] then some v else none
  | none => none

/-- Go `json.Unmarshal(data, &v)` for a nil `interface{}` `v`: the decoded tree, or the
text of the error. -/
def Unmarshal (S : Scalars) (region : Nat) (data : GoString) : Except GoString GoValue :=
  match decode S region data with
  | some v => .ok v
  | none => .error (S.errorText data)

end json

/-! ## JSON texts as syntax trees -/

namespace json

/-- A JSON value as it is written: its tokens and the space bytes between them.
A number is its literal, a string the body between its quotes.  An element of an array
is a value with the space before and after it; a member of an object is the space before
the key, the body of the key, the space before the colon, and the value with the space
before and after it.  `inner` is the space after the opening bracket or brace. -/
inductive Doc where
  | null
  | bool (b : Bool)
  | number (lit : GoString)
  | string (raw : GoString)
  | array (inner : GoString) (elems : List (GoString × Doc × GoString))
  | object (inner : GoString)
      (members : List (GoString × GoString × GoString × GoString × Doc × GoString))

mutual
/-- The text of a written value. -/
def Doc.render : Doc → GoString
  | .null => ascii "null"
  | .bool true => ascii "true"
  | .bool false => ascii "false"
  | .number lit => lit
  | .string raw => 34 :: (raw ++ [34])
  | .array inner elems => 91 :: (inner ++ (renderElems elems ++ [93]))
  | .object inner members => 123 :: (inner ++ (renderMembers members ++ [125]))
/-- The elements of an array, separated by commas. -/
def renderElems : List (GoString × Doc × GoString) → GoString
  | [] => []
  | (w1, d, w2) :: rest =>
    w1 ++ (d.render ++ (w2 ++ (match rest with
      | [] => []
      | _ :: _ => 44 :: renderElems rest)))
/-- The members of an object, separated by commas. -/
def renderMembers :
    List (GoString × GoString × GoString × GoString × Doc × GoString) → GoString
  | [] => []
  | (w1, raw, w2, w3, d, w4) :: rest =>
    w1 ++ (34 :: (raw ++ (34 :: (w2 ++ (58 :: (w3 ++ (d.render ++ (w4 ++ (match rest with
      | [] => []
      | _ :: _ => 44 :: renderMembers rest)))))))))
end

/-- What is written after an element: nothing after the last one, otherwise a comma and
the elements that follow. -/
def moreElems (rest : List (GoString × Doc × GoString)) : GoString :=
  match rest with
  | [] => []
  | _ :: _ => 44 :: renderElems rest

/-- What is written after a member: nothing after the last one, otherwise a comma and
the members that follow. -/
def moreMembers (rest : List (GoString × GoString × GoString × GoString × Doc × GoString)) :
    GoString :=
  match rest with
  | [] => []
  | _ :: _ => 44 :: renderMembers rest

/-- The text made of a written value between leading and trailing space. -/
def text (lead : GoString) (d : Doc) (trail : GoString) : GoString :=
  lead ++ (d.render ++ trail)

mutual
/-- The tree the decoder builds for a written value, allocating from the offset `next`
in the region, and the next free offset. -/
def Doc.decoded (S : Scalars) (region : Nat) : Nat → Doc → GoValue × Nat
  | next, .null => (.nil, next)
  | next, .bool b => (.bool b, next)
  | next, .number lit => (.float64 ((S.parseFloat lit).getD 0), next)
  | next, .string raw => (.string (S.unquote raw), next)
  | next, .array _ elems =>
    (.slice .iface (some (⟨region, next⟩, (decodedElems S region (next + 1) elems).1)),
      (decodedElems S region (next + 1) elems).2)
  | next, .object _ members =>
    (.map .string .iface (some (⟨region, next⟩,
        (decodedMembers S region (next + 1) [] members).1)),
      (decodedMembers S region (next + 1) [] members).2)
/-- The trees of the elements of an array, in order. -/
def decodedElems (S : Scalars) (region : Nat) :
    Nat → List (GoString × Doc × GoString) → List GoValue × Nat
  | next, [] => ([], next)
  | next, (_, d, _) :: rest =>
    ((d.decoded S region next).1 ::
        (decodedElems S region (d.decoded S region next).2 rest).1,
      (decodedElems S region (d.decoded S region next).2 rest).2)
/-- The entries of a map after the assignment of the members of an object, in order, to
the entries `acc`. -/
def decodedMembers (S : Scalars) (region : Nat) :
    Nat → List (GoValue × GoValue) →
      List (GoString × GoString × GoString × GoString × Doc × GoString) →
      List (GoValue × GoValue) × Nat
  | next, acc, [] => (acc, next)
  | next, acc, (_, raw, _, _, d, _) :: rest =>
    decodedMembers S region (d.decoded S region next).2
      (mapAssign acc (.string (S.unquote raw)) (d.decoded S region next).1) rest
end

mutual
/-- The tree a written value denotes, every slice and map of it placed at the offset 0 of
the region: the content of the decoded tree, whatever the offsets of its storage. -/
def Doc.tree (S : Scalars) (region : Nat) : Doc → GoValue
  | .null => .nil
  | .bool b => .bool b
  | .number lit => .float64 ((S.parseFloat lit).getD 0)
  | .string raw => .string (S.unquote raw)
  | .array _ elems => .slice .iface (some (⟨region, 0⟩, treeElems S region elems))
  | .object _ members =>
    .map .string .iface (some (⟨region, 0⟩, treeMembers S region [] members))
/-- The trees of the elements of an array. -/
def treeElems (S : Scalars) (region : Nat) : List (GoString × Doc × GoString) → List GoValue
  | [] => []
  | (_, d, _) :: rest => d.tree S region :: treeElems S region rest
/-- The entries after the assignment of the members, in order, to the entries `acc`. -/
def treeMembers (S : Scalars) (region : Nat) :
    List (GoValue × GoValue) →
      List (GoString × GoString × GoString × GoString × Doc × GoString) →
      List (GoValue × GoValue)
  | acc, [] => acc
  | acc, (_, raw, _, _, d, _) :: rest =>
    treeMembers S region (mapAssign acc (.string (S.unquote raw)) (d.tree S region)) rest
end

/-- The text does not go on a number: it is empty or starts with a byte that is neither
a digit, nor a dot, nor `e` or `E`. -/
def numberEnd : GoString → Bool
  | [] => true
  | c :: _ => !(isDigit c || c == 46 || c == 101 || c == 69)

/-- Every byte is a space byte. -/
def allSpace (w : GoString) : Bool := w.all isSpace

/-- The text is a number literal: the scanner reads all of it as one number. -/
def validNumber (lit : GoString) : Bool := scanNumber lit == some (lit, [])

/-- The text is the body of a string literal: followed by a quote, the scanner reads all
of it up to that quote. -/
def validString (raw : GoString) : Bool := scanString (raw ++ [34]) == some (raw, [])

mutual
/-- The written value is well formed below `depth` open arrays and objects: its space
is made of space bytes, its numbers are number literals in range, its strings and keys
are bodies of string literals, and no more than `maxNestingDepth` arrays and objects are
open at once. -/
def Doc.valid (S : Scalars) : Nat → Doc → Bool
  | _, .null => true
  | _, .bool _ => true
  | _, .number lit => validNumber lit && (S.parseFloat lit).isSome
  | _, .string raw => validString raw
  | depth, .array inner elems =>
    decide (depth < maxNestingDepth) && allSpace inner && validElems S (depth + 1) elems
  | depth, .object inner members =>
    decide (depth < maxNestingDepth) && allSpace inner && validMembers S (depth + 1) members
/-- Every element is well formed. -/
def validElems (S : Scalars) : Nat → List (GoString × Doc × GoString) → Bool
  | _, [] => true
  | depth, (w1, d, w2) :: rest =>
    allSpace w1 && d.valid S depth && allSpace w2 && validElems S depth rest
/-- Every member is well formed. -/
def validMembers (S : Scalars) :
    Nat → List (GoString × GoString × GoString × GoString × Doc × GoString) → Bool
  | _, [] => true
  | depth, (w1, raw, w2, w3, d, w4) :: rest =>
    allSpace w1 && validString raw && allSpace w2 && allSpace w3 && d.valid S depth &&
      allSpace w4 && validMembers S depth rest
end

/-- The text `lead ++ d.render ++ trail` is a well-formed JSON text. -/
def validText (S : Scalars) (lead : GoString) (d : Doc) (trail : GoString) : Bool :=
  allSpace lead && d.valid S 0 && allSpace trail

mutual
/-- The written value without any space between its tokens. -/
def Doc.strip : Doc → Doc
  | .null => .null
  | .bool b => .bool b
  | .number lit => .number lit
  | .string raw => .string raw
  | .array _ elems => .array [] (stripElems elems)
  | .object _ members => .object [] (stripMembers members)
/-- The elements without any space. -/
def stripElems : List (GoString × Doc × GoString) → List (GoString × Doc × GoString)
  | [] => []
  | (_, d, _) :: rest => ([], d.strip, []) :: stripElems rest
/-- The members without any space. -/
def stripMembers :
    List (GoString × GoString × GoString × GoString × Doc × GoString) →
      List (GoString × GoString × GoString × GoString × Doc × GoString)
  | [] => []
  | (_, raw, _, _, d, _) :: rest => ([], raw, [], [], d.strip, []) :: stripMembers rest
end

/-- The key a member is stored under: the text its key literal denotes. -/
def memberKey (S : Scalars)
    (m : GoString × GoString × GoString × GoString × Doc × GoString) : GoString :=
  S.unquote m.2.1

mutual
/-- `d.Reordered S d2`: the written value `d2` is `d` with the members of some of its
objects, at any depth, written in another order; only objects whose keys are pairwise
different are reordered. -/
def Doc.Reordered (S : Scalars) : Doc → Doc → Prop
  | .array inner elems, d2 => ∃ elems2, ReorderedElems S elems elems2 ∧ d2 = .array inner elems2
  | .object inner members, d2 =>
    ∃ members2 members3, ReorderedMembers S members members2 ∧ List.Perm members2 members3 ∧
      (members2 = members3 ∨ (members2.map (memberKey S)).Nodup) ∧
      d2 = .object inner members3
  | .null, d2 => d2 = .null
  | .bool b, d2 => d2 = .bool b
  | .number lit, d2 => d2 = .number lit
  | .string raw, d2 => d2 = .string raw
/-- Element by element `Reordered`. -/
def ReorderedElems (S : Scalars) :
    List (GoString × Doc × GoString) → List (GoString × Doc × GoString) → Prop
  | [], elems2 => elems2 = []
  | (w1, d, w2) :: rest, elems2 =>
    ∃ d2 rest2, d.Reordered S d2 ∧ ReorderedElems S rest rest2 ∧ elems2 = (w1, d2, w2) :: rest2
/-- Member by member `Reordered` of the values, under the same keys in the same order. -/
def ReorderedMembers (S : Scalars) :
    List (GoString × GoString × GoString × GoString × Doc × GoString) →
      List (GoString × GoString × GoString × GoString × Doc × GoString) → Prop
  | [], members2 => members2 = []
  | (w1, raw, w2, w3, d, w4) :: rest, members2 =>
    ∃ d2 rest2, d.Reordered S d2 ∧ ReorderedMembers S rest rest2 ∧
      members2 = (w1, raw, w2, w3, d2, w4) :: rest2
end

end json

/-! ## Storage regions -/

mutual
/-- The storage of every slice and map of the value lies in the region. -/
def inRegion (r : Nat) : GoValue → Bool
  | .slice _ (some (p, xs)) => p.region == r && inRegionList r xs
  | .map _ _ (some (p, m)) => p.region == r && inRegionEntries r m
  | .struct _ fs => inRegionList r fs
  | _ => true
/-- Every value of the list lies in the region. -/
def inRegionList (r : Nat) : List GoValue → Bool
  | [] => true
  | x :: xs => inRegion r x && inRegionList r xs
/-- Every key and every value lies in the region. -/
def inRegionEntries (r : Nat) : List (GoValue × GoValue) → Bool
  | [] => true
  | (k, v) :: rest => inRegion r k && inRegion r v && inRegionEntries r rest
end

mutual
/-- The value with every slice and map of it placed at the offset 0 of the region. -/
def atRegion (r : Nat) : GoValue → GoValue
  | .slice t (some (_, xs)) => .slice t (some (⟨r, 0⟩, atRegionList r xs))
  | .map k w (some (_, m)) => .map k w (some (⟨r, 0⟩, atRegionEntries r m))
  | .struct n fs => .struct n (atRegionList r fs)
  | .nil => .nil
  | .bool b => .bool b
  | .int n => .int n
  | .float64 bits => .float64 bits
  | .string s => .string s
  | .duration ns => .duration ns
  | .bytes data => .bytes data
  | .func sig code => .func sig code
  | .failureMessageArgs n => .failureMessageArgs n
  | .slice t none => .slice t none
  | .map k w none => .map k w none
/-- Every value of the list placed in the region. -/
def atRegionList (r : Nat) : List GoValue → List GoValue
  | [] => []
  | x :: xs => atRegion r x :: atRegionList r xs
/-- Every key and every value placed in the region. -/
def atRegionEntries (r : Nat) : List (GoValue × GoValue) → List (GoValue × GoValue)
  | [] => []
  | (k, v) :: rest => (atRegion r k, atRegion r v) :: atRegionEntries r rest
end

namespace json

/-- The written values directly held by a written value: the elements of an array, the
values of the members of an object. -/
def Doc.children : Doc → List Doc
  | .array _ elems => elems.map (fun e => e.2.1)
  | .object _ members => members.map (fun m => m.2.2.2.2.1)
  | _ => []

/-- The entry a member gives when no other member has its key. -/
def memberEntry (S : Scalars) (r : Nat)
    (m : GoString × GoString × GoString × GoString × Doc × GoString) : GoValue × GoValue :=
  (.string (memberKey S m), m.2.2.2.2.1.tree S r)

end json

/-! ## Observations on a verifier call -/

/-- The outcome of a verifier call obeys the reporting discipline: nothing is sent to the
sink on success, exactly one `Errorf` on failure, and never `Fatal` or `Fatalf`. -/
def ReportsThroughErrorf (r : Bool × List SinkCall) : Prop :=
  (r.1 = true → r.2 = []) ∧
  (r.1 = false → ∃ format args, r.2 = [SinkCall.Errorf format args]) ∧
  (∀ c ∈ r.2, (∀ args, c ≠ SinkCall.Fatal args) ∧ (∀ format args, c ≠ SinkCall.Fatalf format args))

/-- The failure message of `DefaultVerifier.Equal` on the invalid-operation path. -/
def invalidOperationMessage (R : Runtime) (expected actual : GoValue) : GoString :=
  ascii "Invalid operation: " ++ R.sprintSharpV expected ++ ascii " == " ++
    R.sprintSharpV actual ++ ascii " (cannot take func type as argument)"

/-- The entries `DefaultVerifier.Fail` renders, in report order. -/
def failContent (R : Runtime) (t : TestingT) (failureMessage : GoString)
    (msgAndArgs : List GoValue) : List labeledContent :=
  [⟨ascii "Error Trace", strings.Join (callerInfo R) (ascii "\n\t\t\t")⟩,
   ⟨ascii "Error", failureMessage⟩] ++
  (match t.Name with
   | some n => [⟨ascii "Test", n⟩]
   | none => []) ++
  messageFromMsgAndArgs R msgAndArgs

/-! ## A concrete environment -/

/-- The bit pattern of the quiet NaN `math.NaN()` returns. -/
def nanBits : Nat := 0x7FF8000000000001

/-- A sample of the scalar decoders: `strconv.ParseFloat` on the literals `0`, `1` and
`2`, every other literal being left out of the sample; the body of a string literal taken
as it is, which is the text it denotes when it holds no backslash; and, for every text
that is not decoded, the error text `encoding/json` gives for the text `not json`. -/
def sampleScalars : json.Scalars where
  parseFloat := fun lit =>
    if lit = ascii "0" then some 0
    else if lit = ascii "1" then some 0x3FF0000000000000
    else if lit = ascii "2" then some 0x4000000000000000
    else none
  unquote := fun raw => raw
  errorText := fun _ => ascii "invalid character 'o' in literal null (expecting 'u')"

/-- A concrete environment: a test `TestFoo` in `app/x_test.go` calls the verifier. -/
def sampleRuntime : Runtime where
  sprintV := fun _ => ascii "?"
  sprintPlusV := fun _ => ascii "?"
  sprintSharpV := fun _ => ascii "?"
  sprintT := fun _ => ascii "?"
  unmarshal := json.Unmarshal sampleScalars
  diff := fun _ _ => []
  stack :=
    [⟨ascii "/src/spectest/assert.go", 267, some (ascii "github.com/go-spectest/spectest.callerInfo")⟩,
     ⟨ascii "/src/spectest/assert.go", 98, some (ascii "github.com/go-spectest/spectest.DefaultVerifier.Fail")⟩,
     ⟨ascii "/src/app/x_test.go", 12, some (ascii "app.TestFoo")⟩,
     ⟨ascii "/go/src/testing/testing.go", 1595, some (ascii "testing.tRunner")⟩]
  unicodeLower := fun _ => false

/-- A sink that exposes the test name `T1`. -/
def sampleSink : TestingT := ⟨some (ascii "T1")⟩

/-! ## Well-formed and shallowly regular values -/

namespace GoValue

/-- The values directly held by a value: the elements of a slice, the keys and values of
a map, the fields of a struct. -/
def children : GoValue → List GoValue
  | .slice _ (some (_, xs)) => xs
  | .map _ _ (some (_, m)) => m.map Prod.fst ++ m.map Prod.snd
  | .struct _ fs => fs
  | _ => []

end GoValue

mutual
/-- The value may be used as a map key: its type is comparable with `==`. -/
def hashable : GoValue → Bool
  | .nil => true
  | .bool _ => true
  | .int _ => true
  | .float64 _ => true
  | .string _ => true
  | .duration _ => true
  | .failureMessageArgs _ => true
  | .struct _ fs => hashableList fs
  | .bytes _ => false
  | .func _ _ => false
  | .slice _ _ => false
  | .map _ _ _ => false
/-- All fields of a struct may be compared with `==`. -/
def hashableList : List GoValue → Bool
  | [] => true
  | f :: fs => hashable f && hashableList fs
end

/-- No two entries of the map have keys that are `==`. -/
def distinctKeys : List (GoValue × GoValue) → Bool
  | [] => true
  | e :: rest => rest.all (fun e2 => !goEq e.1 e2.1) && distinctKeys rest

mutual
/-- The representation invariant of a Go value: every map, at any depth, has hashable and
pairwise distinct keys. -/
def wellFormed : GoValue → Bool
  | .slice _ (some (_, xs)) => wellFormedList xs
  | .map _ _ (some (_, m)) => distinctKeys m && wellFormedEntries m
  | .struct _ fs => wellFormedList fs
  | _ => true
/-- Every value of the list is well formed. -/
def wellFormedList : List GoValue → Bool
  | [] => true
  | x :: xs => wellFormed x && wellFormedList xs
/-- Every key is hashable and every key and value is well formed. -/
def wellFormedEntries : List (GoValue × GoValue) → Bool
  | [] => true
  | (k, v) :: rest => hashable k && wellFormed k && wellFormed v && wellFormedEntries rest
end

mutual
/-- No NaN floating-point number and no non-nil function value is met in the value on a
way that goes through struct fields alone: what a slice or a map holds is not looked
at. -/
def shallowRegular : GoValue → Bool
  | .float64 bits => !isNaN bits
  | .func _ code => code.isNone
  | .struct _ fs => shallowRegularList fs
  | _ => true
/-- Every value of the list is shallowly regular. -/
def shallowRegularList : List GoValue → Bool
  | [] => true
  | x :: xs => shallowRegular x && shallowRegularList xs
end
/-! ## Reordering the entries of maps -/

mutual
/-- `KeyReorder x y`: the value `y` is `x` with the entries of any of its maps, at any
depth, listed in another order. -/
def KeyReorder : GoValue → GoValue → Prop
  | .slice t (some (p, xs)), y => ∃ ys, KeyReorderList xs ys ∧ y = .slice t (some (p, ys))
  | .map k w (some (p, m)), y =>
    ∃ m2 m3, KeyReorderEntries m m2 ∧ List.Perm m2 m3 ∧ y = .map k w (some (p, m3))
  | .nil, y => y = .nil
  | .bool b, y => y = .bool b
  | .int n, y => y = .int n
  | .float64 bits, y => y = .float64 bits
  | .string s, y => y = .string s
  | .duration ns, y => y = .duration ns
  | .bytes data, y => y = .bytes data
  | .func sig code, y => y = .func sig code
  | .failureMessageArgs n, y => y = .failureMessageArgs n
  | .slice t none, y => y = .slice t none
  | .map k w none, y => y = .map k w none
  | .struct n fs, y => y = .struct n fs
/-- Element by element `KeyReorder`. -/
def KeyReorderList : List GoValue → List GoValue → Prop
  | [], ys => ys = []
  | x :: xs, ys => ∃ y ys2, KeyReorder x y ∧ KeyReorderList xs ys2 ∧ ys = y :: ys2
/-- Entry by entry `KeyReorder` of the values, under the same keys in the same order. -/
def KeyReorderEntries : List (GoValue × GoValue) → List (GoValue × GoValue) → Prop
  | [], m2 => m2 = []
  | (k, v) :: rest, m2 =>
    ∃ v2 rest2, KeyReorder v v2 ∧ KeyReorderEntries rest rest2 ∧ m2 = (k, v2) :: rest2
end

/-! ## NoopVerifier -/

namespace NoopVerifier

/-- Source `NoopVerifier.True`. -/
def True (_t : TestingT) (_value : Bool) (_msgAndArgs : List GoValue) : Bool × List SinkCall :=
  (true, [])

/-- Source `NoopVerifier.Equal`. -/
def Equal (_t : TestingT) (_expected _actual : GoValue) (_msgAndArgs : List GoValue) :
    Bool × List SinkCall :=
  (true, [])

/-- Source `NoopVerifier.JSONEq`. -/
def JSONEq (_t : TestingT) (_expected _actual : GoString) (_msgAndArgs : List GoValue) :
    Bool × List SinkCall :=
  (true, [])

/-- Source `NoopVerifier.Fail`. -/
def Fail (_t : TestingT) (_failureMessage : GoString) (_msgAndArgs : List GoValue) :
    Bool × List SinkCall :=
  (true, [])

/-- Source `NoopVerifier.NoError`. -/
def NoError (_t : TestingT) (_err : Option GoError) (_msgAndArgs : List GoValue) :
    Bool × List SinkCall :=
  (true, [])

end NoopVerifier

/-! ## Outcome predicates -/

namespace http

/-- The constant `http.StatusOK`. -/
def StatusOK : Int := 200

/-- The constant `http.StatusBadRequest`. -/
def StatusBadRequest : Int := 400

/-- The constant `http.StatusInternalServerError`. -/
def StatusInternalServerError : Int := 500

/-- The part of `http.Response` the predicates read; the pointer handed to an `Assert` is
taken to be non-nil. -/
structure Response where
  StatusCode : Int

/-- The request handed to an `Assert`; the predicates do not read it. -/
structure Request where
  Method : GoString

end http

/-- Decimal rendering of an `int`, the `%d` verb of `fmt`. -/
def decimalInt (n : Int) : GoString :=
  if n < 0 then ascii "-" ++ decimal n.natAbs else decimal n.toNat

/-- The number a sequence of ASCII decimal digits denotes, read from the left, starting
from `acc`; `none` when a byte is not a digit. -/
def digitsValueFrom (acc : Nat) : GoString → Option Nat
  | [] => some acc
  | c :: rest => if 48 ≤ c ∧ c ≤ 57 then digitsValueFrom (acc * 10 + (c - 48)) rest else none

/-- The integer a decimal numeral denotes: an optional minus sign followed by at least
one digit; `none` for any other text. -/
def decimalValue (s : GoString) : Option Int :=
  match s with
  | [] => none
  | c :: rest =>
    if c = 45 then
      (if rest = [] then none
       else match digitsValueFrom 0 rest with
         | some n => some (- Int.ofNat n)
         | none => none)
    else match digitsValueFrom 0 (c :: rest) with
      | some n => some (Int.ofNat n)
      | none => none

/-- Go `fmt.Errorf` for a format without `%w`, applied to the formatted text: an error
whose `Error()` and whose `%+v` rendering are that text. -/
def fmt.Errorf (text : GoString) : GoError := ⟨text, text⟩

/-- Source `IsSuccess`: `none` is the nil error. -/
def IsSuccess (response : http.Response) (_request : http.Request) : Option GoError :=
  if response.StatusCode ≥ http.StatusOK ∧ response.StatusCode < http.StatusBadRequest then none
  else some (fmt.Errorf (ascii "not success. Status code=" ++ decimalInt response.StatusCode))

/-- Source `IsClientError`. -/
def IsClientError (response : http.Response) (_request : http.Request) : Option GoError :=
  if response.StatusCode ≥ http.StatusBadRequest ∧
      response.StatusCode < http.StatusInternalServerError then none
  else some (fmt.Errorf (ascii "not a client error. Status code=" ++
    decimalInt response.StatusCode))

/-- Source `IsServerError`. -/
def IsServerError (response : http.Response) (_request : http.Request) : Option GoError :=
  if response.StatusCode ≥ http.StatusInternalServerError then none
  else some (fmt.Errorf (ascii "not a server error. Status code=" ++
    decimalInt response.StatusCode))

/-! ## Renderings of `fmt` on sample values -/

/-- The text handed to the sink by a failed check: the argument of its `Errorf` call;
empty when the outcome holds no such call. -/
def reportedText (r : Bool × List SinkCall) : GoString :=
  match r.2 with
  | [SinkCall.Errorf _ [GoValue.string s]] => s
  | _ => []

/-- The rendering `fmt.Sprintf("%#v", x)` on sample values: a `string` of printable ASCII
holding no quote and no backslash is written between double quotes, an `int` in decimal,
a `bool` as `true` or `false`, the nil interface as `<nil>`. -/
def sampleSharpV : GoValue → GoString
  | .string s => ascii "\"" ++ s ++ ascii "\""
  | .int n => decimalInt n
  | .bool b => if b then ascii "true" else ascii "false"
  | .nil => ascii "<nil>"
  | _ => ascii "?"

/-- The rendering `fmt.Sprintf("%T", x)` on sample values. -/
def sampleT : GoValue → GoString
  | .string _ => ascii "string"
  | .int _ => ascii "int"
  | .bool _ => ascii "bool"
  | .float64 _ => ascii "float64"
  | .duration _ => ascii "time.Duration"
  | .bytes _ => ascii "[]uint8"
  | .nil => ascii "<nil>"
  | _ => ascii "?"

/-- The rendering `fmt.Sprintf("%v", x)` on sample values: the durations of one and of two
seconds, an `int`, a `string`. -/
def sampleV : GoValue → GoString
  | .duration ns =>
    if ns = 1000000000 then ascii "1s" else if ns = 2000000000 then ascii "2s" else ascii "?"
  | .int n => decimalInt n
  | .string s => s
  | _ => ascii "?"

/-- The environment `sampleRuntime` with the sample renderings of `fmt` and a sample text
for the diff suffix. -/
def fmtRuntime : Runtime :=
  { sampleRuntime with
    sprintV := sampleV
    sprintSharpV := sampleSharpV
    sprintT := sampleT
    diff := fun _ _ => ascii "\n\nDiff:\n--- Expected\n+++ Actual\n@@ -1 +1 @@\n-a\n+b\n" }

/-- The environment `sampleRuntime` with a `%#v` rendering of 70000 bytes for every
value. -/
def longRuntime : Runtime :=
  { sampleRuntime with sprintSharpV := fun _ => List.replicate 70000 120 }

/-! ## Descriptions used in the statements on the composer -/

/-- The plain-text (`string`) arguments of the list, in their order. -/
def plainTexts : List GoValue → List GoString
  | [] => []
  | .string s :: rest => s :: plainTexts rest
  | _ :: rest => plainTexts rest

/-- The names carried by the name-carriers (`failureMessageArgs`) of the list, in their
order. -/
def carriedNames : List GoValue → List GoString
  | [] => []
  | .failureMessageArgs n :: rest => n :: carriedNames rest
  | _ :: rest => carriedNames rest

/-- The rendering `fmt.Sprintf("%+v", x)` on sample values: the byte sequence
`[]byte{1, 2}` as `[1 2]`, an `int` in decimal, a `string` as itself, the nil interface as
`<nil>`. -/
def samplePlusV : GoValue → GoString
  | .bytes (some [1, 2]) => ascii "[1 2]"
  | .int n => decimalInt n
  | .string s => s
  | .nil => ascii "<nil>"
  | _ => ascii "?"

/-- The rendering `fmt.Sprintf("%#v", x)` on sample values, with the byte sequence
`[]byte{1, 2}` rendered in Go syntax. -/
def sampleSharpVBytes : GoValue → GoString
  | .bytes (some [1, 2]) => ascii "[]byte\x7b0x1, 0x2\x7d"
  | v => sampleSharpV v

/-- The environment `fmtRuntime` with the sample renderings of `%+v` and of byte
sequences. -/
def composerRuntime : Runtime :=
  { fmtRuntime with
    sprintPlusV := samplePlusV
    sprintSharpV := sampleSharpVBytes }

/-! ## Descriptions used in the statements on the renderer -/

/-- The longest label length, as the first loop of `labeledOutput` computes it. -/
def longestLabelLen (content : List labeledContent) : Nat :=
  content.foldl
    (fun longest v => if v.label.length > longest then v.label.length else longest) 0

/-- The prefix `indentMessageLines` writes before every line but the first. -/
def continuationPrefix (W : Nat) : GoString :=
  ascii "\n\t" ++ strings.Repeat (ascii " ") (W + 1) ++ ascii "\t"

/-- The row of an entry in the rendered block: tab, label, colon, padding to the label
width `W`, tab, the text shown in the content column, newline. -/
def labeledRow (W : Nat) (label shown : GoString) : GoString :=
  ascii "\t" ++ label ++ ascii ":" ++ strings.Repeat (ascii " ") (W - label.length) ++
    ascii "\t" ++ shown ++ ascii "\n"

/-- The first line, then every later line behind the continuation prefix. -/
def indentedLines (W : Nat) : List GoString → GoString
  | [] => []
  | first :: later => first ++ (later.map (fun line => continuationPrefix W ++ line)).flatten

/-- The lines without a final empty line. -/
def dropFinalEmpty (lines : List GoString) : List GoString :=
  if lines.getLast? = some [] then lines.dropLast else lines

/-! ## Descriptions used in the statements on the locator -/

/-- The short name of a function: the segment of its name after the last `.`. -/
def shortName (name : GoString) : GoString := (strings.Split name 46).getLastD []

/-- The short name follows the `Test`, `Benchmark` or `Example` naming convention. -/
def isTestName (R : Runtime) (short : GoString) : Bool :=
  isTest R short (ascii "Test") || isTest R short (ascii "Benchmark")
    || isTest R short (ascii "Example")

/-- The function of the frame is resolved and its short name follows the naming
convention. -/
def isTestFrame (R : Runtime) (frame : Frame) : Bool :=
  match frame.funcName with
  | some name => isTestName R (shortName name)
  | none => false

/-- The walk stops at the frame before processing it: the file is `<autogenerated>`, the
function is unresolved, or the function is `testing.tRunner`. -/
def stopsBefore (frame : Frame) : Bool :=
  decide (frame.file = ascii "<autogenerated>") || frame.funcName.isNone
    || decide (frame.funcName = some (ascii "testing.tRunner"))

/-- What `callerInfo` appends for a frame it processes: `file:line` with the base name of
the file, unless the path has no directory or the directory is `assert`, `mock` or
`require` and the file is not `mock_test.go`. -/
def frameEntry (frame : Frame) : List GoString :=
  let parts := strings.Split frame.file 47
  let file := parts.getLastD []
  if parts.length > 1 then
    let dir := parts.getD (parts.length - 2) []
    if (dir ≠ ascii "assert" ∧ dir ≠ ascii "mock" ∧ dir ≠ ascii "require")
        ∨ file = ascii "mock_test.go" then
      [file ++ ascii ":" ++ decimal frame.line]
    else []
  else []

/-- A stack on which the walk ends at the test runner without meeting a test function. -/
def helperStack : List Frame :=
  [⟨ascii "/src/spectest/assert.go", 267, some (ascii "github.com/go-spectest/spectest.callerInfo")⟩,
   ⟨ascii "/src/app/helper.go", 7, some (ascii "app.check")⟩,
   ⟨ascii "/go/src/testing/testing.go", 1595, some (ascii "testing.tRunner")⟩,
   ⟨ascii "/go/src/runtime/asm_amd64.s", 1650, some (ascii "runtime.goexit")⟩]

/-- The environment `sampleRuntime` seen from the stack `helperStack`. -/
def helperRuntime : Runtime :=
  { sampleRuntime with stack := helperStack }

/-! ## Further descriptions for the locator, the renderer and the composer -/

/-- The base name of a file path: the segment after the last `/`. -/
def baseName (file : GoString) : GoString := (strings.Split file 47).getLastD []

/-- The name of the directory immediately containing the file: the segment before the
last `/`; `none` when the path holds no `/`. -/
def parentDir (file : GoString) : Option GoString :=
  let parts := strings.Split file 47
  if parts.length > 1 then some (parts.getD (parts.length - 2) []) else none

/-- The part of a row before the content column: tab, label, colon, padding to the label
width `W`, tab. -/
def rowPrefix (W : Nat) (label : GoString) : GoString :=
  ascii "\t" ++ label ++ ascii ":" ++ strings.Repeat (ascii " ") (W - label.length) ++
    ascii "\t"

/-- The part of the continuation prefix that follows its newline: tab, `W + 1` spaces,
tab. -/
def continuationIndent (W : Nat) : GoString :=
  ascii "\t" ++ strings.Repeat (ascii " ") (W + 1) ++ ascii "\t"

/-- The argument is a plain text or a name-carrier. -/
def isTextOrCarrier : GoValue → Bool
  | .string _ => true
  | .failureMessageArgs _ => true
  | _ => false

/-- A stack with a frame whose file path holds no directory. -/
def bareFileRuntime : Runtime :=
  { sampleRuntime with
    stack :=
      [⟨ascii "/src/spectest/assert.go", 267,
          some (ascii "github.com/go-spectest/spectest.callerInfo")⟩,
       ⟨ascii "main.go", 3, some (ascii "main.check")⟩,
       ⟨ascii "/go/src/testing/testing.go", 1595, some (ascii "testing.tRunner")⟩] }

/-- A stack with frames in directories named `assert`, `mock` and `require`. -/
def filterStack : List Frame :=
  [⟨ascii "/src/spectest/assert.go", 267,
      some (ascii "github.com/go-spectest/spectest.callerInfo")⟩,
   ⟨ascii "/mod/testify/assert/assertions.go", 40, some (ascii "assert.check")⟩,
   ⟨ascii "/src/app/mock/mock_test.go", 5, some (ascii "mock.verify")⟩,
   ⟨ascii "/src/app/mock/server.go", 9, some (ascii "mock.serve")⟩,
   ⟨ascii "/src/app/require/must.go", 2, some (ascii "require.must")⟩,
   ⟨ascii "/src/app/x_test.go", 12, some (ascii "app.TestFoo")⟩,
   ⟨ascii "/go/src/testing/testing.go", 1595, some (ascii "testing.tRunner")⟩]

/-- The environment `sampleRuntime` seen from the stack `filterStack`. -/
def filterRuntime : Runtime :=
  { sampleRuntime with stack := filterStack }

/-- The stack of a call of `DefaultVerifier.Equal` from the test `TestFoo`: the frames of
`callerInfo`, `Fail` and `Equal` in `assert.go` of the package directory `spectest`, then
the test function and the test runner. -/
def equalRuntime : Runtime :=
  { sampleRuntime with
    stack :=
      [⟨ascii "/src/spectest/assert.go", 267,
          some (ascii "github.com/go-spectest/spectest.callerInfo")⟩,
       ⟨ascii "/src/spectest/assert.go", 98,
          some (ascii "github.com/go-spectest/spectest.DefaultVerifier.Fail")⟩,
       ⟨ascii "/src/spectest/assert.go", 88,
          some (ascii "github.com/go-spectest/spectest.DefaultVerifier.Equal")⟩,
       ⟨ascii "/src/app/x_test.go", 12, some (ascii "app.TestFoo")⟩,
       ⟨ascii "/go/src/testing/testing.go", 1595, some (ascii "testing.tRunner")⟩] }

/-- The entries `messageFromMsgAndArgs` builds from the outcome of its loop over two or
more arguments: nothing after an early return, otherwise the `Messages` entry of the
collected texts, if any, followed by the kept name-carrier entry, if any. -/
def composeScanned (outcome : Option (List GoString × Option labeledContent)) :
    List labeledContent :=
  match outcome with
  | none => []
  | some (strMsgs, structuredMsg) =>
    (if strMsgs.length > 0 then [⟨ascii "Messages", strings.Join strMsgs (ascii ", ")⟩]
     else []) ++
    (match structuredMsg with
     | some m => [m]
     | none => [])

/-! ## Theorems -/

/-! ### Induction over the values held by a value -/

theorem sizeOf_lt_of_mem_children (v c : GoValue) (h : c ∈ v.children) : sizeOf c < sizeOf v := by
  cases v with
  | slice t data =>
    cases data with
    | none => simp [GoValue.children] at h
    | some d =>
      obtain ⟨p, xs⟩ := d
      simp only [GoValue.children] at h
      have := List.sizeOf_lt_of_mem h
      simp only [GoValue.slice.sizeOf_spec, Option.some.sizeOf_spec, Prod.mk.sizeOf_spec]
      omega
  | map k w data =>
    cases data with
    | none => simp [GoValue.children] at h
    | some d =>
      obtain ⟨p, m⟩ := d
      simp only [GoValue.children, List.mem_append, List.mem_map] at h
      simp only [GoValue.map.sizeOf_spec, Option.some.sizeOf_spec, Prod.mk.sizeOf_spec]
      rcases h with ⟨e, he, rfl⟩ | ⟨e, he, rfl⟩
      · have h1 := List.sizeOf_lt_of_mem he
        have h2 : sizeOf e.1 < sizeOf e := by
          cases e; simp only [Prod.mk.sizeOf_spec]; omega
        omega
      · have h1 := List.sizeOf_lt_of_mem he
        have h2 : sizeOf e.2 < sizeOf e := by
          cases e; simp only [Prod.mk.sizeOf_spec]; omega
        omega
  | struct n fs =>
    simp only [GoValue.children] at h
    have := List.sizeOf_lt_of_mem h
    simp only [GoValue.struct.sizeOf_spec]
    omega
  | _ => simp [GoValue.children] at h

/-- Induction on values: a property that holds of a value once it holds of the values it
directly holds, holds of every value. -/
theorem GoValue.childInduction {P : GoValue → Prop}
    (step : ∀ v : GoValue, (∀ c ∈ v.children, P c) → P v) (v : GoValue) : P v := by
  have key : ∀ n : Nat, ∀ v : GoValue, sizeOf v < n → P v := by
    intro n
    induction n with
    | zero => intro v h; omega
    | succ n ih =>
      intro v hv
      apply step
      intro c hc
      apply ih
      have := sizeOf_lt_of_mem_children v c hc
      omega
  exact key (sizeOf v + 1) v (Nat.lt_succ_self _)


theorem Fail_result (R : Runtime) (t : TestingT) (m : GoString) (args : List GoValue) :
    (DefaultVerifier.Fail R t m args).1 = false := rfl

theorem Fail_calls (R : Runtime) (t : TestingT) (m : GoString) (args : List GoValue) :
    ∃ x, (DefaultVerifier.Fail R t m args).2 = [SinkCall.Errorf (ascii "\n%s") [x]] :=
  ⟨_, rfl⟩

theorem Fail_reports (R : Runtime) (t : TestingT) (m : GoString) (args : List GoValue) :
    ReportsThroughErrorf (DefaultVerifier.Fail R t m args) := by
  refine ⟨fun h => ?_, fun _ => ⟨_, _, rfl⟩, ?_⟩
  · simp [Fail_result] at h
  · intro c hc
    obtain ⟨x, hx⟩ := Fail_calls R t m args
    rw [hx] at hc
    simp only [List.mem_singleton] at hc
    subst hc
    exact ⟨(fun _ h => by cases h), (fun _ _ h => by cases h)⟩

theorem silent_reports : ReportsThroughErrorf (true, []) :=
  ⟨fun _ => rfl, fun h => by simp at h, fun c hc => by simp at hc⟩

theorem validateEqualArgs_eq_none_iff (e a : GoValue) :
    validateEqualArgs e a = none ↔
      ((e.isNil = true ∧ a.isNil = true) ∨ (isFunction e = false ∧ isFunction a = false)) := by
  unfold validateEqualArgs
  by_cases h1 : e.isNil = true <;> by_cases h2 : a.isNil = true <;>
    cases h3 : isFunction e <;> cases h4 : isFunction a <;> simp [h1, h2]

theorem validateEqualArgs_eq_some (e a : GoValue) (err : GoString)
    (h : validateEqualArgs e a = some err) : err = ascii "cannot take func type as argument" := by
  unfold validateEqualArgs at h
  split at h
  · cases h
  · split at h
    · exact (Option.some.inj h).symm
    · cases h

/-- C1: `DefaultVerifier.Equal` returns true exactly when the operands pass argument
validation (both are nil, or neither is a function value) and `objectsAreEqual` holds of
them; in every other case it returns false. -/
theorem Equal_true_iff_valid_and_equal (R : Runtime) (t : TestingT) (expected actual : GoValue)
    (msgAndArgs : List GoValue) :
    ((DefaultVerifier.Equal R t expected actual msgAndArgs).1 = true ↔
      (((expected.isNil = true ∧ actual.isNil = true) ∨
          (isFunction expected = false ∧ isFunction actual = false)) ∧
        objectsAreEqual expected actual = true)) ∧
    ((DefaultVerifier.Equal R t expected actual msgAndArgs).1 = false ↔
      ¬ (((expected.isNil = true ∧ actual.isNil = true) ∨
          (isFunction expected = false ∧ isFunction actual = false)) ∧
        objectsAreEqual expected actual = true)) ∧
    (validateEqualArgs expected actual = none ↔
      ((expected.isNil = true ∧ actual.isNil = true) ∨
        (isFunction expected = false ∧ isFunction actual = false))) := by
  have hv := validateEqualArgs_eq_none_iff expected actual
  have key : (DefaultVerifier.Equal R t expected actual msgAndArgs).1 = true ↔
      (((expected.isNil = true ∧ actual.isNil = true) ∨
          (isFunction expected = false ∧ isFunction actual = false)) ∧
        objectsAreEqual expected actual = true) := by
    rw [← hv]
    unfold DefaultVerifier.Equal
    cases hval : validateEqualArgs expected actual with
    | some err => simp [Fail_result]
    | none =>
      cases hobj : objectsAreEqual expected actual <;> simp [Fail_result]
  refine ⟨key, ?_, hv⟩
  rw [← key]
  cases (DefaultVerifier.Equal R t expected actual msgAndArgs).1 <;> simp

theorem Equal_reports (R : Runtime) (t : TestingT) (e a : GoValue) (args : List GoValue) :
    ReportsThroughErrorf (DefaultVerifier.Equal R t e a args) := by
  unfold DefaultVerifier.Equal
  cases validateEqualArgs e a with
  | some err => exact Fail_reports _ _ _ _
  | none =>
    cases hobj : objectsAreEqual e a
    · exact Fail_reports _ _ _ _
    · exact silent_reports

/-- C2: each of `Equal`, `True`, `JSONEq` and `NoError` of `DefaultVerifier` leaves the sink
untouched when it returns true, calls `Errorf` exactly once when it returns false, and never
calls `Fatal` or `Fatalf`. -/
theorem DefaultVerifier_reports_through_Errorf (R : Runtime) (t : TestingT)
    (msgAndArgs : List GoValue) :
    (∀ expected actual, ReportsThroughErrorf (DefaultVerifier.Equal R t expected actual msgAndArgs)) ∧
    (∀ value, ReportsThroughErrorf (DefaultVerifier.True R t value msgAndArgs)) ∧
    (∀ expected actual, ReportsThroughErrorf (DefaultVerifier.JSONEq R t expected actual msgAndArgs)) ∧
    (∀ err, ReportsThroughErrorf (DefaultVerifier.NoError R t err msgAndArgs)) := by
  refine ⟨fun e a => Equal_reports R t e a msgAndArgs, ?_, ?_, ?_⟩
  · intro value
    cases value
    · exact Fail_reports _ _ _ _
    · exact silent_reports
  · intro expected actual
    unfold DefaultVerifier.JSONEq
    cases R.unmarshal 0 expected with
    | error err => exact Fail_reports _ _ _ _
    | ok pe =>
      cases R.unmarshal 1 actual with
      | error err => exact Fail_reports _ _ _ _
      | ok pa => exact Equal_reports R t pe pa msgAndArgs
  · intro err
    cases err with
    | some e => exact Fail_reports _ _ _ _
    | none => exact silent_reports

theorem objectsAreEqual_nil_left (x : GoValue) : objectsAreEqual .nil x = x.isNil := by
  simp [objectsAreEqual, GoValue.isNil]

theorem objectsAreEqual_nil_right (x : GoValue) : objectsAreEqual x .nil = x.isNil := by
  simp [objectsAreEqual, GoValue.isNil]

theorem isFunction_of_isNil (x : GoValue) (h : x.isNil = true) : isFunction x = false := by
  cases x <;> simp_all [GoValue.isNil, isFunction]

/-- C3: two nil operands are equal, a nil operand and a non-nil operand are unequal in
either order, and `DefaultVerifier.Equal` succeeds in the first case and fails in the
second. -/
theorem nil_operands (R : Runtime) (t : TestingT) (x : GoValue) (msgAndArgs : List GoValue)
    (hx : x.isNil = false) :
    objectsAreEqual .nil .nil = true ∧
    objectsAreEqual .nil x = false ∧
    objectsAreEqual x .nil = false ∧
    (DefaultVerifier.Equal R t .nil .nil msgAndArgs).1 = true ∧
    (DefaultVerifier.Equal R t .nil x msgAndArgs).1 = false ∧
    (DefaultVerifier.Equal R t x .nil msgAndArgs).1 = false := by
  have h1 : objectsAreEqual .nil x = false := by rw [objectsAreEqual_nil_left, hx]
  have h2 : objectsAreEqual x .nil = false := by rw [objectsAreEqual_nil_right, hx]
  refine ⟨rfl, h1, h2, rfl, ?_, ?_⟩
  · unfold DefaultVerifier.Equal
    cases validateEqualArgs GoValue.nil x <;> simp [h1, Fail_result]
  · unfold DefaultVerifier.Equal
    cases validateEqualArgs x GoValue.nil <;> simp [h2, Fail_result]

/-- Witness of C3 at the operand `int 1`. -/
theorem nil_operands_witness :
    (GoValue.int 1).isNil = false ∧
    objectsAreEqual .nil (.int 1) = false ∧
    (DefaultVerifier.Equal sampleRuntime sampleSink (.int 1) .nil []).1 = false :=
  have h := nil_operands sampleRuntime sampleSink (.int 1) [] rfl
  ⟨rfl, h.2.1, h.2.2.2.2.2⟩

/-- C4: two present byte sequences are equal exactly when they have the same length and
the same byte at every index, and two absent byte sequences are equal. -/
theorem bytes_equal_by_content (e a : List Nat) :
    (objectsAreEqual (.bytes (some e)) (.bytes (some a)) = true ↔
      (e.length = a.length ∧ ∀ i : Nat, e[i]? = a[i]?)) ∧
    objectsAreEqual (.bytes none) (.bytes none) = true := by
  refine ⟨?_, rfl⟩
  have h : objectsAreEqual (.bytes (some e)) (.bytes (some a)) = bytes.Equal e a := rfl
  rw [h]
  simp only [bytes.Equal, beq_iff_eq]
  constructor
  · rintro rfl
    exact ⟨rfl, fun _ => rfl⟩
  · rintro ⟨_, h⟩
    exact List.ext_getElem? h

/-- C5: a present byte sequence, even of length zero, never equals an absent one, in
either argument order. -/
theorem bytes_absent_ne_present (a : List Nat) :
    objectsAreEqual (.bytes none) (.bytes (some a)) = false ∧
    objectsAreEqual (.bytes (some a)) (.bytes none) = false ∧
    objectsAreEqual (.bytes none) (.bytes (some [])) = false ∧
    objectsAreEqual (.bytes (some [])) (.bytes none) = false :=
  ⟨rfl, rfl, rfl, rfl⟩

theorem validateEqualArgs_of_isFunction (e a : GoValue)
    (h : isFunction e = true ∨ isFunction a = true) :
    validateEqualArgs e a = some (ascii "cannot take func type as argument") := by
  have hn : ¬ (e.isNil = true ∧ a.isNil = true) := by
    rintro ⟨he, ha⟩
    rcases h with h | h
    · rw [isFunction_of_isNil e he] at h; cases h
    · rw [isFunction_of_isNil a ha] at h; cases h
  have hn2 : (e.isNil && a.isNil) = false := by
    cases he : e.isNil <;> cases ha : a.isNil <;> simp_all
  unfold validateEqualArgs
  rcases h with h | h <;> simp [h, hn2]

/-- C7: when either operand is a function value, `DefaultVerifier.Equal` returns false and
fails with the invalid-operation message, which starts with `Invalid operation: `, ends with
`(cannot take func type as argument)` and does not start with `Not equal: `; the outcome
does not depend on what `objectsAreEqual` says of the operands. -/
theorem Equal_rejects_function (R : Runtime) (t : TestingT) (expected actual : GoValue)
    (msgAndArgs : List GoValue)
    (h : isFunction expected = true ∨ isFunction actual = true) :
    DefaultVerifier.Equal R t expected actual msgAndArgs =
      DefaultVerifier.Fail R t (invalidOperationMessage R expected actual) msgAndArgs ∧
    (DefaultVerifier.Equal R t expected actual msgAndArgs).1 = false ∧
    ascii "Invalid operation: " <+: invalidOperationMessage R expected actual ∧
    ascii "(cannot take func type as argument)" <:+ invalidOperationMessage R expected actual ∧
    ¬ (ascii "Not equal: " <+: invalidOperationMessage R expected actual) := by
  have hv := validateEqualArgs_of_isFunction expected actual h
  have heq : DefaultVerifier.Equal R t expected actual msgAndArgs =
      DefaultVerifier.Fail R t (invalidOperationMessage R expected actual) msgAndArgs := by
    unfold DefaultVerifier.Equal
    rw [hv]
    simp only [invalidOperationMessage]
    congr 1
    have : ascii " (cannot take func type as argument)" =
        ascii " (" ++ ascii "cannot take func type as argument" ++ ascii ")" := by decide
    rw [this]
    simp only [List.append_assoc]
  refine ⟨heq, by rw [heq]; rfl, ?_, ?_, ?_⟩
  · unfold invalidOperationMessage
    simp only [List.append_assoc]
    exact List.prefix_append _ _
  · unfold invalidOperationMessage
    have : ascii " (cannot take func type as argument)" =
        ascii " " ++ ascii "(cannot take func type as argument)" := by decide
    rw [this, ← List.append_assoc]
    exact List.suffix_append _ _
  · unfold invalidOperationMessage
    simp only [List.append_assoc]
    intro hp
    have h1 : ascii "Invalid operation: " = 73 :: (ascii "nvalid operation: ") := by decide
    have h2 : ascii "Not equal: " = 78 :: (ascii "ot equal: ") := by decide
    rw [h1, h2, List.cons_append] at hp
    have := List.cons_prefix_cons.1 hp
    omega

/-- Witness of C7: two nil function values of the same type are deeply equal, yet `Equal`
rejects the comparison. -/
theorem Equal_rejects_function_witness :
    objectsAreEqual (.func "func()" none) (.func "func()" none) = true ∧
    (DefaultVerifier.Equal sampleRuntime sampleSink (.func "func()" none) (.func "func()" none)
      []).1 = false :=
  ⟨by decide,
   (Equal_rejects_function sampleRuntime sampleSink (.func "func()" none) (.func "func()" none)
      [] (Or.inl rfl)).2.1⟩

/-- C9: when at least one of the two texts does not parse as JSON, `DefaultVerifier.JSONEq`
returns false through `Fail`: with the message naming the expected text and the parser error
when the expected text is invalid (whatever the actual text), and with the message naming
the actual text and the parser error when only the actual text is invalid. -/
theorem JSONEq_invalid_json (R : Runtime) (t : TestingT) (expected actual : GoString)
    (msgAndArgs : List GoValue)
    (h : (∃ err, R.unmarshal 0 expected = .error err) ∨ (∃ err, R.unmarshal 1 actual = .error err)) :
    (DefaultVerifier.JSONEq R t expected actual msgAndArgs).1 = false ∧
    (∀ err, R.unmarshal 0 expected = .error err →
      DefaultVerifier.JSONEq R t expected actual msgAndArgs =
        DefaultVerifier.Fail R t (ascii "Expected value ('" ++ expected ++
          ascii "') is not valid json.\nJSON parsing error: '" ++ err ++ ascii "'") msgAndArgs) ∧
    (∀ tree err, R.unmarshal 0 expected = .ok tree → R.unmarshal 1 actual = .error err →
      DefaultVerifier.JSONEq R t expected actual msgAndArgs =
        DefaultVerifier.Fail R t (ascii "Input ('" ++ actual ++
          ascii "') needs to be valid json.\nJSON parsing error: '" ++ err ++ ascii "'")
          msgAndArgs) := by
  refine ⟨?_, ?_, ?_⟩
  · unfold DefaultVerifier.JSONEq
    cases he : R.unmarshal 0 expected with
    | error err => rfl
    | ok pe =>
      cases ha : R.unmarshal 1 actual with
      | error err => rfl
      | ok pa =>
        rcases h with ⟨err, h⟩ | ⟨err, h⟩
        · rw [he] at h; cases h
        · rw [ha] at h; cases h
  · intro err he
    unfold DefaultVerifier.JSONEq
    rw [he]
  · intro tree err he ha
    unfold DefaultVerifier.JSONEq
    rw [he]
    simp only
    rw [ha]

/-- Witness of C9: the expected text `not json` is rejected by the decoder. -/
theorem JSONEq_invalid_json_witness :
    sampleRuntime.unmarshal 0 (ascii "not json") =
      .error (ascii "invalid character 'o' in literal null (expecting 'u')") ∧
    (DefaultVerifier.JSONEq sampleRuntime sampleSink (ascii "not json") (ascii "\x7b\x7d") []).1
      = false ∧
    DefaultVerifier.JSONEq sampleRuntime sampleSink (ascii "not json") (ascii "\x7b\x7d") [] =
      DefaultVerifier.Fail sampleRuntime sampleSink
        (ascii ("Expected value ('not json') is not valid json.\n" ++
          "JSON parsing error: 'invalid character 'o' in literal null (expecting 'u')'")) [] :=
  have hp : sampleRuntime.unmarshal 0 (ascii "not json") =
      .error (ascii "invalid character 'o' in literal null (expecting 'u')") := rfl
  have h := JSONEq_invalid_json sampleRuntime sampleSink (ascii "not json") (ascii "\x7b\x7d") []
    (Or.inl ⟨_, hp⟩)
  ⟨hp, h.1, (h.2.1 _ hp).trans
    (congrArg (fun m => DefaultVerifier.Fail sampleRuntime sampleSink m []) (by decide))⟩

/-- C10: `DefaultVerifier.Fail` returns false and calls `Errorf` exactly once, with the
format `"\n%s"` and the rendering by `labeledOutput` of these entries in this order:
`Error Trace` (the caller trace joined by `"\n\t\t\t"`), `Error` (the failure message),
`Test` (the name of the sink) exactly when the sink exposes `Name()`, then the entries of
`messageFromMsgAndArgs` for the extra arguments. -/
theorem Fail_reports_labeled_entries (R : Runtime) (t : TestingT) (failureMessage : GoString)
    (msgAndArgs : List GoValue) :
    DefaultVerifier.Fail R t failureMessage msgAndArgs =
      (false, [SinkCall.Errorf (ascii "\n%s") [GoValue.string (labeledOutput
        ([⟨ascii "Error Trace", strings.Join (callerInfo R) (ascii "\n\t\t\t")⟩,
          ⟨ascii "Error", failureMessage⟩] ++
         (match t.Name with
          | some n => [⟨ascii "Test", n⟩]
          | none => []) ++
         messageFromMsgAndArgs R msgAndArgs))]]) := by
  unfold DefaultVerifier.Fail
  cases hm : messageFromMsgAndArgs R msgAndArgs with
  | nil => cases t.Name <;> simp
  | cons m ms => cases t.Name <;> simp

/-! ### Membership forms of the list predicates -/

theorem hashableList_iff (fs : List GoValue) :
    hashableList fs = true ↔ ∀ f ∈ fs, hashable f = true := by
  induction fs with
  | nil => simp [hashableList]
  | cons f fs ih => simp [hashableList, ih]

theorem wellFormedList_iff (xs : List GoValue) :
    wellFormedList xs = true ↔ ∀ x ∈ xs, wellFormed x = true := by
  induction xs with
  | nil => simp [wellFormedList]
  | cons x xs ih => simp [wellFormedList, ih]

theorem wellFormedEntries_iff (m : List (GoValue × GoValue)) :
    wellFormedEntries m = true ↔
      ∀ e ∈ m, hashable e.1 = true ∧ wellFormed e.1 = true ∧ wellFormed e.2 = true := by
  induction m with
  | nil => simp [wellFormedEntries]
  | cons e m ih =>
    obtain ⟨k, v⟩ := e
    simp [wellFormedEntries, ih, and_assoc]

theorem floatEq_self (a : Nat) (h : isNaN a = false) : floatEq a a = true := by
  simp [floatEq, h]

theorem MapIndex_of_mem (m : List (GoValue × GoValue)) (k v : GoValue)
    (hd : distinctKeys m = true) (hm : (k, v) ∈ m) (hk : goEq k k = true) :
    MapIndex m k = some v := by
  induction m with
  | nil => cases hm
  | cons e rest ih =>
    simp only [distinctKeys, Bool.and_eq_true, List.all_eq_true, Bool.not_eq_true'] at hd
    rcases List.mem_cons.1 hm with h | h
    · subst h
      simp [MapIndex, List.find?, hk]
    · have hne : goEq e.1 k = false := hd.1 (k, v) h
      have := ih hd.2 h
      simp only [MapIndex, List.find?, hne]
      exact this

theorem deepEqualEntries_iff (es m : List (GoValue × GoValue)) :
    deepEqualEntries es m = true ↔
      ∀ e ∈ es, ∃ v2, MapIndex m e.1 = some v2 ∧ deepValueEqual e.2 v2 = true := by
  induction es with
  | nil => simp [deepEqualEntries]
  | cons e es ih =>
    obtain ⟨k, v⟩ := e
    simp only [deepEqualEntries, Bool.and_eq_true, ih, List.forall_mem_cons]
    constructor
    · rintro ⟨h1, h2⟩
      refine ⟨?_, h2⟩
      cases hmi : MapIndex m k with
      | none => rw [hmi] at h1; cases h1
      | some v2 => rw [hmi] at h1; exact ⟨v2, rfl, h1⟩
    · rintro ⟨⟨v2, hmi, hv⟩, h2⟩
      refine ⟨?_, h2⟩
      rw [hmi]
      exact hv

theorem shallowRegularList_iff (fs : List GoValue) :
    shallowRegularList fs = true ↔ ∀ f ∈ fs, shallowRegular f = true := by
  induction fs with
  | nil => simp [shallowRegularList]
  | cons f fs ih => simp [shallowRegularList, ih]

theorem deepEqualList_self (xs : List GoValue)
    (h : ∀ x ∈ xs, deepValueEqual x x = shallowRegular x) :
    deepEqualList xs xs = shallowRegularList xs := by
  induction xs with
  | nil => simp [deepEqualList, shallowRegularList]
  | cons x xs ih =>
    simp only [deepEqualList, shallowRegularList]
    rw [h x (List.mem_cons_self _ _), ih (fun y hy => h y (List.mem_cons_of_mem _ hy))]

theorem deepValueEqual_self (a : GoValue) : deepValueEqual a a = shallowRegular a := by
  induction a using GoValue.childInduction with
  | step a ih =>
    cases a with
    | float64 bits =>
      simp only [deepValueEqual, shallowRegular]
      cases hn : isNaN bits
      · simp [floatEq_self bits hn]
      · simp [floatEq, hn]
    | func sig code => simp [deepValueEqual, shallowRegular]
    | slice t data =>
      rcases data with _ | ⟨p, xs⟩ <;> simp [deepValueEqual, shallowRegular]
    | map k w data =>
      rcases data with _ | ⟨p, m⟩ <;> simp [deepValueEqual, shallowRegular]
    | struct n fs =>
      simp only [deepValueEqual, shallowRegular, beq_self_eq_true, Bool.true_and]
      exact deepEqualList_self fs (fun x hx => ih x (by simpa [GoValue.children] using hx))
    | _ => simp [deepValueEqual, shallowRegular]

theorem DeepEqual_eq_deepValueEqual (x y : GoValue) :
    reflect.DeepEqual x y = deepValueEqual x y := by
  unfold reflect.DeepEqual
  rcases x with _ | _ | _ | _ | _ | _ | _ | _ | _ | ⟨t, _ | ⟨p, xs⟩⟩ | ⟨k, w, _ | ⟨p, m⟩⟩ | _ <;>
    rcases y with _ | _ | _ | _ | _ | _ | _ | _ | _ | ⟨t2, _ | ⟨q, ys⟩⟩ |
      ⟨k2, w2, _ | ⟨q, m2⟩⟩ | _
  all_goals first
    | (simp [GoValue.isNil, GoValue.typeOf, deepValueEqual]; done)
    | (simp [GoValue.isNil, GoValue.typeOf, deepValueEqual]; intro h; simp [h]; done)
    | (simp [GoValue.isNil, GoValue.typeOf, deepValueEqual]; intro h; simp [h]
       intro h2 _ _; exact h2)

theorem objectsAreEqual_eq_DeepEqual (x y : GoValue) :
    objectsAreEqual x y = reflect.DeepEqual x y := by
  cases x with
  | bytes exp =>
    cases y with
    | bytes act =>
      cases exp <;> cases act <;>
        simp [objectsAreEqual, reflect.DeepEqual, GoValue.isNil, GoValue.typeOf, deepValueEqual,
          bytes.Equal]
    | _ => simp [objectsAreEqual, reflect.DeepEqual, GoValue.isNil, GoValue.typeOf]
  | _ => simp [objectsAreEqual, reflect.DeepEqual, GoValue.isNil]

theorem Equal_result_of_valid (R : Runtime) (t : TestingT) (e a : GoValue)
    (args : List GoValue) (h : validateEqualArgs e a = none) :
    (DefaultVerifier.Equal R t e a args).1 = objectsAreEqual e a := by
  unfold DefaultVerifier.Equal
  rw [h]
  cases objectsAreEqual e a <;> simp [Fail_result]

theorem objectsAreEqual_self (a : GoValue) : objectsAreEqual a a = shallowRegular a := by
  rw [objectsAreEqual_eq_DeepEqual, DeepEqual_eq_deepValueEqual, deepValueEqual_self]

/-! ### Reflexivity of `Equal` -/

/-- C6, counterexample: the floating-point NaN is not a function value, yet
`DefaultVerifier.Equal` applied to it twice returns false. -/
theorem Equal_not_reflexive_at_NaN :
    isFunction (.float64 nanBits) = false ∧
    isNaN nanBits = true ∧
    (DefaultVerifier.Equal sampleRuntime sampleSink (.float64 nanBits) (.float64 nanBits) []).1
      = false := by
  decide

/-- C6, amended: for every value that is not a function value, `DefaultVerifier.Equal`
applied to the value twice returns true exactly when no NaN floating-point number and no
non-nil function value is met in it on a way through struct fields alone.  So it returns
true for nil, for every bool, integer, text, duration and byte sequence, for every
floating-point number other than NaN, and for every slice and every map whatever they
hold, since a slice or a map shares its storage with itself; and it returns false for NaN
and for a struct one of whose fields is NaN or a non-nil function value. -/
theorem Equal_reflexive_iff (R : Runtime) (t : TestingT) (a : GoValue)
    (msgAndArgs : List GoValue) (hf : isFunction a = false) :
    ((DefaultVerifier.Equal R t a a msgAndArgs).1 = true ↔ shallowRegular a = true) ∧
    (DefaultVerifier.Equal R t a a msgAndArgs).1 = shallowRegular a ∧
    (a = .nil ∨ (∃ b, a = .bool b) ∨ (∃ n, a = .int n) ∨ (∃ s, a = .string s) ∨
      (∃ ns, a = .duration ns) ∨ (∃ data, a = .bytes data) ∨
      (∃ n, a = .failureMessageArgs n) ∨ (∃ elem data, a = .slice elem data) ∨
      (∃ key val data, a = .map key val data) →
        (DefaultVerifier.Equal R t a a msgAndArgs).1 = true) ∧
    (∀ bits, a = .float64 bits →
      (DefaultVerifier.Equal R t a a msgAndArgs).1 = !isNaN bits) ∧
    (∀ name fields, a = .struct name fields →
      ((DefaultVerifier.Equal R t a a msgAndArgs).1 = true ↔
        ∀ f ∈ fields, shallowRegular f = true)) := by
  have hv : validateEqualArgs a a = none :=
    (validateEqualArgs_eq_none_iff a a).2 (Or.inr ⟨hf, hf⟩)
  have hres : (DefaultVerifier.Equal R t a a msgAndArgs).1 = shallowRegular a := by
    rw [Equal_result_of_valid R t a a msgAndArgs hv, objectsAreEqual_self]
  refine ⟨by rw [hres], hres, ?_, ?_, ?_⟩
  · intro h
    rw [hres]
    rcases h with rfl | ⟨b, rfl⟩ | ⟨n, rfl⟩ | ⟨s, rfl⟩ | ⟨ns, rfl⟩ | ⟨data, rfl⟩ | ⟨n, rfl⟩ |
      ⟨elem, data, rfl⟩ | ⟨key, val, data, rfl⟩ <;> simp [shallowRegular]
  · intro bits h
    rw [hres, h, shallowRegular]
  · intro name fields h
    rw [hres, h, shallowRegular, shallowRegularList_iff]

/-- Witness of C6 amended: a slice holding NaN, compared with itself, is equal; a struct
with a NaN field is not; a struct holding a number, a text, a nil function value and a
map of byte sequences is. -/
theorem Equal_reflexive_iff_witness :
    (DefaultVerifier.Equal sampleRuntime sampleSink
      (.slice .float64 (some (⟨0, 0⟩, [.float64 nanBits])))
      (.slice .float64 (some (⟨0, 0⟩, [.float64 nanBits]))) []).1 = true ∧
    ¬ (DefaultVerifier.Equal sampleRuntime sampleSink
      (.struct "app.Point" [.float64 nanBits]) (.struct "app.Point" [.float64 nanBits]) []).1
        = true ∧
    (DefaultVerifier.Equal sampleRuntime sampleSink
      (.struct "app.Body" [.float64 0x3FF0000000000000, .string (ascii "a"), .func "func()" none,
        .map .string .bytes (some (⟨0, 1⟩, [(.string (ascii "k"), .bytes (some [1, 2])),
          (.string (ascii "l"), .bytes none)]))])
      (.struct "app.Body" [.float64 0x3FF0000000000000, .string (ascii "a"), .func "func()" none,
        .map .string .bytes (some (⟨0, 1⟩, [(.string (ascii "k"), .bytes (some [1, 2])),
          (.string (ascii "l"), .bytes none)]))]) []).1 = true :=
  ⟨(Equal_reflexive_iff sampleRuntime sampleSink _ [] (by decide)).1.2 (by decide),
   fun h => absurd ((Equal_reflexive_iff sampleRuntime sampleSink
     (.struct "app.Point" [.float64 nanBits]) [] (by decide)).1.1 h) (by decide),
   (Equal_reflexive_iff sampleRuntime sampleSink _ [] (by decide)).1.2 (by decide)⟩

/-! ### Map lookup and key comparison -/

theorem goEq_string_right (k : GoValue) (s : GoString) :
    goEq k (.string s) = true ↔ k = .string s := by
  cases k <;> simp [goEq]

theorem MapIndex_some_mem (m : List (GoValue × GoValue)) (k v : GoValue)
    (h : MapIndex m k = some v) : ∃ k2, (k2, v) ∈ m ∧ goEq k2 k = true := by
  unfold MapIndex at h
  cases hf : m.find? (fun e => goEq e.1 k) with
  | none => simp [hf] at h
  | some e =>
    simp only [hf, Option.map_some', Option.some.injEq] at h
    subst h
    exact ⟨e.1, List.mem_of_find?_eq_some hf, List.find?_some (p := fun (e : GoValue × GoValue) => goEq e.1 k) hf⟩

theorem distinctKeys_iff_pairwise (m : List (GoValue × GoValue)) :
    distinctKeys m = true ↔ m.Pairwise (fun e1 e2 => goEq e1.1 e2.1 = false) := by
  induction m with
  | nil => simp [distinctKeys]
  | cons e m ih => simp [distinctKeys, List.pairwise_cons, ih]

theorem floatEq_comm (a b : Nat) : floatEq a b = floatEq b a := by
  unfold floatEq
  have h1 : (a == b) = (b == a) := by
    rw [Bool.eq_iff_iff]
    simp only [beq_iff_eq]
    exact eq_comm
  rw [h1, Bool.and_comm (!isNaN a) (!isNaN b), Bool.and_comm (a % 2 ^ 63 == 0) (b % 2 ^ 63 == 0)]

theorem floatEq_trans (a b c : Nat) (h1 : floatEq a b = true) (h2 : floatEq b c = true) :
    floatEq a c = true := by
  simp only [floatEq, Bool.and_eq_true, Bool.not_eq_true', Bool.or_eq_true, beq_iff_eq] at *
  refine ⟨⟨h1.1.1, h2.1.2⟩, ?_⟩
  rcases h1.2 with h | h <;> rcases h2.2 with h' | h'
  · exact Or.inl (h.trans h')
  · subst h; exact Or.inr h'
  · subst h'; exact Or.inr h
  · exact Or.inr ⟨h.1, h'.2⟩


/-! ### Comparison of sequences -/

theorem deepEqualList_symm (xs ys : List GoValue) (hlen : xs.length = ys.length)
    (ih : ∀ x ∈ xs, ∀ y ∈ ys, deepValueEqual x y = true → deepValueEqual y x = true)
    (h : deepEqualList xs ys = true) : deepEqualList ys xs = true := by
  induction xs generalizing ys with
  | nil =>
    cases ys with
    | nil => simp [deepEqualList]
    | cons y ys => simp at hlen
  | cons x xs ihx =>
    cases ys with
    | nil => simp at hlen
    | cons y ys =>
      simp only [deepEqualList, Bool.and_eq_true] at h ⊢
      exact ⟨ih x (List.mem_cons_self _ _) y (List.mem_cons_self _ _) h.1,
        ihx ys (by simpa using hlen)
          (fun a ha b hb => ih a (List.mem_cons_of_mem _ ha) b (List.mem_cons_of_mem _ hb)) h.2⟩

theorem deepEqualList_trans (xs ys zs : List GoValue) (h1len : xs.length = ys.length)
    (h2len : ys.length = zs.length)
    (ih : ∀ x ∈ xs, ∀ y ∈ ys, ∀ z ∈ zs, deepValueEqual x y = true →
      deepValueEqual y z = true → deepValueEqual x z = true)
    (h1 : deepEqualList xs ys = true) (h2 : deepEqualList ys zs = true) :
    deepEqualList xs zs = true := by
  induction xs generalizing ys zs with
  | nil => simp [deepEqualList]
  | cons x xs ihx =>
    cases ys with
    | nil => simp at h1len
    | cons y ys =>
      cases zs with
      | nil => simp at h2len
      | cons z zs =>
        simp only [deepEqualList, Bool.and_eq_true] at h1 h2 ⊢
        exact ⟨ih x (List.mem_cons_self _ _) y (List.mem_cons_self _ _) z
            (List.mem_cons_self _ _) h1.1 h2.1,
          ihx ys zs (by simpa using h1len) (by simpa using h2len)
            (fun a ha b hb c hc => ih a (List.mem_cons_of_mem _ ha) b
              (List.mem_cons_of_mem _ hb) c (List.mem_cons_of_mem _ hc)) h1.2 h2.2⟩

theorem mem_children_slice (t : GoType) (p : Addr) (xs : List GoValue) (c : GoValue)
    (h : c ∈ xs) :
    c ∈ (GoValue.slice t (some (p, xs))).children := h

theorem mem_children_map (k w : GoType) (p : Addr) (m : List (GoValue × GoValue))
    (e : GoValue × GoValue) (h : e ∈ m) : e.2 ∈ (GoValue.map k w (some (p, m))).children := by
  simp only [GoValue.children, List.mem_append, List.mem_map]
  exact Or.inr ⟨e, h, rfl⟩


/-! ### NoopVerifier, `True` and `NoError` -/

/-- C11: every method of `NoopVerifier` returns true on every input and makes no call on
the sink. -/
theorem NoopVerifier_always_succeeds (t : TestingT) (msgAndArgs : List GoValue) :
    (∀ value, NoopVerifier.True t value msgAndArgs = (true, [])) ∧
    (∀ expected actual, NoopVerifier.Equal t expected actual msgAndArgs = (true, [])) ∧
    (∀ expected actual, NoopVerifier.JSONEq t expected actual msgAndArgs = (true, [])) ∧
    (∀ failureMessage, NoopVerifier.Fail t failureMessage msgAndArgs = (true, [])) ∧
    (∀ err, NoopVerifier.NoError t err msgAndArgs = (true, [])) :=
  ⟨fun _ => rfl, fun _ _ => rfl, fun _ _ => rfl, fun _ => rfl, fun _ => rfl⟩

/-- C12: `DefaultVerifier.True` returns its boolean argument; on false it is the call of
`Fail` with the message `Should be true` and the same extra arguments, on true it leaves
the sink untouched. -/
theorem True_returns_value (R : Runtime) (t : TestingT) (value : Bool)
    (msgAndArgs : List GoValue) :
    (DefaultVerifier.True R t value msgAndArgs).1 = value ∧
    DefaultVerifier.True R t false msgAndArgs =
      DefaultVerifier.Fail R t (ascii "Should be true") msgAndArgs ∧
    DefaultVerifier.True R t true msgAndArgs = (true, []) := by
  refine ⟨?_, rfl, rfl⟩
  cases value <;> rfl

/-- C13: `DefaultVerifier.NoError` returns true exactly when the error is nil; on a
non-nil error it returns false and is the call of `Fail` with the message
`Received unexpected error:` , a newline, and the `%+v` rendering of the error. -/
theorem NoError_true_iff_nil (R : Runtime) (t : TestingT) (err : Option GoError)
    (msgAndArgs : List GoValue) :
    ((DefaultVerifier.NoError R t err msgAndArgs).1 = true ↔ err = none) ∧
    (∀ e : GoError,
      (DefaultVerifier.NoError R t (some e) msgAndArgs).1 = false ∧
      DefaultVerifier.NoError R t (some e) msgAndArgs =
        DefaultVerifier.Fail R t (ascii "Received unexpected error:\n" ++ e.plusV)
          msgAndArgs) := by
  refine ⟨?_, fun e => ⟨rfl, rfl⟩⟩
  cases err with
  | none => exact ⟨fun _ => rfl, fun _ => rfl⟩
  | some e =>
    constructor
    · intro h
      have h2 : (DefaultVerifier.NoError R t (some e) msgAndArgs).1 = false := rfl
      rw [h2] at h
      cases h
    · intro h
      cases h

/-! ### Outcome predicates -/

/-- C14: `IsSuccess` returns no error exactly when the status code lies in `[200, 400)`;
otherwise it returns an error whose text is `not success. Status code=` followed by the
code in decimal. -/
theorem IsSuccess_iff_in_range (response : http.Response) (request : http.Request) :
    (IsSuccess response request = none ↔
      (200 ≤ response.StatusCode ∧ response.StatusCode < 400)) ∧
    (¬ (200 ≤ response.StatusCode ∧ response.StatusCode < 400) →
      ∃ e, IsSuccess response request = some e ∧
        e.Error = ascii "not success. Status code=" ++ decimalInt response.StatusCode) := by
  unfold IsSuccess http.StatusOK http.StatusBadRequest
  by_cases h : response.StatusCode ≥ 200 ∧ response.StatusCode < 400
  · rw [if_pos h]
    exact ⟨⟨fun _ => h, fun _ => rfl⟩, fun hn => absurd h hn⟩
  · rw [if_neg h]
    exact ⟨⟨fun he => (nomatch he), fun hh => absurd hh h⟩, fun _ => ⟨_, rfl, rfl⟩⟩

/-- Witness of C14: the code 200 is a success, the code 404 gives the error text
`not success. Status code=404`. -/
theorem IsSuccess_iff_in_range_witness :
    IsSuccess ⟨200⟩ ⟨ascii "GET"⟩ = none ∧
    ∃ e, IsSuccess ⟨404⟩ ⟨ascii "GET"⟩ = some e ∧
      e.Error = ascii "not success. Status code=404" :=
  ⟨(IsSuccess_iff_in_range ⟨200⟩ ⟨ascii "GET"⟩).1.2 (by decide),
   let ⟨e, h1, h2⟩ := (IsSuccess_iff_in_range ⟨404⟩ ⟨ascii "GET"⟩).2 (by decide)
   ⟨e, h1, h2.trans (by decide)⟩⟩

/-- C15: `IsClientError` returns no error exactly when the status code lies in
`[400, 500)`; otherwise it returns an error whose text is
`not a client error. Status code=` followed by the code in decimal. -/
theorem IsClientError_iff_in_range (response : http.Response) (request : http.Request) :
    (IsClientError response request = none ↔
      (400 ≤ response.StatusCode ∧ response.StatusCode < 500)) ∧
    (¬ (400 ≤ response.StatusCode ∧ response.StatusCode < 500) →
      ∃ e, IsClientError response request = some e ∧
        e.Error = ascii "not a client error. Status code=" ++
          decimalInt response.StatusCode) := by
  unfold IsClientError http.StatusBadRequest http.StatusInternalServerError
  by_cases h : response.StatusCode ≥ 400 ∧ response.StatusCode < 500
  · rw [if_pos h]
    exact ⟨⟨fun _ => h, fun _ => rfl⟩, fun hn => absurd h hn⟩
  · rw [if_neg h]
    exact ⟨⟨fun he => (nomatch he), fun hh => absurd hh h⟩, fun _ => ⟨_, rfl, rfl⟩⟩

/-- Witness of C15: the code 404 is a client error, the code 200 gives the error text
`not a client error. Status code=200`. -/
theorem IsClientError_iff_in_range_witness :
    IsClientError ⟨404⟩ ⟨ascii "GET"⟩ = none ∧
    ∃ e, IsClientError ⟨200⟩ ⟨ascii "GET"⟩ = some e ∧
      e.Error = ascii "not a client error. Status code=200" :=
  ⟨(IsClientError_iff_in_range ⟨404⟩ ⟨ascii "GET"⟩).1.2 (by decide),
   let ⟨e, h1, h2⟩ := (IsClientError_iff_in_range ⟨200⟩ ⟨ascii "GET"⟩).2 (by decide)
   ⟨e, h1, h2.trans (by decide)⟩⟩

/-- C16: `IsServerError` returns no error exactly when the status code is at least 500,
with no upper bound; otherwise it returns an error whose text is
`not a server error. Status code=` followed by the code in decimal. -/
theorem IsServerError_iff_at_least (response : http.Response) (request : http.Request) :
    (IsServerError response request = none ↔ 500 ≤ response.StatusCode) ∧
    (¬ (500 ≤ response.StatusCode) →
      ∃ e, IsServerError response request = some e ∧
        e.Error = ascii "not a server error. Status code=" ++
          decimalInt response.StatusCode) := by
  unfold IsServerError http.StatusInternalServerError
  by_cases h : response.StatusCode ≥ 500
  · rw [if_pos h]
    exact ⟨⟨fun _ => h, fun _ => rfl⟩, fun hn => absurd h hn⟩
  · rw [if_neg h]
    exact ⟨⟨fun he => (nomatch he), fun hh => absurd hh h⟩, fun _ => ⟨_, rfl, rfl⟩⟩

/-- Witness of C16: the codes 503 and 100000 are server errors, the code -1 gives the
error text `not a server error. Status code=-1`. -/
theorem IsServerError_iff_at_least_witness :
    IsServerError ⟨503⟩ ⟨ascii "GET"⟩ = none ∧
    IsServerError ⟨100000⟩ ⟨ascii "GET"⟩ = none ∧
    ∃ e, IsServerError ⟨-1⟩ ⟨ascii "GET"⟩ = some e ∧
      e.Error = ascii "not a server error. Status code=-1" :=
  ⟨(IsServerError_iff_at_least ⟨503⟩ ⟨ascii "GET"⟩).1.2 (by decide),
   (IsServerError_iff_at_least ⟨100000⟩ ⟨ascii "GET"⟩).1.2 (by decide),
   let ⟨e, h1, h2⟩ := (IsServerError_iff_at_least ⟨-1⟩ ⟨ascii "GET"⟩).2 (by decide)
   ⟨e, h1, h2.trans (by decide)⟩⟩

theorem IsSuccess_eq_none_iff (response : http.Response) (request : http.Request) :
    IsSuccess response request = none ↔
      (200 ≤ response.StatusCode ∧ response.StatusCode < 400) := by
  unfold IsSuccess http.StatusOK http.StatusBadRequest
  by_cases h : response.StatusCode ≥ 200 ∧ response.StatusCode < 400
  · rw [if_pos h]
    exact ⟨fun _ => h, fun _ => rfl⟩
  · rw [if_neg h]
    exact ⟨fun he => (nomatch he), fun hh => absurd hh h⟩

theorem IsClientError_eq_none_iff (response : http.Response) (request : http.Request) :
    IsClientError response request = none ↔
      (400 ≤ response.StatusCode ∧ response.StatusCode < 500) := by
  unfold IsClientError http.StatusBadRequest http.StatusInternalServerError
  by_cases h : response.StatusCode ≥ 400 ∧ response.StatusCode < 500
  · rw [if_pos h]
    exact ⟨fun _ => h, fun _ => rfl⟩
  · rw [if_neg h]
    exact ⟨fun he => (nomatch he), fun hh => absurd hh h⟩

theorem IsServerError_eq_none_iff (response : http.Response) (request : http.Request) :
    IsServerError response request = none ↔ 500 ≤ response.StatusCode := by
  unfold IsServerError http.StatusInternalServerError
  by_cases h : response.StatusCode ≥ 500
  · rw [if_pos h]
    exact ⟨fun _ => h, fun _ => rfl⟩
  · rw [if_neg h]
    exact ⟨fun he => (nomatch he), fun hh => absurd hh h⟩

theorem IsSuccess_error_text (response : http.Response) (request : http.Request) (e : GoError)
    (h : IsSuccess response request = some e) :
    e.Error = ascii "not success. Status code=" ++ decimalInt response.StatusCode := by
  unfold IsSuccess at h
  split at h
  · cases h
  · cases h; rfl

theorem IsClientError_error_text (response : http.Response) (request : http.Request)
    (e : GoError) (h : IsClientError response request = some e) :
    e.Error = ascii "not a client error. Status code=" ++ decimalInt response.StatusCode := by
  unfold IsClientError at h
  split at h
  · cases h
  · cases h; rfl

theorem IsServerError_error_text (response : http.Response) (request : http.Request)
    (e : GoError) (h : IsServerError response request = some e) :
    e.Error = ascii "not a server error. Status code=" ++ decimalInt response.StatusCode := by
  unfold IsServerError at h
  split at h
  · cases h
  · cases h; rfl

/-! ### The decimal numeral of the status code -/

theorem digitChar_toNat (d : Nat) (h : d < 10) : (Nat.digitChar d).toNat = 48 + d := by
  interval_cases d <;> rfl

theorem digitsValueFrom_append (acc : Nat) (s t : GoString) :
    digitsValueFrom acc (s ++ t) = (digitsValueFrom acc s).bind (fun n => digitsValueFrom n t) := by
  induction s generalizing acc with
  | nil => rfl
  | cons c s ih =>
    simp only [List.cons_append, digitsValueFrom]
    split
    · exact ih _
    · rfl

theorem toDigitsCore_append (fuel n : Nat) (ds : List Char) :
    Nat.toDigitsCore 10 fuel n ds = Nat.toDigitsCore 10 fuel n [] ++ ds := by
  induction fuel generalizing n ds with
  | zero => simp [Nat.toDigitsCore]
  | succ fuel ih =>
    simp only [Nat.toDigitsCore]
    split
    · simp
    · rw [ih, ih (n / 10) [_]]
      simp

theorem digitsValueFrom_toDigitsCore (fuel n acc : Nat) (h : n < fuel) :
    digitsValueFrom acc ((Nat.toDigitsCore 10 fuel n []).map Char.toNat) =
      some (acc * 10 ^ (Nat.toDigitsCore 10 fuel n []).length + n) := by
  induction fuel generalizing n acc with
  | zero => omega
  | succ fuel ih =>
    simp only [Nat.toDigitsCore]
    have hd : n % 10 < 10 := Nat.mod_lt _ (by decide)
    split
    · rename_i h0
      simp only [List.map_cons, List.map_nil, digitsValueFrom, digitChar_toNat _ hd,
        List.length_singleton, pow_one]
      rw [if_pos (by omega)]
      congr 1
      omega
    · rename_i h0
      rw [toDigitsCore_append, List.map_append, digitsValueFrom_append,
        ih (n / 10) acc (by omega)]
      simp only [List.map_cons, List.map_nil, Option.some_bind, digitsValueFrom,
        digitChar_toNat _ hd, List.length_append, List.length_singleton]
      rw [if_pos (by omega)]
      congr 1
      rw [pow_succ]
      have := Nat.div_add_mod n 10
      ring_nf
      ring_nf at this
      omega

theorem digitsValueFrom_decimal (n : Nat) : digitsValueFrom 0 (decimal n) = some n := by
  unfold decimal Nat.toDigits
  rw [digitsValueFrom_toDigitsCore (n + 1) n 0 (by omega)]
  simp

theorem decimal_ne_nil (n : Nat) : decimal n ≠ [] := by
  unfold decimal Nat.toDigits
  simp only [Nat.toDigitsCore]
  split
  · simp
  · rw [toDigitsCore_append]
    simp

theorem decimal_head_digit (n : Nat) : ∃ c rest, decimal n = c :: rest ∧ 48 ≤ c ∧ c ≤ 57 := by
  have h := digitsValueFrom_decimal n
  cases hd : decimal n with
  | nil => exact absurd hd (decimal_ne_nil n)
  | cons c rest =>
    rw [hd] at h
    simp only [digitsValueFrom] at h
    split at h
    · rename_i hc
      exact ⟨c, rest, rfl, hc⟩
    · cases h

theorem decimalValue_decimalInt (n : Int) : decimalValue (decimalInt n) = some n := by
  unfold decimalInt
  by_cases h : n < 0
  · rw [if_pos h]
    have : ascii "-" ++ decimal n.natAbs = 45 :: decimal n.natAbs := rfl
    rw [this]
    simp only [decimalValue, ↓reduceIte, if_neg (decimal_ne_nil _), digitsValueFrom_decimal,
      Option.some.injEq, Int.ofNat_eq_coe]
    omega
  · rw [if_neg h]
    obtain ⟨c, rest, hd, hc⟩ := decimal_head_digit n.toNat
    have hv := digitsValueFrom_decimal n.toNat
    rw [hd] at hv ⊢
    simp only [decimalValue]
    rw [if_neg (by omega), hv]
    simp only [Option.some.injEq, Int.ofNat_eq_coe]
    omega

/-- C17: no status code satisfies two of `IsSuccess`, `IsClientError` and `IsServerError`;
a code of at least 200 satisfies one of them and a code below 200 none; and the text of
every error they return is a fixed phrase followed by the decimal numeral of the observed
code, a non-empty numeral that denotes exactly that code. -/
theorem status_predicates_partition (response : http.Response) (request : http.Request) :
    ¬ (IsSuccess response request = none ∧ IsClientError response request = none) ∧
    ¬ (IsSuccess response request = none ∧ IsServerError response request = none) ∧
    ¬ (IsClientError response request = none ∧ IsServerError response request = none) ∧
    (200 ≤ response.StatusCode →
      IsSuccess response request = none ∨ IsClientError response request = none ∨
        IsServerError response request = none) ∧
    (response.StatusCode < 200 →
      IsSuccess response request ≠ none ∧ IsClientError response request ≠ none ∧
        IsServerError response request ≠ none) ∧
    (∀ e, IsSuccess response request = some e →
      e.Error = ascii "not success. Status code=" ++ decimalInt response.StatusCode ∧
        decimalInt response.StatusCode <:+: e.Error) ∧
    (∀ e, IsClientError response request = some e →
      e.Error = ascii "not a client error. Status code=" ++ decimalInt response.StatusCode ∧
        decimalInt response.StatusCode <:+: e.Error) ∧
    (∀ e, IsServerError response request = some e →
      e.Error = ascii "not a server error. Status code=" ++ decimalInt response.StatusCode ∧
        decimalInt response.StatusCode <:+: e.Error) ∧
    decimalValue (decimalInt response.StatusCode) = some response.StatusCode ∧
    decimalInt response.StatusCode ≠ [] := by
  simp only [ne_eq, IsSuccess_eq_none_iff, IsClientError_eq_none_iff, IsServerError_eq_none_iff]
  refine ⟨by omega, by omega, by omega, by omega, by omega, ?_, ?_, ?_,
    decimalValue_decimalInt _, ?_⟩
  · intro e h
    rw [IsSuccess_error_text response request e h]
    exact ⟨rfl, (List.suffix_append _ _).isInfix⟩
  · intro e h
    rw [IsClientError_error_text response request e h]
    exact ⟨rfl, (List.suffix_append _ _).isInfix⟩
  · intro e h
    rw [IsServerError_error_text response request e h]
    exact ⟨rfl, (List.suffix_append _ _).isInfix⟩
  · intro h
    have := decimalValue_decimalInt response.StatusCode
    rw [h] at this
    cases this

/-- Witness of C17: 200 is a success only, 404 a client error only, 503 a server error
only, and 100 satisfies none of the three; the errors for 404, 503 and 100 end with the
numerals `404`, `503` and `100`, and the numeral of the code -1 is `-1`. -/
theorem status_predicates_partition_witness :
    (IsSuccess ⟨200⟩ ⟨ascii "GET"⟩ = none ∨ IsClientError ⟨200⟩ ⟨ascii "GET"⟩ = none ∨
      IsServerError ⟨200⟩ ⟨ascii "GET"⟩ = none) ∧
    ¬ (IsClientError ⟨404⟩ ⟨ascii "GET"⟩ = none ∧ IsServerError ⟨404⟩ ⟨ascii "GET"⟩ = none) ∧
    (IsSuccess ⟨100⟩ ⟨ascii "GET"⟩ ≠ none ∧ IsClientError ⟨100⟩ ⟨ascii "GET"⟩ ≠ none ∧
      IsServerError ⟨100⟩ ⟨ascii "GET"⟩ ≠ none) ∧
    (∀ e, IsSuccess ⟨404⟩ ⟨ascii "GET"⟩ = some e →
      e.Error = ascii "not success. Status code=404") ∧
    (∀ e, IsClientError ⟨503⟩ ⟨ascii "GET"⟩ = some e →
      e.Error = ascii "not a client error. Status code=503") ∧
    (∀ e, IsServerError ⟨100⟩ ⟨ascii "GET"⟩ = some e →
      e.Error = ascii "not a server error. Status code=100") ∧
    decimalValue (ascii "-1") = some (-1) ∧
    decimalValue (ascii "404") = some 404 :=
  ⟨(status_predicates_partition ⟨200⟩ ⟨ascii "GET"⟩).2.2.2.1 (by decide),
   (status_predicates_partition ⟨404⟩ ⟨ascii "GET"⟩).2.2.1,
   (status_predicates_partition ⟨100⟩ ⟨ascii "GET"⟩).2.2.2.2.1 (by decide),
   fun e h => ((status_predicates_partition ⟨404⟩ ⟨ascii "GET"⟩).2.2.2.2.2.1 e h).1.trans
     (by decide),
   fun e h => ((status_predicates_partition ⟨503⟩ ⟨ascii "GET"⟩).2.2.2.2.2.2.1 e h).1.trans
     (by decide),
   fun e h => ((status_predicates_partition ⟨100⟩ ⟨ascii "GET"⟩).2.2.2.2.2.2.2.1 e h).1.trans
     (by decide),
   (congrArg decimalValue (by decide : ascii "-1" = decimalInt (-1))).trans
     (status_predicates_partition ⟨-1⟩ ⟨ascii "GET"⟩).2.2.2.2.2.2.2.2.1,
   (congrArg decimalValue (by decide : ascii "404" = decimalInt 404)).trans
     (status_predicates_partition ⟨404⟩ ⟨ascii "GET"⟩).2.2.2.2.2.2.2.2.1⟩

/-! ### Formatting of unequal values -/

theorem truncatingFormat_of_short (R : Runtime) (data : GoValue)
    (h : (R.sprintSharpV data).length ≤ 65436) :
    truncatingFormat R data = R.sprintSharpV data := by
  unfold truncatingFormat bufio.MaxScanTokenSize
  simp only [Nat.reduceMul, Nat.reduceSub]
  rw [if_neg (by omega)]

theorem truncatingFormat_of_long (R : Runtime) (data : GoValue)
    (h : (R.sprintSharpV data).length > 65436) :
    truncatingFormat R data = (R.sprintSharpV data).take 65436 ++ ascii "<... truncated>" := by
  unfold truncatingFormat bufio.MaxScanTokenSize
  simp only [Nat.reduceMul, Nat.reduceSub]
  rw [if_pos h]

theorem formatUnequalValues_same_type (R : Runtime) (e a : GoValue)
    (ht : e.typeOf = a.typeOf) (hd : e.typeOf ≠ some .duration) :
    formatUnequalValues R e a = (truncatingFormat R e, truncatingFormat R a) := by
  unfold formatUnequalValues
  rw [if_neg (by simpa using ht)]
  cases e <;> first | rfl | exact absurd rfl hd

/-- C18, counterexample: with the `%#v` rendering of `fmt` on strings, the message
`DefaultVerifier.Equal` passes to `Fail` for the operands `"a"` and `"b"` renders them as
`"a"` and `"b"`, and the report differs from the one the message with `string("a")` and
`string("b")` would give. -/
theorem Equal_strings_not_type_annotated :
    DefaultVerifier.Equal fmtRuntime sampleSink (.string (ascii "a")) (.string (ascii "b")) [] =
      DefaultVerifier.Fail fmtRuntime sampleSink
        (ascii "Not equal: \nexpected: \"a\"\nactual  : \"b\"" ++
          fmtRuntime.diff (.string (ascii "a")) (.string (ascii "b"))) [] ∧
    reportedText (DefaultVerifier.Equal fmtRuntime sampleSink (.string (ascii "a"))
        (.string (ascii "b")) []) ≠
      reportedText (DefaultVerifier.Fail fmtRuntime sampleSink
        (ascii "Not equal: \nexpected: string(\"a\")\nactual  : string(\"b\")" ++
          fmtRuntime.diff (.string (ascii "a")) (.string (ascii "b"))) []) :=
  ⟨rfl, by decide⟩

/-- C18, amended: for the string operands `"a"` and `"b"`, which `%#v` renders as `"a"`
and `"b"`, `DefaultVerifier.Equal` returns false, calls `Errorf` exactly once, and is the
call of `Fail` with the message `Not equal: `, newline, `expected: "a"`, newline,
`actual  : "b"`, followed by the diff suffix. -/
theorem Equal_strings_a_b (R : Runtime) (t : TestingT) (msgAndArgs : List GoValue)
    (ha : R.sprintSharpV (.string (ascii "a")) = ascii "\"a\"")
    (hb : R.sprintSharpV (.string (ascii "b")) = ascii "\"b\"") :
    (DefaultVerifier.Equal R t (.string (ascii "a")) (.string (ascii "b")) msgAndArgs).1 = false ∧
    (∃ text, (DefaultVerifier.Equal R t (.string (ascii "a")) (.string (ascii "b"))
      msgAndArgs).2 = [SinkCall.Errorf (ascii "\n%s") [GoValue.string text]]) ∧
    DefaultVerifier.Equal R t (.string (ascii "a")) (.string (ascii "b")) msgAndArgs =
      DefaultVerifier.Fail R t
        (ascii "Not equal: \nexpected: \"a\"\nactual  : \"b\"" ++
          R.diff (.string (ascii "a")) (.string (ascii "b"))) msgAndArgs := by
  have hta : truncatingFormat R (.string (ascii "a")) = ascii "\"a\"" := by
    rw [truncatingFormat_of_short R _ (by rw [ha]; decide), ha]
  have htb : truncatingFormat R (.string (ascii "b")) = ascii "\"b\"" := by
    rw [truncatingFormat_of_short R _ (by rw [hb]; decide), hb]
  have hfmt : formatUnequalValues R (.string (ascii "a")) (.string (ascii "b")) =
      (ascii "\"a\"", ascii "\"b\"") := by
    rw [formatUnequalValues_same_type R (.string (ascii "a")) (.string (ascii "b")) rfl
      (by simp [GoValue.typeOf]), hta, htb]
  have hmsg : ascii "Not equal: \n" ++ ascii "expected: " ++ ascii "\"a\"" ++ ascii "\n" ++
      ascii "actual  : " ++ ascii "\"b\"" = ascii "Not equal: \nexpected: \"a\"\nactual  : \"b\"" := by
    decide
  have heq : DefaultVerifier.Equal R t (.string (ascii "a")) (.string (ascii "b")) msgAndArgs =
      DefaultVerifier.Fail R t
        (ascii "Not equal: \nexpected: \"a\"\nactual  : \"b\"" ++
          R.diff (.string (ascii "a")) (.string (ascii "b"))) msgAndArgs := by
    have hv : validateEqualArgs (.string (ascii "a")) (.string (ascii "b")) = none := rfl
    have ho : objectsAreEqual (.string (ascii "a")) (.string (ascii "b")) = false := by decide
    unfold DefaultVerifier.Equal
    rw [hv]
    simp only [ho, Bool.not_false, ↓reduceIte, hfmt, hmsg]
  refine ⟨by rw [heq]; rfl, by rw [heq]; exact ⟨_, rfl⟩, heq⟩

/-- Witness of C18 amended, at the sample renderings of `fmt` and a sink named `T1`. -/
theorem Equal_strings_a_b_witness :
    (DefaultVerifier.Equal fmtRuntime sampleSink (.string (ascii "a")) (.string (ascii "b"))
      []).1 = false ∧
    DefaultVerifier.Equal fmtRuntime sampleSink (.string (ascii "a")) (.string (ascii "b")) [] =
      DefaultVerifier.Fail fmtRuntime sampleSink
        (ascii "Not equal: \nexpected: \"a\"\nactual  : \"b\"" ++
          fmtRuntime.diff (.string (ascii "a")) (.string (ascii "b"))) [] :=
  have h := Equal_strings_a_b fmtRuntime sampleSink [] rfl rfl
  ⟨h.1, h.2.2⟩

/-- C19: `formatUnequalValues` renders each operand as its `%T` type name followed by its
truncated `%#v` form in parentheses when the dynamic types differ, renders both with `%v`
when both are `time.Duration`, and otherwise renders each as its truncated `%#v` form
alone. -/
theorem formatUnequalValues_by_type (R : Runtime) (expected actual : GoValue) :
    (expected.typeOf ≠ actual.typeOf →
      formatUnequalValues R expected actual =
        (R.sprintT expected ++ ascii "(" ++ truncatingFormat R expected ++ ascii ")",
         R.sprintT actual ++ ascii "(" ++ truncatingFormat R actual ++ ascii ")")) ∧
    (∀ d1 d2 : Int,
      formatUnequalValues R (.duration d1) (.duration d2) =
        (R.sprintV (.duration d1), R.sprintV (.duration d2))) ∧
    (expected.typeOf = actual.typeOf → expected.typeOf ≠ some .duration →
      formatUnequalValues R expected actual =
        (truncatingFormat R expected, truncatingFormat R actual)) := by
  refine ⟨?_, ?_, formatUnequalValues_same_type R expected actual⟩
  · intro h
    unfold formatUnequalValues
    rw [if_pos h]
  · intro d1 d2
    rfl

/-- Witness of C19, at the sample renderings of `fmt`: an `int` against a `string`, two
durations, and two strings. -/
theorem formatUnequalValues_by_type_witness :
    formatUnequalValues fmtRuntime (.int 1) (.string (ascii "1")) =
      (ascii "int(1)", ascii "string(\"1\")") ∧
    formatUnequalValues fmtRuntime (.duration 1000000000) (.duration 2000000000) =
      (ascii "1s", ascii "2s") ∧
    formatUnequalValues fmtRuntime (.string (ascii "a")) (.string (ascii "b")) =
      (ascii "\"a\"", ascii "\"b\"") :=
  ⟨((formatUnequalValues_by_type fmtRuntime (.int 1) (.string (ascii "1"))).1
      (by decide)).trans (by decide),
   ((formatUnequalValues_by_type fmtRuntime .nil .nil).2.1 1000000000 2000000000).trans
      (by decide),
   ((formatUnequalValues_by_type fmtRuntime (.string (ascii "a")) (.string (ascii "b"))).2.2
      rfl (by decide)).trans (by decide)⟩

/-- C20: `truncatingFormat` returns the `%#v` rendering unchanged when it is at most 65436
bytes long (`bufio.MaxScanTokenSize - 100`), and otherwise its first 65436 bytes followed
by `<... truncated>`; the result is never longer than 65451 bytes and ends with the marker
whenever truncation occurred. -/
theorem truncatingFormat_bounded (R : Runtime) (data : GoValue) :
    bufio.MaxScanTokenSize - 100 = 65436 ∧
    ((R.sprintSharpV data).length ≤ 65436 → truncatingFormat R data = R.sprintSharpV data) ∧
    ((R.sprintSharpV data).length > 65436 →
      truncatingFormat R data = (R.sprintSharpV data).take 65436 ++ ascii "<... truncated>" ∧
      ((R.sprintSharpV data).take 65436).length = 65436 ∧
      ascii "<... truncated>" <:+ truncatingFormat R data) ∧
    (truncatingFormat R data).length ≤ 65451 := by
  have hmark : (ascii "<... truncated>").length = 15 := by decide
  refine ⟨by decide, truncatingFormat_of_short R data, ?_, ?_⟩
  · intro h
    have heq := truncatingFormat_of_long R data h
    refine ⟨heq, ?_, ?_⟩
    · rw [List.length_take]
      omega
    · rw [heq]
      exact List.suffix_append _ _
  · by_cases h : (R.sprintSharpV data).length ≤ 65436
    · rw [truncatingFormat_of_short R data h]
      omega
    · rw [truncatingFormat_of_long R data (by omega), List.length_append, List.length_take, hmark]
      omega

/-- Witness of C20: a rendering of 70000 bytes is cut to its first 65436 bytes followed by
the marker, 65451 bytes in all; the rendering `"a"` is returned unchanged. -/
theorem truncatingFormat_bounded_witness :
    truncatingFormat longRuntime .nil = List.replicate 65436 120 ++ ascii "<... truncated>" ∧
    (truncatingFormat longRuntime .nil).length = 65451 ∧
    truncatingFormat fmtRuntime (.string (ascii "a")) = ascii "\"a\"" := by
  have hlen : (longRuntime.sprintSharpV .nil).length > 65436 := by
    show (List.replicate 70000 120).length > 65436
    rw [List.length_replicate]
    omega
  have h := (truncatingFormat_bounded longRuntime .nil).2.2.1 hlen
  have htake : (longRuntime.sprintSharpV .nil).take 65436 = List.replicate 65436 120 := by
    show (List.replicate 70000 120).take 65436 = List.replicate 65436 120
    rw [List.take_replicate]
    rfl
  have hmark : (ascii "<... truncated>").length = 15 := by decide
  refine ⟨by rw [h.1, htake], ?_,
    (truncatingFormat_bounded fmtRuntime (.string (ascii "a"))).2.1 (by decide)⟩
  rw [h.1, List.length_append, h.2.1, hmark]

/-! ### The message composer -/

/-- C21: for a single plain-text argument `s`, the empty text included,
`messageFromMsgAndArgs` returns exactly the entry `Messages` with content `s`. -/
theorem messageFromMsgAndArgs_single_text (R : Runtime) (s : GoString) :
    messageFromMsgAndArgs R [.string s] = [⟨ascii "Messages", s⟩] ∧
    messageFromMsgAndArgs R [.string []] = [⟨ascii "Messages", []⟩] :=
  ⟨rfl, rfl⟩

/-- C22: for a single name-carrier argument, `messageFromMsgAndArgs` returns exactly the
entry `Name` with the carried name when the name is not empty, and no entry when it is
empty. -/
theorem messageFromMsgAndArgs_single_name (R : Runtime) (n : GoString) :
    (n ≠ [] → messageFromMsgAndArgs R [.failureMessageArgs n] = [⟨ascii "Name", n⟩]) ∧
    (n = [] → messageFromMsgAndArgs R [.failureMessageArgs n] = []) := by
  constructor
  · intro h
    simp [messageFromMsgAndArgs, h]
  · intro h
    simp [messageFromMsgAndArgs, h]

/-- Witness of C22: the name `T1` and the empty name. -/
theorem messageFromMsgAndArgs_single_name_witness :
    messageFromMsgAndArgs sampleRuntime [.failureMessageArgs (ascii "T1")] =
      [⟨ascii "Name", ascii "T1"⟩] ∧
    messageFromMsgAndArgs sampleRuntime [.failureMessageArgs []] = [] :=
  ⟨(messageFromMsgAndArgs_single_name sampleRuntime (ascii "T1")).1 (by decide),
   (messageFromMsgAndArgs_single_name sampleRuntime []).2 rfl⟩

/-- C23, counterexample: for the single argument `[]byte{1, 2}` the content of the
`Messages` entry is its `%+v` rendering `[1 2]`, not the rendering `truncatingFormat`
gives in the comparator. -/
theorem messageFromMsgAndArgs_not_comparator_rendering :
    messageFromMsgAndArgs composerRuntime [.bytes (some [1, 2])] =
      [⟨ascii "Messages", ascii "[1 2]"⟩] ∧
    truncatingFormat composerRuntime (.bytes (some [1, 2])) = ascii "[]byte\x7b0x1, 0x2\x7d" ∧
    messageFromMsgAndArgs composerRuntime [.bytes (some [1, 2])] ≠
      [⟨ascii "Messages", truncatingFormat composerRuntime (.bytes (some [1, 2]))⟩] := by
  decide

/-- C23, amended: for a single argument that is neither a plain text nor a name-carrier,
`messageFromMsgAndArgs` returns exactly the entry `Messages` whose content is the `%+v`
rendering of the argument. -/
theorem messageFromMsgAndArgs_single_other (R : Runtime) (msg : GoValue)
    (hs : ∀ s, msg ≠ .string s) (hn : ∀ n, msg ≠ .failureMessageArgs n) :
    messageFromMsgAndArgs R [msg] = [⟨ascii "Messages", R.sprintPlusV msg⟩] := by
  cases msg with
  | string s => exact absurd rfl (hs s)
  | failureMessageArgs n => exact absurd rfl (hn n)
  | _ => rfl

/-- Witness of C23 amended: the single argument `42`. -/
theorem messageFromMsgAndArgs_single_other_witness :
    messageFromMsgAndArgs composerRuntime [.int 42] = [⟨ascii "Messages", ascii "42"⟩] :=
  (messageFromMsgAndArgs_single_other composerRuntime (.int 42)
    (fun _ h => nomatch h) (fun _ h => nomatch h)).trans (by decide)

theorem scanMsgAndArgs_of_names_ne_nil (args : List GoValue)
    (h : ∀ n ∈ carriedNames args, n ≠ []) (strMsgs : List GoString)
    (structuredMsg : Option labeledContent) :
    scanMsgAndArgs args strMsgs structuredMsg =
      some (strMsgs ++ plainTexts args,
        match (carriedNames args).getLast? with
        | some n => some ⟨ascii "Name", n⟩
        | none => structuredMsg) := by
  induction args generalizing strMsgs structuredMsg with
  | nil => simp [scanMsgAndArgs, plainTexts, carriedNames]
  | cons msg rest ih =>
    cases msg with
    | string s =>
      simp only [carriedNames] at h
      simp only [scanMsgAndArgs, plainTexts, carriedNames, ih h, List.append_assoc,
        List.singleton_append]
    | failureMessageArgs n =>
      simp only [carriedNames, List.mem_cons, forall_eq_or_imp] at h
      simp only [scanMsgAndArgs, h.1, ↓reduceIte, plainTexts, carriedNames, ih h.2,
        List.getLast?_cons]
      cases (carriedNames rest).getLast? <;> rfl
    | _ =>
      simp only [carriedNames] at h
      simp only [scanMsgAndArgs, plainTexts, carriedNames, ih h]

theorem scanMsgAndArgs_of_empty_name (args : List GoValue)
    (h : GoValue.failureMessageArgs [] ∈ args) (strMsgs : List GoString)
    (structuredMsg : Option labeledContent) :
    scanMsgAndArgs args strMsgs structuredMsg = none := by
  induction args generalizing strMsgs structuredMsg with
  | nil => cases h
  | cons msg rest ih =>
    rcases List.mem_cons.1 h with h1 | h1
    · subst h1
      simp [scanMsgAndArgs]
    · cases msg with
      | failureMessageArgs n =>
        by_cases hn : n = []
        · simp [scanMsgAndArgs, hn]
        · simp only [scanMsgAndArgs, hn, ↓reduceIte]
          exact ih h1 _ _
      | _ =>
        simp only [scanMsgAndArgs]
        exact ih h1 _ _

theorem messageFromMsgAndArgs_of_two (R : Runtime) (a b : GoValue) (rest : List GoValue) :
    messageFromMsgAndArgs R (a :: b :: rest) =
      match scanMsgAndArgs (a :: b :: rest) [] none with
      | none => []
      | some (strMsgs, structuredMsg) =>
        (if strMsgs.length > 0 then [⟨ascii "Messages", strings.Join strMsgs (ascii ", ")⟩]
         else []) ++
        (match structuredMsg with
         | some m => [m]
         | none => []) := rfl

/-- C24: for two or more extra arguments none of which is a name-carrier with an empty
name, `messageFromMsgAndArgs` returns the entry `Messages` holding the plain-text
arguments joined with `, ` in their order, present exactly when there is a plain-text
argument, followed by the entry `Name` holding the name of the last name-carrier, present
exactly when there is a name-carrier, and nothing else. -/
theorem messageFromMsgAndArgs_many (R : Runtime) (msgAndArgs : List GoValue)
    (hlen : 2 ≤ msgAndArgs.length) (hne : ∀ n ∈ carriedNames msgAndArgs, n ≠ []) :
    messageFromMsgAndArgs R msgAndArgs =
      (if plainTexts msgAndArgs ≠ [] then
         [⟨ascii "Messages", strings.Join (plainTexts msgAndArgs) (ascii ", ")⟩]
       else []) ++
      (match (carriedNames msgAndArgs).getLast? with
       | some n => [⟨ascii "Name", n⟩]
       | none => []) := by
  match msgAndArgs, hlen with
  | a :: b :: rest, _ =>
    rw [messageFromMsgAndArgs_of_two, scanMsgAndArgs_of_names_ne_nil _ hne]
    simp only [List.nil_append, gt_iff_lt, List.length_pos, ne_eq]
    cases (carriedNames (a :: b :: rest)).getLast? <;> rfl

/-- Witness of C24: two texts around a number and two name-carriers. -/
theorem messageFromMsgAndArgs_many_witness :
    messageFromMsgAndArgs sampleRuntime
      [.string (ascii "x"), .failureMessageArgs (ascii "n1"), .int 3,
       .failureMessageArgs (ascii "n2"), .string (ascii "y")] =
      [⟨ascii "Messages", ascii "x, y"⟩, ⟨ascii "Name", ascii "n2"⟩] ∧
    messageFromMsgAndArgs sampleRuntime [.int 3, .int 4] = [] :=
  ⟨(messageFromMsgAndArgs_many sampleRuntime _ (by decide) (by decide)).trans (by decide),
   (messageFromMsgAndArgs_many sampleRuntime [.int 3, .int 4] (by decide) (by decide)).trans
     (by decide)⟩

/-- C25: for two or more extra arguments one of which, at any position, is a name-carrier
with an empty name, `messageFromMsgAndArgs` returns no entry, whatever plain texts and
other name-carriers stand before or after it. -/
theorem messageFromMsgAndArgs_empty_name (R : Runtime) (msgAndArgs : List GoValue)
    (hlen : 2 ≤ msgAndArgs.length) (hmem : GoValue.failureMessageArgs [] ∈ msgAndArgs) :
    messageFromMsgAndArgs R msgAndArgs = [] := by
  match msgAndArgs, hlen with
  | a :: b :: rest, _ =>
    rw [messageFromMsgAndArgs_of_two, scanMsgAndArgs_of_empty_name _ hmem]

/-- Witness of C25: the empty name between a text, a named carrier and a later text. -/
theorem messageFromMsgAndArgs_empty_name_witness :
    messageFromMsgAndArgs sampleRuntime
      [.string (ascii "x"), .failureMessageArgs (ascii "n1"), .failureMessageArgs [],
       .string (ascii "y")] = [] ∧
    messageFromMsgAndArgs sampleRuntime [.failureMessageArgs [], .string (ascii "y")] = [] :=
  ⟨messageFromMsgAndArgs_empty_name sampleRuntime _ (by decide)
      (List.mem_cons_of_mem _ (List.mem_cons_of_mem _ (List.mem_cons_self _ _))),
   messageFromMsgAndArgs_empty_name sampleRuntime _ (by decide) (List.mem_cons_self _ _)⟩

/-! ### The scanner behind `indentMessageLines` -/

theorem ascii_newline : ascii "\n" = [10] := rfl

theorem dropCR_nil : dropCR [] = [] := rfl

theorem dropCR_of_no_CR (l : GoString) (h : l.getLast? ≠ some 13) : dropCR l = l := by
  unfold dropCR
  rw [if_neg h]

theorem scanLinesAux_line (line rest cur : GoString) (h : 10 ∉ line) :
    scanLinesAux (line ++ rest) cur = scanLinesAux rest (cur ++ line) := by
  induction line generalizing cur with
  | nil => simp
  | cons b line ih =>
    have hb : b ≠ 10 := fun hb => h (by simp [hb])
    have hl : 10 ∉ line := fun hl => h (List.mem_cons_of_mem _ hl)
    rw [List.cons_append, scanLinesAux, if_neg hb, ih _ hl, List.append_assoc,
      List.singleton_append]

theorem scanLinesAux_terminated (line rest : GoString) (h : 10 ∉ line) :
    scanLinesAux (line ++ 10 :: rest) [] =
      if line.length ≥ bufio.MaxScanTokenSize then []
      else dropCR line :: scanLinesAux rest [] := by
  rw [scanLinesAux_line line _ [] h, List.nil_append, scanLinesAux, if_pos rfl]

theorem scanLinesAux_final (line : GoString) (h : 10 ∉ line) :
    scanLinesAux line [] =
      if line = [] then []
      else if line.length ≥ bufio.MaxScanTokenSize then []
      else [dropCR line] := by
  have := scanLinesAux_line line [] [] h
  rw [List.append_nil, List.nil_append] at this
  rw [this, scanLinesAux]

theorem Join_cons_cons (l l2 : GoString) (rest : List GoString) (sep : GoString) :
    strings.Join (l :: l2 :: rest) sep = l ++ sep ++ strings.Join (l2 :: rest) sep := by
  simp [strings.Join, List.intercalate, List.intersperse]

theorem dropFinalEmpty_cons_cons (l l2 : GoString) (rest : List GoString) :
    dropFinalEmpty (l :: l2 :: rest) = l :: dropFinalEmpty (l2 :: rest) := by
  unfold dropFinalEmpty
  rw [List.getLast?_cons_cons]
  split <;> simp

theorem scanLines_Join (lines : List GoString) (hnl : ∀ l ∈ lines, 10 ∉ l)
    (hshort : ∀ l ∈ lines, l.length < bufio.MaxScanTokenSize) :
    scanLines (strings.Join lines (ascii "\n")) = (dropFinalEmpty lines).map dropCR := by
  unfold scanLines
  induction lines with
  | nil => rfl
  | cons l rest ih =>
    have hl := hnl l (List.mem_cons_self _ _)
    have hs : ¬ l.length ≥ bufio.MaxScanTokenSize :=
      Nat.not_le.2 (hshort l (List.mem_cons_self _ _))
    cases rest with
    | nil =>
      have hj : strings.Join [l] (ascii "\n") = l := by
        simp [strings.Join, List.intercalate, List.intersperse]
      rw [hj, scanLinesAux_final l hl, if_neg hs]
      unfold dropFinalEmpty
      by_cases he : l = []
      · simp [he]
      · simp [he]
    | cons l2 rest =>
      have ih2 := ih (fun x hx => hnl x (List.mem_cons_of_mem _ hx))
        (fun x hx => hshort x (List.mem_cons_of_mem _ hx))
      rw [Join_cons_cons, ascii_newline, List.append_assoc, List.singleton_append,
        scanLinesAux_terminated l _ hl, if_neg hs, dropFinalEmpty_cons_cons, List.map_cons]
      rw [← ascii_newline, ih2]

theorem indentLoop_succ (W : Nat) (lines : List GoString) (i : Nat) :
    indentLoop W lines (i + 1) =
      (lines.map (fun line => continuationPrefix W ++ line)).flatten := by
  induction lines generalizing i with
  | nil => rfl
  | cons l rest ih =>
    rw [indentLoop, if_pos (Nat.succ_ne_zero i), ih, List.map_cons, List.flatten_cons,
      continuationPrefix]

theorem indentLoop_zero (W : Nat) (lines : List GoString) :
    indentLoop W lines 0 = indentedLines W lines := by
  cases lines with
  | nil => rfl
  | cons l rest =>
    rw [indentLoop, if_neg (by simp), indentLoop_succ, indentedLines, List.nil_append]

theorem indentMessageLines_Join (W : Nat) (lines : List GoString) (hnl : ∀ l ∈ lines, 10 ∉ l)
    (hshort : ∀ l ∈ lines, l.length < bufio.MaxScanTokenSize) :
    indentMessageLines (strings.Join lines (ascii "\n")) W =
      indentedLines W ((dropFinalEmpty lines).map dropCR) := by
  unfold indentMessageLines
  rw [scanLines_Join lines hnl hshort, indentLoop_zero]

theorem indentMessageLines_single_line (W : Nat) (c : GoString) (hnl : 10 ∉ c)
    (hshort : c.length < bufio.MaxScanTokenSize) :
    indentMessageLines c W = dropCR c := by
  unfold indentMessageLines scanLines
  rw [scanLinesAux_final c hnl, if_neg (Nat.not_le.2 hshort)]
  by_cases he : c = []
  · subst he
    rfl
  · rw [if_neg he, indentLoop_zero, indentedLines]
    simp

theorem indentMessageLines_long_first_line (W : Nat) (line rest : GoString) (hnl : 10 ∉ line)
    (hlong : bufio.MaxScanTokenSize ≤ line.length) :
    indentMessageLines line W = [] ∧ indentMessageLines (line ++ 10 :: rest) W = [] := by
  have hlong2 : line.length ≥ bufio.MaxScanTokenSize := hlong
  unfold indentMessageLines scanLines
  rw [scanLinesAux_final line hnl, scanLinesAux_terminated line rest hnl, if_pos hlong2]
  constructor
  · split <;> rfl
  · rw [if_pos hlong2]
    rfl

/-! ### The rows of `labeledOutput` -/

theorem foldl_append_rows (f : labeledContent → GoString) (content : List labeledContent)
    (init : GoString) :
    content.foldl (fun output v => output ++ f v) init = init ++ (content.map f).flatten := by
  induction content generalizing init with
  | nil => simp
  | cons v rest ih => simp [List.foldl_cons, ih, List.append_assoc]

theorem labeledOutput_rows (content : List labeledContent) :
    labeledOutput content =
      (content.map (fun v => labeledRow (longestLabelLen content) v.label
        (indentMessageLines v.content (longestLabelLen content)))).flatten := by
  have h := foldl_append_rows (fun v => labeledRow (longestLabelLen content) v.label
    (indentMessageLines v.content (longestLabelLen content))) content []
  rw [List.nil_append] at h
  rw [← h]
  rfl

theorem foldl_longest_ge (content : List labeledContent) (init : Nat) :
    init ≤ content.foldl
        (fun longest v => if v.label.length > longest then v.label.length else longest) init ∧
    ∀ v ∈ content, v.label.length ≤ content.foldl
        (fun longest v => if v.label.length > longest then v.label.length else longest) init := by
  induction content generalizing init with
  | nil => simp
  | cons w rest ih =>
    simp only [List.foldl_cons, List.mem_cons, forall_eq_or_imp]
    by_cases hw : w.label.length > init
    · rw [if_pos hw]
      have h := ih w.label.length
      have h1 := h.1
      exact ⟨by omega, by omega, h.2⟩
    · rw [if_neg hw]
      have h := ih init
      have h1 := h.1
      exact ⟨h1, by omega, h.2⟩

theorem foldl_longest_attained (content : List labeledContent) (init : Nat) :
    content.foldl
        (fun longest v => if v.label.length > longest then v.label.length else longest) init
      = init ∨
    ∃ v ∈ content, v.label.length = content.foldl
        (fun longest v => if v.label.length > longest then v.label.length else longest) init := by
  induction content generalizing init with
  | nil => exact Or.inl rfl
  | cons w rest ih =>
    simp only [List.foldl_cons, List.mem_cons, exists_eq_or_imp]
    rcases ih (if w.label.length > init then w.label.length else init) with h | ⟨v, hv, h⟩
    · rw [h]
      by_cases hw : w.label.length > init
      · rw [if_pos hw]
        exact Or.inr (Or.inl rfl)
      · rw [if_neg hw]
        exact Or.inl rfl
    · exact Or.inr (Or.inr ⟨v, hv, h⟩)

theorem longestLabelLen_is_max (content : List labeledContent) :
    (∀ v ∈ content, v.label.length ≤ longestLabelLen content) ∧
    (longestLabelLen content = 0 ∨ ∃ v ∈ content, v.label.length = longestLabelLen content) :=
  ⟨(foldl_longest_ge content 0).2, foldl_longest_attained content 0⟩

theorem Repeat_space (n : Nat) : strings.Repeat (ascii " ") n = List.replicate n 32 := by
  unfold strings.Repeat
  induction n with
  | zero => rfl
  | succ n ih =>
    rw [List.replicate_succ, List.flatten_cons, ih, List.replicate_succ]
    rfl

theorem labeledOutput_single (label c : GoString) :
    labeledOutput [⟨label, c⟩] =
      labeledRow label.length label (indentMessageLines c label.length) := by
  have hW : longestLabelLen [⟨label, c⟩] = label.length := by
    simp only [longestLabelLen, List.foldl_cons, List.foldl_nil]
    split <;> omega
  rw [labeledOutput_rows, hW]
  simp

/-- C26, counterexample: the content `a` followed by a carriage return holds no newline,
yet its row shows `a` alone and differs from the row with the content unchanged. -/
theorem labeledOutput_row_drops_CR :
    10 ∉ ascii "a\r" ∧
    labeledOutput [⟨ascii "Error", ascii "a\r"⟩] = ascii "\tError:\ta\n" ∧
    labeledOutput [⟨ascii "Error", ascii "a\r"⟩] ≠
      ascii "\t" ++ ascii "Error" ++ ascii ":" ++ List.replicate (5 - 5) 32 ++ ascii "\t" ++
        ascii "a\r" ++ ascii "\n" := by
  decide

/-- C26, amended: for entries whose contents hold no newline and are shorter than 65536
bytes, `labeledOutput` is the concatenation, in input order, of one row per entry: tab,
label, colon, `W - len(label)` spaces, tab, the content without one trailing carriage
return, newline, where `W` is the greatest label length; contents that end in no carriage
return are shown unchanged, and the empty sequence renders as the empty text. -/
theorem labeledOutput_single_line_rows (content : List labeledContent)
    (hnl : ∀ v ∈ content, 10 ∉ v.content)
    (hshort : ∀ v ∈ content, v.content.length < 65536) :
    labeledOutput content =
      (content.map (fun v => ascii "\t" ++ v.label ++ ascii ":" ++
        List.replicate (longestLabelLen content - v.label.length) 32 ++ ascii "\t" ++
        dropCR v.content ++ ascii "\n")).flatten ∧
    ((∀ v ∈ content, v.content.getLast? ≠ some 13) →
      labeledOutput content =
        (content.map (fun v => ascii "\t" ++ v.label ++ ascii ":" ++
          List.replicate (longestLabelLen content - v.label.length) 32 ++ ascii "\t" ++
          v.content ++ ascii "\n")).flatten) ∧
    (∀ v ∈ content, v.label.length ≤ longestLabelLen content) ∧
    (longestLabelLen content = 0 ∨
      ∃ v ∈ content, v.label.length = longestLabelLen content) ∧
    labeledOutput [] = [] := by
  have h1 : labeledOutput content =
      (content.map (fun v => ascii "\t" ++ v.label ++ ascii ":" ++
        List.replicate (longestLabelLen content - v.label.length) 32 ++ ascii "\t" ++
        dropCR v.content ++ ascii "\n")).flatten := by
    rw [labeledOutput_rows]
    congr 1
    apply List.map_congr_left
    intro v hv
    rw [indentMessageLines_single_line _ v.content (hnl v hv) (hshort v hv), labeledRow,
      Repeat_space]
  refine ⟨h1, ?_, (longestLabelLen_is_max content).1, (longestLabelLen_is_max content).2, rfl⟩
  intro hcr
  rw [h1]
  congr 1
  apply List.map_congr_left
  intro v hv
  rw [dropCR_of_no_CR v.content (hcr v hv)]

/-- Witness of C26 amended: the entries `Error Trace` and `Error` with single-line
contents. -/
theorem labeledOutput_single_line_rows_witness :
    labeledOutput [⟨ascii "Error Trace", ascii "x_test.go:12"⟩, ⟨ascii "Error", ascii "boom"⟩] =
      ascii "\tError Trace:\tx_test.go:12\n\tError:      \tboom\n" :=
  ((labeledOutput_single_line_rows
    [⟨ascii "Error Trace", ascii "x_test.go:12"⟩, ⟨ascii "Error", ascii "boom"⟩]
    (by decide) (by decide)).2.1 (by decide)).trans (by decide)

/-- C27, counterexample: the content made of the lines `a` and the empty line is rendered
as `a` alone, without the continuation prefix of the second line; and of the lines `a`
with a carriage return and `b`, the first is emitted without its carriage return. -/
theorem indentMessageLines_not_all_lines :
    strings.Join [ascii "a", []] (ascii "\n") = ascii "a\n" ∧
    indentMessageLines (ascii "a\n") 5 = ascii "a" ∧
    indentMessageLines (strings.Join [ascii "a", []] (ascii "\n")) 5 ≠
      ascii "a" ++ (ascii "\n\t" ++ List.replicate (5 + 1) 32 ++ ascii "\t" ++ []) ∧
    indentMessageLines (strings.Join [ascii "a\r", ascii "b"] (ascii "\n")) 5 ≠
      ascii "a\r" ++ (ascii "\n\t" ++ List.replicate (5 + 1) 32 ++ ascii "\t" ++ ascii "b") := by
  decide

/-- C27, amended: for a content made of lines separated by newlines, each shorter than
65536 bytes, `indentMessageLines` emits the first line and then every later line behind
the continuation prefix (newline, tab, `W + 1` spaces, tab), each line without one
trailing carriage return and a final empty line not being emitted; when no line ends in a
carriage return and the last line is not empty, these are the lines themselves. -/
theorem indentMessageLines_lines (W : Nat) (lines : List GoString)
    (hnl : ∀ l ∈ lines, 10 ∉ l) (hshort : ∀ l ∈ lines, l.length < 65536) :
    indentMessageLines (strings.Join lines (ascii "\n")) W =
      indentedLines W ((dropFinalEmpty lines).map dropCR) ∧
    ((∀ l ∈ lines, l.getLast? ≠ some 13) → lines.getLast? ≠ some [] →
      indentMessageLines (strings.Join lines (ascii "\n")) W = indentedLines W lines) ∧
    continuationPrefix W = ascii "\n\t" ++ List.replicate (W + 1) 32 ++ ascii "\t" := by
  have h1 := indentMessageLines_Join W lines hnl hshort
  refine ⟨h1, ?_, by rw [continuationPrefix, Repeat_space]⟩
  intro hcr hlast
  rw [h1]
  have h2 : dropFinalEmpty lines = lines := by
    unfold dropFinalEmpty
    rw [if_neg hlast]
  have h3 : lines.map dropCR = lines := by
    conv_rhs => rw [← List.map_id lines]
    apply List.map_congr_left
    intro l hl
    rw [dropCR_of_no_CR l (hcr l hl)]
    rfl
  rw [h2, h3]

/-- Witness of C27 amended: the three lines of a `Not equal` message. -/
theorem indentMessageLines_lines_witness :
    indentMessageLines (ascii "Not equal: \nexpected: 1\nactual  : 2") 5 =
      ascii "Not equal: \n\t      \texpected: 1\n\t      \tactual  : 2" :=
  ((indentMessageLines_lines 5 [ascii "Not equal: ", ascii "expected: 1", ascii "actual  : 2"]
    (by decide) (by decide)).2.1 (by decide) (by decide)).trans (by decide)

/-- C28, the code at the failing input: an `Error` entry whose content is one line of
65536 bytes is rendered with an empty content column, and a line of 65536 bytes between
the lines `a` and `b` is dropped together with the line `b` after it. -/
theorem labeledOutput_drops_long_lines :
    labeledOutput [⟨ascii "Error", List.replicate 65536 120⟩] = ascii "\tError:\t\n" ∧
    labeledOutput [⟨ascii "Error",
      ascii "a" ++ 10 :: (List.replicate 65536 120 ++ 10 :: ascii "b")⟩] =
      ascii "\tError:\ta\n" := by
  have hnl : 10 ∉ List.replicate 65536 120 := by
    intro h
    have := List.eq_of_mem_replicate h
    omega
  have hlong : bufio.MaxScanTokenSize ≤ (List.replicate 65536 120).length := by
    rw [List.length_replicate]
    decide
  have h := indentMessageLines_long_first_line 5 (List.replicate 65536 120) (ascii "b")
    hnl hlong
  constructor
  · rw [labeledOutput_single, show (ascii "Error").length = 5 from rfl, h.1]
    decide
  · have h2 : indentMessageLines
        (ascii "a" ++ 10 :: (List.replicate 65536 120 ++ 10 :: ascii "b")) 5 = ascii "a" := by
      unfold indentMessageLines scanLines
      rw [scanLinesAux_terminated (ascii "a") _ (by decide), if_neg (by decide),
        scanLinesAux_terminated (List.replicate 65536 120) _ hnl, if_pos hlong]
      decide
    rw [labeledOutput_single, show (ascii "Error").length = 5 from rfl, h2]
    decide

/-! ### The walk of `callerInfo` -/

theorem callerInfoLoop_cons (R : Runtime) (frame : Frame) (outer : List Frame) :
    callerInfoLoop R (frame :: outer) =
      if stopsBefore frame = true then []
      else frameEntry frame ++
        (if isTestFrame R frame = true then [] else callerInfoLoop R outer) := by
  rw [callerInfoLoop]
  by_cases hfile : frame.file = ascii "<autogenerated>"
  · simp [stopsBefore, hfile]
  · cases hname : frame.funcName with
    | none => simp [stopsBefore, hfile, hname]
    | some name =>
      by_cases ht : name = ascii "testing.tRunner"
      · simp [stopsBefore, hfile, hname, ht]
      · have hs : stopsBefore frame = false := by
          simp [stopsBefore, hfile, hname, ht]
        rw [if_neg hfile, hs]
        simp only [if_neg ht, Bool.false_eq_true, ↓reduceIte, isTestFrame, hname, isTestName,
          shortName, frameEntry]
        split <;> simp

theorem callerInfoLoop_walk (R : Runtime) (pre rest : List Frame)
    (hpre : ∀ g ∈ pre, stopsBefore g = false ∧ isTestFrame R g = false) :
    callerInfoLoop R (pre ++ rest) = pre.flatMap frameEntry ++ callerInfoLoop R rest := by
  induction pre with
  | nil => simp
  | cons g pre ih =>
    have hg := hpre g (List.mem_cons_self _ _)
    rw [List.cons_append, callerInfoLoop_cons, hg.1, hg.2,
      ih (fun x hx => hpre x (List.mem_cons_of_mem _ hx)), List.flatMap_cons]
    simp

theorem callerInfoLoop_nil (R : Runtime) : callerInfoLoop R [] = [] := by
  rw [callerInfoLoop]

theorem callerInfoLoop_outer_irrelevant (R : Runtime) (pre outer : List Frame) (frame : Frame)
    (h : stopsBefore frame = true ∨ isTestFrame R frame = true) :
    callerInfoLoop R (pre ++ frame :: outer) = callerInfoLoop R (pre ++ [frame]) := by
  induction pre with
  | nil =>
    rw [List.nil_append, List.nil_append, callerInfoLoop_cons, callerInfoLoop_cons]
    rcases h with h | h
    · rw [if_pos h, if_pos h]
    · rw [if_pos h, if_pos h]
  | cons g pre ih =>
    rw [List.cons_append, List.cons_append, callerInfoLoop_cons, callerInfoLoop_cons, ih]

theorem frameEntry_length_le (frame : Frame) : (frameEntry frame).length ≤ 1 := by
  unfold frameEntry
  simp only
  split
  · split <;> simp
  · simp

theorem callerInfoLoop_length_le (R : Runtime) (stack : List Frame) :
    (callerInfoLoop R stack).length ≤ stack.length := by
  induction stack with
  | nil => rw [callerInfoLoop_nil]; exact Nat.le_refl _
  | cons g rest ih =>
    rw [callerInfoLoop_cons]
    have h1 := frameEntry_length_le g
    split
    · simp
    · split
      · simp only [List.append_nil, List.length_cons]
        omega
      · simp only [List.length_append, List.length_cons]
        omega

theorem frameEntry_autogenerated (frame : Frame) (h : frame.file = ascii "<autogenerated>") :
    frameEntry frame = [] := by
  have hlen : ¬ (strings.Split (ascii "<autogenerated>") 47).length > 1 := by decide
  unfold frameEntry
  rw [h]
  simp only
  rw [if_neg hlen]

theorem isTestName_tRunner (R : Runtime) :
    isTestName R (shortName (ascii "testing.tRunner")) = false := by
  have hs : shortName (ascii "testing.tRunner") = ascii "tRunner" := by decide
  have h1 : strings.HasPrefix (ascii "tRunner") (ascii "Test") = false := by decide
  have h2 : strings.HasPrefix (ascii "tRunner") (ascii "Benchmark") = false := by decide
  have h3 : strings.HasPrefix (ascii "tRunner") (ascii "Example") = false := by decide
  rw [hs]
  simp [isTestName, isTest, h1, h2, h3]

theorem stopsBefore_iff (frame : Frame) :
    stopsBefore frame = true ↔
      (frame.file = ascii "<autogenerated>" ∨ frame.funcName = none ∨
        frame.funcName = some (ascii "testing.tRunner")) := by
  simp [stopsBefore, or_assoc]

theorem callerInfoLoop_at_test_frame (R : Runtime) (frame : Frame) (name : GoString)
    (outer : List Frame) (hname : frame.funcName = some name)
    (htest : isTestName R (shortName name) = true) :
    callerInfoLoop R (frame :: outer) = frameEntry frame := by
  have hT : isTestFrame R frame = true := by
    simp only [isTestFrame, hname, htest]
  rw [callerInfoLoop_cons, if_pos hT, List.append_nil]
  split
  · rename_i hs
    rcases (stopsBefore_iff frame).1 hs with h | h | h
    · rw [frameEntry_autogenerated frame h]
    · rw [hname] at h
      cases h
    · rw [hname] at h
      have hn : name = ascii "testing.tRunner" := Option.some.inj h
      rw [hn, isTestName_tRunner] at htest
      cases htest
  · rfl

/-- C29: when the walk reaches a frame whose function is resolved and whose short name
follows the `Test`, `Benchmark` or `Example` convention, the trace of `callerInfo` is the
entries of the frames walked before it followed by the entry of that frame, whatever
frames lie further out; and replacing the frames further out never changes the trace,
wherever such a frame stands in the stack. -/
theorem callerInfo_stops_after_test_frame (R : Runtime) (pre outer : List Frame)
    (frame : Frame) (name : GoString)
    (hstack : R.stack = pre ++ frame :: outer)
    (hname : frame.funcName = some name)
    (htest : isTestName R (shortName name) = true)
    (hpre : ∀ g ∈ pre, stopsBefore g = false ∧ isTestFrame R g = false) :
    callerInfo R = pre.flatMap frameEntry ++ frameEntry frame ∧
    (∀ outer2, callerInfoLoop R (pre ++ frame :: outer2) = callerInfo R) ∧
    (∀ pre2 outer2, callerInfoLoop R (pre2 ++ frame :: outer2) =
      callerInfoLoop R (pre2 ++ [frame])) := by
  have key : ∀ o, callerInfoLoop R (pre ++ frame :: o) =
      pre.flatMap frameEntry ++ frameEntry frame := by
    intro o
    rw [callerInfoLoop_walk R pre _ hpre, callerInfoLoop_at_test_frame R frame name o hname htest]
  have hT : isTestFrame R frame = true := by
    simp only [isTestFrame, hname, htest]
  have hci : callerInfo R = pre.flatMap frameEntry ++ frameEntry frame := by
    rw [callerInfo, hstack, key]
  refine ⟨hci, fun o => by rw [hci, key], fun p o => ?_⟩
  exact callerInfoLoop_outer_irrelevant R p o frame (Or.inr hT)

/-- Witness of C29: from `callerInfo` through `Fail` up to the test function `TestFoo`;
the test runner beyond it is not listed. -/
theorem callerInfo_stops_after_test_frame_witness :
    callerInfo sampleRuntime = [ascii "assert.go:267", ascii "assert.go:98", ascii "x_test.go:12"] :=
  (callerInfo_stops_after_test_frame sampleRuntime
    [⟨ascii "/src/spectest/assert.go", 267,
        some (ascii "github.com/go-spectest/spectest.callerInfo")⟩,
     ⟨ascii "/src/spectest/assert.go", 98,
        some (ascii "github.com/go-spectest/spectest.DefaultVerifier.Fail")⟩]
    [⟨ascii "/go/src/testing/testing.go", 1595, some (ascii "testing.tRunner")⟩]
    ⟨ascii "/src/app/x_test.go", 12, some (ascii "app.TestFoo")⟩ (ascii "app.TestFoo")
    rfl rfl (by decide) (by decide)).1.trans (by decide)

/-- C30: when the walk reaches a frame whose file is `<autogenerated>`, whose function is
unresolved or whose function is `testing.tRunner`, the trace of `callerInfo` is the
entries of the frames walked before it, without that frame and whatever frames lie further
out; on a stack that is exhausted the trace is the entries of the frames walked; and the
trace of any stack has at most as many entries as the stack has frames. -/
theorem callerInfo_stops_before_frame (R : Runtime) (pre outer : List Frame) (frame : Frame)
    (hstack : R.stack = pre ++ frame :: outer)
    (hstop : frame.file = ascii "<autogenerated>" ∨ frame.funcName = none ∨
      frame.funcName = some (ascii "testing.tRunner"))
    (hpre : ∀ g ∈ pre, stopsBefore g = false ∧ isTestFrame R g = false) :
    callerInfo R = pre.flatMap frameEntry ∧
    (∀ outer2, callerInfoLoop R (pre ++ frame :: outer2) = callerInfo R) ∧
    callerInfoLoop R pre = pre.flatMap frameEntry ∧
    (∀ stack, (callerInfoLoop R stack).length ≤ stack.length) := by
  have hs : stopsBefore frame = true := (stopsBefore_iff frame).2 hstop
  have key : ∀ o, callerInfoLoop R (pre ++ frame :: o) = pre.flatMap frameEntry := by
    intro o
    rw [callerInfoLoop_walk R pre _ hpre, callerInfoLoop_cons, if_pos hs, List.append_nil]
  have hci : callerInfo R = pre.flatMap frameEntry := by
    rw [callerInfo, hstack, key]
  refine ⟨hci, fun o => by rw [hci, key], ?_, callerInfoLoop_length_le R⟩
  have h := callerInfoLoop_walk R pre [] hpre
  rw [List.append_nil, callerInfoLoop_nil, List.append_nil] at h
  exact h

/-- Witness of C30: the walk through a helper stops at `testing.tRunner`, which is not
listed, nor is the frame beyond it. -/
theorem callerInfo_stops_before_frame_witness :
    callerInfo helperRuntime = [ascii "assert.go:267", ascii "helper.go:7"] :=
  (callerInfo_stops_before_frame helperRuntime
    [⟨ascii "/src/spectest/assert.go", 267,
        some (ascii "github.com/go-spectest/spectest.callerInfo")⟩,
     ⟨ascii "/src/app/helper.go", 7, some (ascii "app.check")⟩]
    [⟨ascii "/go/src/runtime/asm_amd64.s", 1650, some (ascii "runtime.goexit")⟩]
    ⟨ascii "/go/src/testing/testing.go", 1595, some (ascii "testing.tRunner")⟩
    rfl (Or.inr (Or.inr rfl)) (by decide)).1.trans (by decide)

/-! ### Which frames the trace lists -/

theorem frameEntry_of_no_dir (frame : Frame) (h : parentDir frame.file = none) :
    frameEntry frame = [] := by
  unfold parentDir at h
  unfold frameEntry
  simp only at h ⊢
  split at h
  · cases h
  · rename_i hl
    rw [if_neg hl]

theorem frameEntry_of_dir (frame : Frame) (dir : GoString)
    (h : parentDir frame.file = some dir) :
    frameEntry frame =
      if (dir ≠ ascii "assert" ∧ dir ≠ ascii "mock" ∧ dir ≠ ascii "require")
          ∨ baseName frame.file = ascii "mock_test.go" then
        [baseName frame.file ++ ascii ":" ++ decimal frame.line]
      else [] := by
  unfold parentDir at h
  unfold frameEntry baseName
  simp only at h ⊢
  split at h
  · rename_i hl
    rw [if_pos hl]
    cases h
    rfl
  · cases h

/-- C31, counterexample: a walked frame whose file path `main.go` has no containing
directory is not listed in the trace. -/
theorem callerInfo_omits_frame_without_dir :
    stopsBefore ⟨ascii "main.go", 3, some (ascii "main.check")⟩ = false ∧
    isTestFrame bareFileRuntime ⟨ascii "main.go", 3, some (ascii "main.check")⟩ = false ∧
    parentDir (ascii "main.go") = none ∧
    callerInfo bareFileRuntime = [ascii "assert.go:267"] := by
  decide

/-- C31, amended: the trace holds, in walk order, the entries of the frames walked; a
walked frame is omitted if its file path has no directory, or if the directory containing
its file is named `assert`, `mock` or `require` and its base name is not `mock_test.go`;
every other walked frame is listed as its base name, a colon and its line; the test
frame at which the walk ends is treated in the same way. -/
theorem callerInfo_lists_walked_frames (R : Runtime) (walked rest : List Frame)
    (hstack : R.stack = walked ++ rest)
    (hwalk : ∀ g ∈ walked, stopsBefore g = false ∧ isTestFrame R g = false) :
    callerInfo R = walked.flatMap frameEntry ++ callerInfoLoop R rest ∧
    (∀ frame outer, stopsBefore frame = false → isTestFrame R frame = true →
      callerInfoLoop R (frame :: outer) = frameEntry frame) ∧
    (∀ frame : Frame, parentDir frame.file = none → frameEntry frame = []) ∧
    (∀ (frame : Frame) (dir : GoString), parentDir frame.file = some dir →
      (dir = ascii "assert" ∨ dir = ascii "mock" ∨ dir = ascii "require") →
      baseName frame.file ≠ ascii "mock_test.go" → frameEntry frame = []) ∧
    (∀ (frame : Frame) (dir : GoString), parentDir frame.file = some dir →
      ((dir ≠ ascii "assert" ∧ dir ≠ ascii "mock" ∧ dir ≠ ascii "require")
        ∨ baseName frame.file = ascii "mock_test.go") →
      frameEntry frame = [baseName frame.file ++ ascii ":" ++ decimal frame.line]) := by
  refine ⟨?_, ?_, frameEntry_of_no_dir, ?_, ?_⟩
  · rw [callerInfo, hstack, callerInfoLoop_walk R walked rest hwalk]
  · intro frame outer hs ht
    rw [callerInfoLoop_cons, hs, ht]
    simp
  · intro frame dir hd hdir hbase
    rw [frameEntry_of_dir frame dir hd, if_neg]
    rintro (⟨h1, h2, h3⟩ | h)
    · rcases hdir with h | h | h
      · exact h1 h
      · exact h2 h
      · exact h3 h
    · exact hbase h
  · intro frame dir hd h
    rw [frameEntry_of_dir frame dir hd, if_pos h]

/-- Witness of C31 amended: of the frames walked up to `TestFoo`, those in the directories
`assert`, `mock` and `require` are omitted, except the file `mock_test.go`. -/
theorem callerInfo_lists_walked_frames_witness :
    callerInfo filterRuntime =
      [ascii "assert.go:267", ascii "mock_test.go:5", ascii "x_test.go:12"] :=
  (callerInfo_lists_walked_frames filterRuntime (filterStack.take 5) (filterStack.drop 5)
    rfl (by decide)).1.trans (by decide)

/-- C32, the code at the failing input: for a call of `DefaultVerifier.Equal` from the
test `TestFoo`, the first frame examined is the frame of `callerInfo` itself, and the
trace lists the frames of `callerInfo`, `Fail` and `Equal` in `assert.go` before the call
site `x_test.go:12`. -/
theorem callerInfo_lists_library_frames :
    (equalRuntime.stack.head?.map Frame.funcName) =
      some (some (ascii "github.com/go-spectest/spectest.callerInfo")) ∧
    callerInfo equalRuntime =
      [ascii "assert.go:267", ascii "assert.go:98", ascii "assert.go:88",
       ascii "x_test.go:12"] ∧
    (callerInfo equalRuntime).head? ≠ some (ascii "x_test.go:12") := by
  decide

/-! ### `isTest` -/

theorem isTest_iff (R : Runtime) (name pfx : GoString) :
    isTest R name pfx = true ↔
      (pfx <+: name ∧
        (name = pfx ∨ unicodeIsLower R (decodeRune (name.drop pfx.length)) = false)) := by
  unfold isTest strings.HasPrefix
  by_cases hp : pfx.isPrefixOf name = true
  · have hpre : pfx <+: name := List.isPrefixOf_iff_prefix.1 hp
    rw [hp]
    simp only [Bool.not_true, Bool.false_eq_true, ↓reduceIte]
    by_cases hl : name.length = pfx.length
    · rw [if_pos hl]
      have : name = pfx := (hpre.eq_of_length hl.symm).symm
      simp [hpre, this]
    · rw [if_neg hl]
      have hne : name ≠ pfx := fun h => hl (by rw [h])
      simp [hpre, hne]
  · have hpre : ¬ pfx <+: name := fun h => hp (List.isPrefixOf_iff_prefix.2 h)
    simp [hp, hpre]

/-- C33: `isTest(name, prefix)` is true exactly when `name` starts with `prefix` and
either equals it or the first rune after the prefix is not a lower case letter; so `Test`,
`TestFoo`, `Test_x` and `Test1` are test names for the prefix `Test`, while `Testing` and
`test` are not. -/
theorem isTest_iff_convention (R : Runtime) (name pfx : GoString) :
    (isTest R name pfx = true ↔
      (pfx <+: name ∧
        (name = pfx ∨ unicodeIsLower R (decodeRune (name.drop pfx.length)) = false))) ∧
    isTest R (ascii "Test") (ascii "Test") = true ∧
    isTest R (ascii "TestFoo") (ascii "Test") = true ∧
    isTest R (ascii "Test_x") (ascii "Test") = true ∧
    isTest R (ascii "Test1") (ascii "Test") = true ∧
    isTest R (ascii "Testing") (ascii "Test") = false ∧
    isTest R (ascii "test") (ascii "Test") = false :=
  ⟨isTest_iff R name pfx, rfl, rfl, rfl, rfl, rfl, rfl⟩

/-! ### `objectsAreEqual` and `reflect.DeepEqual` -/

/-- C34: for every pair of operands `objectsAreEqual` returns what `reflect.DeepEqual`
returns, also on nil operands and on nil and empty byte sequences: the byte-sequence
branch never changes the outcome. -/
theorem objectsAreEqual_agrees_with_DeepEqual (expected actual : GoValue) (e a : List Nat) :
    objectsAreEqual expected actual = reflect.DeepEqual expected actual ∧
    objectsAreEqual (.bytes (some e)) (.bytes (some a)) =
      reflect.DeepEqual (.bytes (some e)) (.bytes (some a)) ∧
    reflect.DeepEqual .nil .nil = true ∧
    reflect.DeepEqual .nil (.bytes none) = false ∧
    reflect.DeepEqual (.bytes none) (.bytes none) = true ∧
    reflect.DeepEqual (.bytes none) (.bytes (some [])) = false ∧
    reflect.DeepEqual (.bytes (some [])) (.bytes none) = false ∧
    reflect.DeepEqual (.bytes (some [])) (.bytes (some [])) = true :=
  ⟨objectsAreEqual_eq_DeepEqual expected actual, objectsAreEqual_eq_DeepEqual _ _,
    rfl, rfl, rfl, rfl, rfl, rfl⟩

/-! ### Column alignment -/

theorem Repeat_space_length (n : Nat) : (strings.Repeat (ascii " ") n).length = n := by
  rw [Repeat_space, List.length_replicate]

theorem rowPrefix_length (W : Nat) (label : GoString) (h : label.length ≤ W) :
    (rowPrefix W label).length = W + 3 := by
  have h1 : (ascii "\t").length = 1 := rfl
  have h2 : (ascii ":").length = 1 := rfl
  unfold rowPrefix
  simp only [List.length_append, Repeat_space_length, h1, h2]
  omega

theorem continuationIndent_length (W : Nat) : (continuationIndent W).length = W + 3 := by
  have h1 : (ascii "\t").length = 1 := rfl
  unfold continuationIndent
  simp only [List.length_append, Repeat_space_length, h1]
  omega

theorem continuationPrefix_eq (W : Nat) :
    continuationPrefix W = ascii "\n" ++ continuationIndent W := by
  unfold continuationPrefix continuationIndent
  have : ascii "\n\t" = ascii "\n" ++ ascii "\t" := rfl
  rw [this]
  simp only [List.append_assoc]

theorem labeledRow_eq (W : Nat) (label shown : GoString) :
    labeledRow W label shown = rowPrefix W label ++ shown ++ ascii "\n" := by
  unfold labeledRow rowPrefix
  simp only [List.append_assoc]

/-- C36: in the block `labeledOutput` renders, with `W` the greatest label length, the
part of every row before its content (tab, label, colon, padding, tab) is `W + 3` bytes
long, and the part of the continuation prefix after its newline (tab, `W + 1` spaces, tab)
is `W + 3` bytes long as well, so every content line starts at the same offset. -/
theorem rows_aligned (content : List labeledContent) (v : labeledContent) (hv : v ∈ content) :
    (rowPrefix (longestLabelLen content) v.label).length = longestLabelLen content + 3 ∧
    (continuationIndent (longestLabelLen content)).length = longestLabelLen content + 3 ∧
    continuationPrefix (longestLabelLen content) =
      ascii "\n" ++ continuationIndent (longestLabelLen content) ∧
    labeledOutput content =
      (content.map (fun w => rowPrefix (longestLabelLen content) w.label ++
        indentMessageLines w.content (longestLabelLen content) ++ ascii "\n")).flatten ∧
    (∀ lines : List GoString,
      indentLoop (longestLabelLen content) lines 0 =
        indentedLines (longestLabelLen content) lines) := by
  refine ⟨rowPrefix_length _ _ ((longestLabelLen_is_max content).1 v hv),
    continuationIndent_length _, continuationPrefix_eq _, ?_, indentLoop_zero _⟩
  rw [labeledOutput_rows]
  congr 1

/-- Witness of C36: with the labels `Error Trace` and `Error` the content column starts
14 bytes into every line. -/
theorem rows_aligned_witness :
    (rowPrefix 11 (ascii "Error")).length = 14 ∧
    (rowPrefix 11 (ascii "Error Trace")).length = 14 ∧
    (continuationIndent 11).length = 14 :=
  have h1 := rows_aligned [⟨ascii "Error Trace", ascii "x_test.go:12"⟩, ⟨ascii "Error", ascii "boom"⟩]
    ⟨ascii "Error", ascii "boom"⟩ (by decide)
  have h2 := rows_aligned [⟨ascii "Error Trace", ascii "x_test.go:12"⟩, ⟨ascii "Error", ascii "boom"⟩]
    ⟨ascii "Error Trace", ascii "x_test.go:12"⟩ (by decide)
  ⟨h1.1, h2.1, h1.2.1⟩

/-! ### Arguments the composer ignores, and the shape of its result -/

theorem messageFromMsgAndArgs_eq_composeScanned (R : Runtime) (a b : GoValue)
    (rest : List GoValue) :
    messageFromMsgAndArgs R (a :: b :: rest) =
      composeScanned (scanMsgAndArgs (a :: b :: rest) [] none) := rfl

theorem scanMsgAndArgs_filter (args : List GoValue) (strMsgs : List GoString)
    (structuredMsg : Option labeledContent) :
    scanMsgAndArgs (args.filter isTextOrCarrier) strMsgs structuredMsg =
      scanMsgAndArgs args strMsgs structuredMsg := by
  induction args generalizing strMsgs structuredMsg with
  | nil => rfl
  | cons v rest ih =>
    cases v with
    | string s =>
      simp only [List.filter_cons, isTextOrCarrier, ↓reduceIte, scanMsgAndArgs, ih]
    | failureMessageArgs n =>
      simp only [List.filter_cons, isTextOrCarrier, ↓reduceIte, scanMsgAndArgs, ih]
    | _ => simp only [List.filter_cons, isTextOrCarrier, Bool.false_eq_true, ↓reduceIte,
        scanMsgAndArgs, ih]

theorem Join_singleton (s sep : GoString) : strings.Join [s] sep = s := by
  simp [strings.Join, List.intercalate, List.intersperse]

theorem messageFromMsgAndArgs_of_texts_and_carriers (R : Runtime) (args : List GoValue)
    (h : ∀ v ∈ args, isTextOrCarrier v = true) :
    messageFromMsgAndArgs R args = composeScanned (scanMsgAndArgs args [] none) := by
  match args with
  | [] => rfl
  | [v] =>
    cases v with
    | string s =>
      simp only [messageFromMsgAndArgs, scanMsgAndArgs, composeScanned, List.nil_append,
        List.length_singleton, gt_iff_lt, Nat.lt_one_iff, Nat.one_pos, ↓reduceIte,
        Join_singleton, List.append_nil]
    | failureMessageArgs n =>
      by_cases hn : n = []
      · simp [messageFromMsgAndArgs, scanMsgAndArgs, composeScanned, hn]
      · simp [messageFromMsgAndArgs, scanMsgAndArgs, composeScanned, hn]
    | _ =>
      have := h _ (List.mem_singleton_self _)
      simp [isTextOrCarrier] at this
  | a :: b :: rest => rfl

theorem messageFromMsgAndArgs_filter (R : Runtime) (args : List GoValue)
    (hlen : 2 ≤ args.length) :
    messageFromMsgAndArgs R args = messageFromMsgAndArgs R (args.filter isTextOrCarrier) := by
  match args, hlen with
  | a :: b :: rest, _ =>
    rw [messageFromMsgAndArgs_eq_composeScanned,
      messageFromMsgAndArgs_of_texts_and_carriers R _ (fun v hv => (List.mem_filter.1 hv).2),
      scanMsgAndArgs_filter]

/-- C37: with two or more extra arguments, `messageFromMsgAndArgs` returns what it
returns on the list without the arguments that are neither plain text nor name-carriers;
so `(42, "a")` gives only the entry `Messages` with `a`, a list of such values alone
gives no entry, whereas the single argument `42` gives a `Messages` entry. -/
theorem messageFromMsgAndArgs_ignores_others (R : Runtime) (msgAndArgs : List GoValue)
    (hlen : 2 ≤ msgAndArgs.length) :
    messageFromMsgAndArgs R msgAndArgs =
      messageFromMsgAndArgs R (msgAndArgs.filter isTextOrCarrier) ∧
    messageFromMsgAndArgs R [.int 42, .string (ascii "a")] = [⟨ascii "Messages", ascii "a"⟩] ∧
    messageFromMsgAndArgs R [.int 42, .bool true, .nil] = [] ∧
    messageFromMsgAndArgs R [.int 42] = [⟨ascii "Messages", R.sprintPlusV (.int 42)⟩] :=
  ⟨messageFromMsgAndArgs_filter R msgAndArgs hlen, rfl, rfl, rfl⟩

/-- Witness of C37: a number, a text, a byte sequence and a name-carrier. -/
theorem messageFromMsgAndArgs_ignores_others_witness :
    messageFromMsgAndArgs sampleRuntime
      [.int 42, .string (ascii "a"), .bytes none, .failureMessageArgs (ascii "T1")] =
    messageFromMsgAndArgs sampleRuntime [.string (ascii "a"), .failureMessageArgs (ascii "T1")] :=
  (messageFromMsgAndArgs_ignores_others sampleRuntime
    [.int 42, .string (ascii "a"), .bytes none, .failureMessageArgs (ascii "T1")]
    (by decide)).1

theorem scanMsgAndArgs_name (args : List GoValue) (strMsgs strMsgs2 : List GoString)
    (structuredMsg structuredMsg2 : Option labeledContent)
    (h : scanMsgAndArgs args strMsgs structuredMsg = some (strMsgs2, structuredMsg2)) :
    structuredMsg2 = structuredMsg ∨
      ∃ n, n ≠ [] ∧ structuredMsg2 = some ⟨ascii "Name", n⟩ := by
  induction args generalizing strMsgs structuredMsg with
  | nil =>
    simp only [scanMsgAndArgs, Option.some.injEq, Prod.mk.injEq] at h
    exact Or.inl h.2.symm
  | cons v rest ih =>
    cases v with
    | string s =>
      simp only [scanMsgAndArgs] at h
      exact ih _ _ h
    | failureMessageArgs n =>
      simp only [scanMsgAndArgs] at h
      by_cases hn : n = []
      · rw [if_pos hn] at h
        cases h
      · rw [if_neg hn] at h
        rcases ih _ _ h with h2 | h2
        · exact Or.inr ⟨n, hn, h2⟩
        · exact Or.inr h2
    | _ =>
      simp only [scanMsgAndArgs] at h
      exact ih _ _ h

theorem composeScanned_shape (outcome : Option (List GoString × Option labeledContent))
    (h : ∀ strMsgs structuredMsg, outcome = some (strMsgs, structuredMsg) →
      structuredMsg = none ∨ ∃ n, n ≠ [] ∧ structuredMsg = some ⟨ascii "Name", n⟩) :
    composeScanned outcome = [] ∨
    (∃ c, composeScanned outcome = [⟨ascii "Messages", c⟩]) ∨
    (∃ n, n ≠ [] ∧ composeScanned outcome = [⟨ascii "Name", n⟩]) ∨
    (∃ c n, n ≠ [] ∧ composeScanned outcome = [⟨ascii "Messages", c⟩, ⟨ascii "Name", n⟩]) := by
  match outcome with
  | none => exact Or.inl rfl
  | some (strMsgs, structuredMsg) =>
    rcases h strMsgs structuredMsg rfl with h1 | ⟨n, hn, h1⟩
    · subst h1
      by_cases hs : strMsgs.length > 0
      · exact Or.inr (Or.inl ⟨strings.Join strMsgs (ascii ", "), by simp [composeScanned, hs]⟩)
      · exact Or.inl (by simp [composeScanned, hs])
    · subst h1
      by_cases hs : strMsgs.length > 0
      · exact Or.inr (Or.inr (Or.inr ⟨strings.Join strMsgs (ascii ", "), n, hn, by simp [composeScanned, hs]⟩))
      · exact Or.inr (Or.inr (Or.inl ⟨n, hn, by simp [composeScanned, hs]⟩))

theorem messageFromMsgAndArgs_shapes (R : Runtime) (args : List GoValue) :
    messageFromMsgAndArgs R args = [] ∨
    (∃ c, messageFromMsgAndArgs R args = [⟨ascii "Messages", c⟩]) ∨
    (∃ n, n ≠ [] ∧ messageFromMsgAndArgs R args = [⟨ascii "Name", n⟩]) ∨
    (∃ c n, n ≠ [] ∧
      messageFromMsgAndArgs R args = [⟨ascii "Messages", c⟩, ⟨ascii "Name", n⟩]) := by
  match args with
  | [] => exact Or.inl rfl
  | [v] =>
    cases v with
    | string s => exact Or.inr (Or.inl ⟨s, rfl⟩)
    | failureMessageArgs n =>
      by_cases hn : n = []
      · exact Or.inl (by simp [messageFromMsgAndArgs, hn])
      · exact Or.inr (Or.inr (Or.inl ⟨n, hn, by simp [messageFromMsgAndArgs, hn]⟩))
    | _ => exact Or.inr (Or.inl ⟨_, rfl⟩)
  | a :: b :: rest =>
    rw [messageFromMsgAndArgs_eq_composeScanned]
    apply composeScanned_shape
    intro strMsgs structuredMsg h
    exact scanMsgAndArgs_name _ _ _ _ _ h

/-- C38: for every extra-argument list the result of `messageFromMsgAndArgs` is empty, or
the one entry `Messages`, or the one entry `Name` with a non-empty content, or the entry
`Messages` followed by the entry `Name` with a non-empty content; so it has at most two
entries, and the empty list yields none. -/
theorem messageFromMsgAndArgs_invariant (R : Runtime) (msgAndArgs : List GoValue) :
    (messageFromMsgAndArgs R msgAndArgs = [] ∨
     (∃ c, messageFromMsgAndArgs R msgAndArgs = [⟨ascii "Messages", c⟩]) ∨
     (∃ n, n ≠ [] ∧ messageFromMsgAndArgs R msgAndArgs = [⟨ascii "Name", n⟩]) ∨
     (∃ c n, n ≠ [] ∧
       messageFromMsgAndArgs R msgAndArgs = [⟨ascii "Messages", c⟩, ⟨ascii "Name", n⟩])) ∧
    (messageFromMsgAndArgs R msgAndArgs).length ≤ 2 ∧
    messageFromMsgAndArgs R [] = [] := by
  have h := messageFromMsgAndArgs_shapes R msgAndArgs
  refine ⟨h, ?_, rfl⟩
  rcases h with h | ⟨c, h⟩ | ⟨n, _, h⟩ | ⟨c, n, _, h⟩ <;> rw [h] <;> simp

/-! ### Symmetry of equality -/

theorem goEqList_comm (fs gs : List GoValue) (ih : ∀ f ∈ fs, ∀ g, goEq f g = goEq g f) :
    goEqList fs gs = goEqList gs fs := by
  induction fs generalizing gs with
  | nil => cases gs <;> simp [goEqList]
  | cons f fs ihl =>
    cases gs with
    | nil => simp [goEqList]
    | cons g gs =>
      simp only [goEqList]
      rw [ih f (List.mem_cons_self _ _) g,
        ihl gs (fun f2 hf2 => ih f2 (List.mem_cons_of_mem _ hf2))]

theorem goEq_comm (a : GoValue) : ∀ b, goEq a b = goEq b a := by
  induction a using GoValue.childInduction with
  | step a ih =>
    intro b
    cases a with
    | float64 x => cases b <;> simp [goEq, floatEq_comm]
    | struct n fs =>
      cases b with
      | struct m gs =>
        simp only [goEq]
        rw [goEqList_comm fs gs (fun f hf g => ih f hf g)]
        have h1 : (n == m) = (m == n) := by
          rw [Bool.eq_iff_iff]; simp only [beq_iff_eq]; exact eq_comm
        have h2 : (fs.length == gs.length) = (gs.length == fs.length) := by
          rw [Bool.eq_iff_iff]; simp only [beq_iff_eq]; exact eq_comm
        rw [h1, h2]
      | _ => simp [goEq]
    | _ => cases b <;> simp [goEq, eq_comm]

theorem goEqList_trans (fs gs hs : List GoValue) (h1len : fs.length = gs.length)
    (h2len : gs.length = hs.length)
    (ih : ∀ f ∈ fs, ∀ g h, goEq f g = true → goEq g h = true → goEq f h = true)
    (h1 : goEqList fs gs = true) (h2 : goEqList gs hs = true) : goEqList fs hs = true := by
  induction fs generalizing gs hs with
  | nil => simp [goEqList]
  | cons f fs ihl =>
    cases gs with
    | nil => simp at h1len
    | cons g gs =>
      cases hs with
      | nil => simp at h2len
      | cons h hs =>
        simp only [goEqList, Bool.and_eq_true] at h1 h2 ⊢
        simp only [List.length_cons, Nat.add_right_cancel_iff] at h1len h2len
        exact ⟨ih f (List.mem_cons_self _ _) g h h1.1 h2.1,
          ihl gs hs h1len h2len (fun f2 hf2 => ih f2 (List.mem_cons_of_mem _ hf2)) h1.2 h2.2⟩

theorem goEq_trans (a : GoValue) :
    ∀ b c, goEq a b = true → goEq b c = true → goEq a c = true := by
  induction a using GoValue.childInduction with
  | step a ih =>
    intro b c h1 h2
    cases a with
    | float64 x =>
      cases b <;> first | (simp [goEq] at h1; done) | skip
      cases c <;> first | (simp [goEq] at h2; done) | skip
      simp only [goEq] at h1 h2 ⊢
      exact floatEq_trans _ _ _ h1 h2
    | struct n fs =>
      cases b <;> first | (simp [goEq] at h1; done) | skip
      cases c <;> first | (simp [goEq] at h2; done) | skip
      simp only [goEq, Bool.and_eq_true, beq_iff_eq] at h1 h2 ⊢
      exact ⟨⟨h1.1.1.trans h2.1.1, h1.1.2.trans h2.1.2⟩,
        goEqList_trans _ _ _ h1.1.2 h2.1.2 (fun f hf => ih f hf) h1.2 h2.2⟩
    | nil =>
      cases b <;> first | (simp [goEq] at h1; done) | skip
      exact h2
    | bool x =>
      cases b <;> first | (simp [goEq] at h1; done) | skip
      cases c <;> first | (simp [goEq] at h2; done) | skip
      simp only [goEq, beq_iff_eq] at h1 h2 ⊢
      exact h1.trans h2
    | int x =>
      cases b <;> first | (simp [goEq] at h1; done) | skip
      cases c <;> first | (simp [goEq] at h2; done) | skip
      simp only [goEq, beq_iff_eq] at h1 h2 ⊢
      exact h1.trans h2
    | string x =>
      cases b <;> first | (simp [goEq] at h1; done) | skip
      cases c <;> first | (simp [goEq] at h2; done) | skip
      simp only [goEq, beq_iff_eq] at h1 h2 ⊢
      exact h1.trans h2
    | duration x =>
      cases b <;> first | (simp [goEq] at h1; done) | skip
      cases c <;> first | (simp [goEq] at h2; done) | skip
      simp only [goEq, beq_iff_eq] at h1 h2 ⊢
      exact h1.trans h2
    | failureMessageArgs x =>
      cases b <;> first | (simp [goEq] at h1; done) | skip
      cases c <;> first | (simp [goEq] at h2; done) | skip
      simp only [goEq, beq_iff_eq] at h1 h2 ⊢
      exact h1.trans h2
    | _ => simp [goEq] at h1

/-- Counting argument: when every element of the first list is matched by an element of
the second, no element of the second is matched by two elements of the first, and the
second list is not longer, then every element of the second list is matched. -/
theorem matched_of_injective {α β : Type} (Q : α → β → Prop) (S : α → α → Prop)
    (hQ : ∀ a a2 b, Q a b → Q a2 b → S a a2) :
    ∀ (l1 : List α) (l2 : List β), l1.Pairwise (fun a a2 => ¬ S a a2) →
      (∀ a ∈ l1, ∃ b ∈ l2, Q a b) → l2.length ≤ l1.length →
      ∀ b ∈ l2, ∃ a ∈ l1, Q a b := by
  intro l1
  induction l1 with
  | nil =>
    intro l2 _ _ hlen b hb
    cases l2 with
    | nil => cases hb
    | cons _ _ => simp at hlen
  | cons a l1 ih =>
    intro l2 hp hall hlen
    obtain ⟨b0, hb0, hab0⟩ := hall a (List.mem_cons_self _ _)
    obtain ⟨L, L2, rfl⟩ := List.append_of_mem hb0
    rw [List.pairwise_cons] at hp
    have hall2 : ∀ a2 ∈ l1, ∃ b ∈ L ++ L2, Q a2 b := by
      intro a2 ha2
      obtain ⟨b, hb, hab⟩ := hall a2 (List.mem_cons_of_mem _ ha2)
      rcases List.mem_append.1 hb with hb | hb
      · exact ⟨b, List.mem_append_left _ hb, hab⟩
      · rcases List.mem_cons.1 hb with hb | hb
        · subst hb
          exact absurd (hQ a a2 b hab0 hab) (hp.1 a2 ha2)
        · exact ⟨b, List.mem_append_right _ hb, hab⟩
    have hlen2 : (L ++ L2).length ≤ l1.length := by
      simp only [List.length_append, List.length_cons] at hlen ⊢
      omega
    have hrec := ih (L ++ L2) hp.2 hall2 hlen2
    intro b hb
    rcases List.mem_append.1 hb with hb | hb
    · obtain ⟨a2, ha2, h⟩ := hrec b (List.mem_append_left _ hb)
      exact ⟨a2, List.mem_cons_of_mem _ ha2, h⟩
    · rcases List.mem_cons.1 hb with hb | hb
      · subst hb
        exact ⟨a, List.mem_cons_self _ _, hab0⟩
      · obtain ⟨a2, ha2, h⟩ := hrec b (List.mem_append_right _ hb)
        exact ⟨a2, List.mem_cons_of_mem _ ha2, h⟩

theorem entry_unique (m : List (GoValue × GoValue))
    (hp : m.Pairwise (fun e1 e2 => goEq e1.1 e2.1 = false)) (e e2 : GoValue × GoValue)
    (he : e ∈ m) (he2 : e2 ∈ m) (h : goEq e.1 e2.1 = true) : e = e2 := by
  induction m with
  | nil => cases he
  | cons x m ih =>
    rw [List.pairwise_cons] at hp
    rcases List.mem_cons.1 he with h1 | h1 <;> rcases List.mem_cons.1 he2 with h2 | h2
    · rw [h1, h2]
    · subst h1
      rw [hp.1 e2 h2] at h
      cases h
    · subst h2
      rw [goEq_comm, hp.1 e h1] at h
      cases h
    · exact ih hp.2 h1 h2

theorem MapIndex_of_goEq (m : List (GoValue × GoValue)) (hd : distinctKeys m = true)
    (e : GoValue × GoValue) (k : GoValue) (he : e ∈ m) (hk : goEq e.1 k = true) :
    MapIndex m k = some e.2 := by
  unfold MapIndex
  cases hf : m.find? (fun e => goEq e.1 k) with
  | none =>
    rw [List.find?_eq_none] at hf
    exact absurd hk (hf e he)
  | some e2 =>
    have hmem : e2 ∈ m := List.mem_of_find?_eq_some hf
    have hk2 : goEq e2.1 k = true :=
      List.find?_some (p := fun (e : GoValue × GoValue) => goEq e.1 k) hf
    have hkk : goEq k e.1 = true := by rw [goEq_comm]; exact hk
    have := entry_unique m ((distinctKeys_iff_pairwise m).1 hd) e2 e hmem he
      (goEq_trans _ _ _ hk2 hkk)
    rw [this]
    rfl

theorem deepEqualEntries_symm (m1 m2 : List (GoValue × GoValue))
    (hd1 : distinctKeys m1 = true)
    (hlen : m1.length = m2.length)
    (ih : ∀ e ∈ m1, ∀ e2 ∈ m2, deepValueEqual e.2 e2.2 = true → deepValueEqual e2.2 e.2 = true)
    (h : deepEqualEntries m1 m2 = true) : deepEqualEntries m2 m1 = true := by
  rw [deepEqualEntries_iff] at h ⊢
  have hcover := matched_of_injective
    (fun (e1 e2 : GoValue × GoValue) =>
      goEq e2.1 e1.1 = true ∧ deepValueEqual e1.2 e2.2 = true)
    (fun (e1 e2 : GoValue × GoValue) => goEq e1.1 e2.1 = true)
    (by
      intro a a2 b h1 h2
      have : goEq a.1 b.1 = true := by rw [goEq_comm]; exact h1.1
      exact goEq_trans _ _ _ this h2.1)
    m1 m2
    (by
      have := (distinctKeys_iff_pairwise m1).1 hd1
      exact this.imp (fun hab => by simp [hab]))
    (by
      intro e he
      obtain ⟨v2, hmi, hv⟩ := h e he
      obtain ⟨k2, hmem, hk⟩ := MapIndex_some_mem m2 e.1 v2 hmi
      exact ⟨(k2, v2), hmem, hk, hv⟩)
    (by omega)
  intro e2 he2
  obtain ⟨e1, he1, hk, hv⟩ := hcover e2 he2
  have hk2 : goEq e1.1 e2.1 = true := by rw [goEq_comm]; exact hk
  exact ⟨e1.2, MapIndex_of_goEq m1 hd1 e1 e2.1 he1 hk2, ih e1 he1 e2 he2 hv⟩

theorem deepValueEqual_symm_imp (x : GoValue) :
    ∀ y, wellFormed x = true → wellFormed y = true → deepValueEqual x y = true →
      deepValueEqual y x = true := by
  induction x using GoValue.childInduction with
  | step x ih =>
    intro y hx hy h
    cases x with
    | nil =>
      cases y <;> first | (simp [deepValueEqual] at h; done) | skip
      rfl
    | float64 a =>
      cases y <;> first | (simp [deepValueEqual] at h; done) | skip
      simp only [deepValueEqual] at h ⊢
      rw [floatEq_comm]
      exact h
    | func s a =>
      cases y <;> first | (simp [deepValueEqual] at h; done) | skip
      simp only [deepValueEqual, Bool.and_eq_true, beq_iff_eq] at h ⊢
      exact ⟨⟨h.1.1.symm, h.2⟩, h.1.2⟩
    | slice t data =>
      rcases data with _ | ⟨p, xs⟩
      · rcases y with _ | _ | _ | _ | _ | _ | _ | _ | _ | ⟨t2, _ | ⟨q, ys⟩⟩ | _ | _
        all_goals first | (simp [deepValueEqual] at h; done) | skip
        simp only [deepValueEqual, beq_iff_eq] at h ⊢
        exact h.symm
      · rcases y with _ | _ | _ | _ | _ | _ | _ | _ | _ | ⟨t2, _ | ⟨q, ys⟩⟩ | _ | _
        all_goals first | (simp [deepValueEqual] at h; done) | skip
        simp only [deepValueEqual, Bool.and_eq_true, Bool.or_eq_true, beq_iff_eq] at h ⊢
        simp only [wellFormed, wellFormedList_iff] at hx hy
        refine ⟨⟨h.1.1.symm, h.1.2.symm⟩, ?_⟩
        rcases h.2 with hpq | hl
        · exact Or.inl hpq.symm
        · exact Or.inr (deepEqualList_symm xs ys h.1.2
            (fun a ha c hc => ih a (mem_children_slice _ p xs a ha) c (hx a ha) (hy c hc)) hl)
    | map k w data =>
      rcases data with _ | ⟨p, m⟩
      · rcases y with _ | _ | _ | _ | _ | _ | _ | _ | _ | _ | ⟨k2, w2, _ | ⟨q, m2⟩⟩ | _
        all_goals first | (simp [deepValueEqual] at h; done) | skip
        simp only [deepValueEqual, Bool.and_eq_true, beq_iff_eq] at h ⊢
        exact ⟨h.1.symm, h.2.symm⟩
      · rcases y with _ | _ | _ | _ | _ | _ | _ | _ | _ | _ | ⟨k2, w2, _ | ⟨q, m2⟩⟩ | _
        all_goals first | (simp [deepValueEqual] at h; done) | skip
        simp only [deepValueEqual, Bool.and_eq_true, Bool.or_eq_true, beq_iff_eq] at h ⊢
        simp only [wellFormed, Bool.and_eq_true, wellFormedEntries_iff] at hx hy
        refine ⟨⟨⟨h.1.1.1.symm, h.1.1.2.symm⟩, h.1.2.symm⟩, ?_⟩
        rcases h.2 with hpq | hl
        · exact Or.inl hpq.symm
        · exact Or.inr (deepEqualEntries_symm m m2 hx.1 h.1.2
            (fun e he e2 he2 => ih e.2 (mem_children_map _ _ p m e he) e2.2 (hx.2 e he).2.2
              (hy.2 e2 he2).2.2) hl)
    | struct n fs =>
      cases y <;> first | (simp [deepValueEqual] at h; done) | skip
      simp only [deepValueEqual, Bool.and_eq_true, beq_iff_eq] at h ⊢
      simp only [wellFormed, wellFormedList_iff] at hx hy
      exact ⟨⟨h.1.1.symm, h.1.2.symm⟩, deepEqualList_symm _ _ h.1.2
        (fun a ha c hc => ih a ha c (hx a ha) (hy c hc)) h.2⟩
    | _ =>
      cases y <;> first | (simp [deepValueEqual] at h; done) | skip
      simp only [deepValueEqual, beq_iff_eq] at h ⊢
      exact h.symm

theorem deepValueEqual_comm (x y : GoValue) (hx : wellFormed x = true)
    (hy : wellFormed y = true) : deepValueEqual x y = deepValueEqual y x := by
  rw [Bool.eq_iff_iff]
  exact ⟨deepValueEqual_symm_imp x y hx hy, deepValueEqual_symm_imp y x hy hx⟩

theorem objectsAreEqual_comm (x y : GoValue) (hx : wellFormed x = true)
    (hy : wellFormed y = true) : objectsAreEqual x y = objectsAreEqual y x := by
  rw [objectsAreEqual_eq_DeepEqual, objectsAreEqual_eq_DeepEqual, DeepEqual_eq_deepValueEqual,
    DeepEqual_eq_deepValueEqual]
  exact deepValueEqual_comm x y hx hy

theorem validateEqualArgs_comm (x y : GoValue) :
    validateEqualArgs x y = validateEqualArgs y x := by
  unfold validateEqualArgs
  rw [Bool.and_comm x.isNil y.isNil, Bool.or_comm (isFunction x) (isFunction y)]

/-- C35: equality is symmetric in its operands: for well-formed values `x` and `y` (no map
holds two equal keys), `objectsAreEqual x y = objectsAreEqual y x`, also when exactly one
of them is nil or exactly one is a byte sequence, and swapping the expected and the actual
value never changes whether `DefaultVerifier.Equal` passes. -/
theorem objectsAreEqual_symmetric (R : Runtime) (t : TestingT) (x y : GoValue)
    (msgAndArgs : List GoValue) (hx : wellFormed x = true) (hy : wellFormed y = true) :
    objectsAreEqual x y = objectsAreEqual y x ∧
    validateEqualArgs x y = validateEqualArgs y x ∧
    (DefaultVerifier.Equal R t x y msgAndArgs).1 =
      (DefaultVerifier.Equal R t y x msgAndArgs).1 := by
  refine ⟨objectsAreEqual_comm x y hx hy, validateEqualArgs_comm x y, ?_⟩
  cases hv : validateEqualArgs x y with
  | none =>
    rw [Equal_result_of_valid R t x y msgAndArgs hv,
      Equal_result_of_valid R t y x msgAndArgs (by rw [validateEqualArgs_comm]; exact hv)]
    exact objectsAreEqual_comm x y hx hy
  | some err =>
    have hv2 : validateEqualArgs y x = some err := by rw [validateEqualArgs_comm]; exact hv
    unfold DefaultVerifier.Equal
    rw [hv, hv2]
    rfl

/-- Witness of C35: two maps holding the same entries in different orders, the nil
interface against a byte sequence, and a byte sequence against a text. -/
theorem objectsAreEqual_symmetric_witness :
    (objectsAreEqual
        (.map .string .int (some (⟨0, 0⟩,
          [(.string (ascii "a"), .int 1), (.string (ascii "b"), .int 2)])))
        (.map .string .int (some (⟨0, 1⟩,
          [(.string (ascii "b"), .int 2), (.string (ascii "a"), .int 1)]))) =
      objectsAreEqual
        (.map .string .int (some (⟨0, 1⟩,
          [(.string (ascii "b"), .int 2), (.string (ascii "a"), .int 1)])))
        (.map .string .int (some (⟨0, 0⟩,
          [(.string (ascii "a"), .int 1), (.string (ascii "b"), .int 2)])))) ∧
    objectsAreEqual .nil (.bytes (some [1])) = objectsAreEqual (.bytes (some [1])) .nil ∧
    objectsAreEqual (.bytes (some [97])) (.string [97]) =
      objectsAreEqual (.string [97]) (.bytes (some [97])) :=
  ⟨(objectsAreEqual_symmetric sampleRuntime ⟨none⟩
      (.map .string .int (some (⟨0, 0⟩,
          [(.string (ascii "a"), .int 1), (.string (ascii "b"), .int 2)])))
      (.map .string .int (some (⟨0, 1⟩,
          [(.string (ascii "b"), .int 2), (.string (ascii "a"), .int 1)])))
      [] (by decide) (by decide)).1,
   (objectsAreEqual_symmetric sampleRuntime ⟨none⟩ .nil (.bytes (some [1])) [] rfl rfl).1,
   (objectsAreEqual_symmetric sampleRuntime ⟨none⟩ (.bytes (some [97])) (.string [97]) []
      rfl rfl).1⟩

/-! ### The scanner -/

namespace json

theorem skipSpace_of_not_space (c : Nat) (rest : GoString) (h : isSpace c = false) :
    skipSpace (c :: rest) = c :: rest := by
  simp [skipSpace, h]

theorem skipSpace_append (w s : GoString) (h : allSpace w = true) :
    skipSpace (w ++ s) = skipSpace s := by
  induction w with
  | nil => rfl
  | cons c w ih =>
    simp only [allSpace, List.all_cons, Bool.and_eq_true] at h
    simp only [List.cons_append, skipSpace, h.1, ↓reduceIte]
    exact ih h.2

theorem skipSpace_allSpace (w : GoString) (h : allSpace w = true) : skipSpace w = [] := by
  have := skipSpace_append w [] h
  simpa [skipSpace] using this

theorem scanDigits_append (s rest : GoString) (h : numberEnd rest = true) :
    scanDigits (s ++ rest) = ((scanDigits s).1, (scanDigits s).2 ++ rest) := by
  induction s with
  | nil =>
    cases rest with
    | nil => rfl
    | cons c rest =>
      simp only [numberEnd, Bool.not_eq_true', Bool.or_eq_false_iff] at h
      simp [scanDigits, h.1.1.1]
  | cons c s ih =>
    simp only [List.cons_append, scanDigits, List.append_eq]
    split
    · rw [ih]
    · rfl

theorem scanInt_append (s rest i r : GoString) (h : numberEnd rest = true)
    (hs : scanInt s = some (i, r)) : scanInt (s ++ rest) = some (i, r ++ rest) := by
  cases s with
  | nil => simp [scanInt] at hs
  | cons c s =>
    simp only [scanInt, List.cons_append] at hs ⊢
    split at hs
    · rename_i hc
      rw [if_pos hc]
      simp only [Option.some.injEq, Prod.mk.injEq] at hs
      rw [← hs.1, ← hs.2]
    · rename_i hc
      rw [if_neg hc]
      split at hs
      · rename_i hd
        rw [if_pos hd, scanDigits_append s rest h]
        simp only [Option.some.injEq, Prod.mk.injEq] at hs
        rw [← hs.1, ← hs.2]
      · cases hs

theorem scanFrac_append (s rest f r : GoString) (h : numberEnd rest = true)
    (hs : scanFrac s = some (f, r)) : scanFrac (s ++ rest) = some (f, r ++ rest) := by
  cases s with
  | nil =>
    simp only [scanFrac, Option.some.injEq, Prod.mk.injEq] at hs
    rw [← hs.1, ← hs.2]
    cases rest with
    | nil => rfl
    | cons c rest =>
      simp only [numberEnd, Bool.not_eq_true', Bool.or_eq_false_iff, beq_eq_false_iff_ne,
        ne_eq] at h
      simp [scanFrac, h.1.1.2]
  | cons c s =>
    simp only [scanFrac, List.cons_append] at hs ⊢
    split at hs
    · rename_i hc
      rw [if_pos hc, scanDigits_append s rest h]
      split at hs
      · cases hs
      · rename_i hd
        rw [if_neg hd]
        simp only [Option.some.injEq, Prod.mk.injEq] at hs
        rw [← hs.1, ← hs.2]
    · rename_i hc
      rw [if_neg hc]
      simp only [Option.some.injEq, Prod.mk.injEq] at hs
      rw [← hs.1, ← hs.2]
      rfl

theorem scanExpDigits_append (s rest ds r : GoString) (h : numberEnd rest = true)
    (hs : scanExpDigits s = some (ds, r)) :
    scanExpDigits (s ++ rest) = some (ds, r ++ rest) := by
  simp only [scanExpDigits] at hs ⊢
  rw [scanDigits_append s rest h]
  split at hs
  · cases hs
  · rename_i hd
    rw [if_neg hd]
    simp only [Option.some.injEq, Prod.mk.injEq] at hs
    rw [← hs.1, ← hs.2]

theorem scanExp_append (s rest e r : GoString) (h : numberEnd rest = true)
    (hs : scanExp s = some (e, r)) : scanExp (s ++ rest) = some (e, r ++ rest) := by
  cases s with
  | nil =>
    simp only [scanExp, Option.some.injEq, Prod.mk.injEq] at hs
    rw [← hs.1, ← hs.2]
    cases rest with
    | nil => rfl
    | cons c rest =>
      simp only [numberEnd, Bool.not_eq_true', Bool.or_eq_false_iff, beq_eq_false_iff_ne,
        ne_eq] at h
      simp [scanExp, h.1.2, h.2]
  | cons c s =>
    simp only [scanExp, List.cons_append] at hs ⊢
    split at hs
    · rename_i hc
      rw [if_pos hc]
      cases s with
      | nil => cases hs
      | cons d s =>
        simp only [List.cons_append] at hs ⊢
        split at hs
        · rename_i hd
          rw [if_pos hd]
          cases hx : scanExpDigits s with
          | none => rw [hx] at hs; cases hs
          | some p =>
            obtain ⟨ds, r2⟩ := p
            rw [hx] at hs
            rw [scanExpDigits_append s rest ds r2 h hx]
            simp only [Option.some.injEq, Prod.mk.injEq] at hs ⊢
            rw [← hs.1, ← hs.2]
            exact ⟨rfl, rfl⟩
        · rename_i hd
          rw [if_neg hd]
          cases hx : scanExpDigits (d :: s) with
          | none => rw [hx] at hs; cases hs
          | some p =>
            obtain ⟨ds, r2⟩ := p
            rw [hx] at hs
            have := scanExpDigits_append (d :: s) rest ds r2 h hx
            rw [List.cons_append] at this
            rw [this]
            simp only [Option.some.injEq, Prod.mk.injEq] at hs ⊢
            rw [← hs.1, ← hs.2]
            exact ⟨rfl, rfl⟩
    · rename_i hc
      rw [if_neg hc]
      simp only [Option.some.injEq, Prod.mk.injEq] at hs
      rw [← hs.1, ← hs.2]
      rfl

theorem scanSignedInt_append (s rest i r : GoString) (h : numberEnd rest = true)
    (hs : scanSignedInt s = some (i, r)) : scanSignedInt (s ++ rest) = some (i, r ++ rest) := by
  cases s with
  | nil => cases hs
  | cons c s =>
    simp only [scanSignedInt, List.cons_append] at hs ⊢
    split at hs
    · rename_i hc
      rw [if_pos hc]
      cases hx : scanInt s with
      | none => rw [hx] at hs; cases hs
      | some p =>
        obtain ⟨i2, r2⟩ := p
        rw [hx] at hs
        rw [scanInt_append s rest i2 r2 h hx]
        simp only [Option.some.injEq, Prod.mk.injEq] at hs ⊢
        rw [← hs.1, ← hs.2]
        exact ⟨rfl, rfl⟩
    · rename_i hc
      rw [if_neg hc]
      have := scanInt_append (c :: s) rest i r h hs
      rw [List.cons_append] at this
      exact this

theorem scanNumber_append (s rest lit r : GoString) (h : numberEnd rest = true)
    (hs : scanNumber s = some (lit, r)) : scanNumber (s ++ rest) = some (lit, r ++ rest) := by
  unfold scanNumber at hs ⊢
  cases hi : scanSignedInt s with
  | none => rw [hi] at hs; cases hs
  | some p0 =>
    obtain ⟨i, r1⟩ := p0
    rw [hi] at hs
    rw [scanSignedInt_append s rest i r1 h hi]
    simp only at hs ⊢
    cases hf : scanFrac r1 with
    | none => rw [hf] at hs; cases hs
    | some p =>
      obtain ⟨f, r2⟩ := p
      rw [hf] at hs
      rw [scanFrac_append r1 rest f r2 h hf]
      simp only at hs ⊢
      cases he : scanExp r2 with
      | none => rw [he] at hs; cases hs
      | some q =>
        obtain ⟨e, r3⟩ := q
        rw [he] at hs
        rw [scanExp_append r2 rest e r3 h he]
        simp only [Option.some.injEq, Prod.mk.injEq] at hs ⊢
        rw [← hs.1, ← hs.2]
        exact ⟨rfl, rfl⟩

theorem scanNumber_of_valid (lit rest : GoString) (hv : validNumber lit = true)
    (h : numberEnd rest = true) : scanNumber (lit ++ rest) = some (lit, rest) := by
  simp only [validNumber, beq_iff_eq] at hv
  have := scanNumber_append lit rest lit [] h hv
  simpa using this

theorem scanInt_head (s i r : GoString) (hs : scanInt s = some (i, r)) :
    ∃ c t, s = c :: t ∧ isDigit c = true := by
  cases s with
  | nil => simp [scanInt] at hs
  | cons c s =>
    refine ⟨c, s, rfl, ?_⟩
    simp only [scanInt] at hs
    split at hs
    · rename_i hc
      rw [hc]
      rfl
    · split at hs
      · assumption
      · cases hs

/-- A number literal starts with a minus sign or with a digit. -/
theorem validNumber_head (lit : GoString) (hv : validNumber lit = true) :
    ∃ c t, lit = c :: t ∧ (c = 45 ∨ isDigit c = true) := by
  simp only [validNumber, beq_iff_eq] at hv
  unfold scanNumber at hv
  cases lit with
  | nil => simp [scanSignedInt] at hv
  | cons c t =>
    refine ⟨c, t, rfl, ?_⟩
    by_cases hc : c = 45
    · exact Or.inl hc
    · right
      simp only [scanSignedInt, if_neg hc] at hv
      cases hx : scanInt (c :: t) with
      | none => rw [hx] at hv; cases hv
      | some p =>
        obtain ⟨c2, t2, h1, h2⟩ := scanInt_head (c :: t) p.1 p.2 hx
        cases h1
        exact h2

theorem scanString_append (s rest raw r : GoString) (hs : scanString s = some (raw, r)) :
    scanString (s ++ rest) = some (raw, r ++ rest) := by
  induction s using scanString.induct generalizing raw r with
  | case1 => simp [scanString] at hs
  | case2 t =>
    unfold scanString at hs
    simp only [↓reduceIte, Option.some.injEq, Prod.mk.injEq] at hs
    rw [List.cons_append]
    unfold scanString
    simp [← hs.1, ← hs.2]
  | case3 => simp [scanString] at hs
  | case4 h1 h2 h3 h4 t hh ds r2 ht _ ih =>
    have := ih ds r2 ht
    unfold scanString at hs
    simp only [hh, ht] at hs
    simp only [List.cons_append]
    unfold scanString
    simp only [hh, this]
    simp at hs ⊢
    rw [← hs.1, ← hs.2]
    simp
  | case5 h1 h2 h3 h4 t hh ht _ ih =>
    unfold scanString at hs
    simp [hh, ht] at hs
  | case6 h1 h2 h3 h4 t hh _ =>
    unfold scanString at hs
    simp [hh] at hs
  | case7 t hh _ =>
    exfalso
    rcases t with _ | ⟨a, _ | ⟨b, _ | ⟨c, _ | ⟨d, t⟩⟩⟩⟩
    · simp [scanString] at hs
    · simp [scanString] at hs
    · simp [scanString] at hs
    · simp [scanString] at hs
    · exact hh a b c d t rfl
  | case8 d t hd he ds r2 ht _ ih =>
    have := ih ds r2 ht
    unfold scanString at hs
    simp only [hd, he, ht] at hs
    simp only [List.cons_append]
    unfold scanString
    simp only [hd, he, this]
    simp at hs ⊢
    rw [← hs.1, ← hs.2]
    simp
  | case9 d t hd he ht _ ih =>
    unfold scanString at hs
    simp [hd, he, ht] at hs
  | case10 d t hd he _ =>
    unfold scanString at hs
    simp [hd, he] at hs
  | case11 c t h1 h2 h3 =>
    unfold scanString at hs
    simp [h1, h2, h3] at hs
  | case12 c t h1 h2 h3 ds r2 ht ih =>
    have := ih ds r2 ht
    unfold scanString at hs
    simp only [h1, h2, h3, ht] at hs
    simp only [List.cons_append]
    unfold scanString
    simp only [h1, h2, h3, this]
    simp at hs ⊢
    rw [← hs.1, ← hs.2]
    simp
  | case13 c t h1 h2 h3 ht ih =>
    unfold scanString at hs
    simp [h1, h2, h3, ht] at hs

theorem scanString_of_valid (raw rest : GoString) (hv : validString raw = true) :
    scanString (raw ++ 34 :: rest) = some (raw, rest) := by
  simp only [validString, beq_iff_eq] at hv
  have := scanString_append (raw ++ [34]) rest raw [] hv
  simpa using this

theorem dropLiteral_append (lit rest : GoString) : dropLiteral lit (lit ++ rest) = some rest := by
  induction lit with
  | nil => cases rest <;> rfl
  | cons c lit ih => simp [dropLiteral, ih]

end json

namespace json

theorem parseValue_null (S : Scalars) (region fuel depth next : Nat) (rest : GoString) :
    parseValue S region (fuel + 1) depth next (110 :: 117 :: 108 :: 108 :: rest) =
      some (.nil, next, rest) := rfl

theorem parseValue_true (S : Scalars) (region fuel depth next : Nat) (rest : GoString) :
    parseValue S region (fuel + 1) depth next (116 :: 114 :: 117 :: 101 :: rest) =
      some (.bool true, next, rest) := rfl

theorem parseValue_false (S : Scalars) (region fuel depth next : Nat) (rest : GoString) :
    parseValue S region (fuel + 1) depth next (102 :: 97 :: 108 :: 115 :: 101 :: rest) =
      some (.bool false, next, rest) := rfl

theorem parseValue_string (S : Scalars) (region fuel depth next : Nat) (rest : GoString) :
    parseValue S region (fuel + 1) depth next (34 :: rest) =
      match scanString rest with
      | some (raw, rest2) => some (.string (S.unquote raw), next, rest2)
      | none => none := rfl

theorem parseValue_number (S : Scalars) (region fuel depth next c : Nat) (rest : GoString)
    (hc : c = 45 ∨ isDigit c = true) :
    parseValue S region (fuel + 1) depth next (c :: rest) =
      match scanNumber (c :: rest) with
      | some (lit, rest2) =>
        match S.parseFloat lit with
        | some bits => some (.float64 bits, next, rest2)
        | none => none
      | none => none := by
  have h : c ≤ 57 ∧ c ≠ 34 := by
    rcases hc with hc | hc
    · omega
    · simp only [isDigit, Bool.and_eq_true, decide_eq_true_eq] at hc
      omega
  rw [parseValue, if_neg (by omega), if_neg (by omega), if_neg h.2, if_neg (by omega),
    if_neg (by omega), if_neg (by omega)]

theorem parseValue_array (S : Scalars) (region fuel depth next : Nat) (rest : GoString)
    (hd : depth < maxNestingDepth) :
    parseValue S region (fuel + 1) depth next (91 :: rest) =
      match skipSpace rest with
      | [] => none
      | c2 :: rest2 =>
        if c2 = 93 then
          some (.slice .iface (some (⟨region, next⟩, [])), next + 1, rest2)
        else
          match parseElems S region fuel (depth + 1) (next + 1) (c2 :: rest2) with
          | some (vs, next2, rest3) =>
            some (.slice .iface (some (⟨region, next⟩, vs)), next2, rest3)
          | none => none := by
  rw [parseValue, if_neg (by omega), if_pos rfl, if_neg (by omega)]

theorem parseValue_object (S : Scalars) (region fuel depth next : Nat) (rest : GoString)
    (hd : depth < maxNestingDepth) :
    parseValue S region (fuel + 1) depth next (123 :: rest) =
      match skipSpace rest with
      | [] => none
      | c2 :: rest2 =>
        if c2 = 125 then
          some (.map .string .iface (some (⟨region, next⟩, [])), next + 1, rest2)
        else
          match parseMembers S region fuel (depth + 1) (next + 1) [] (c2 :: rest2) with
          | some (m, next2, rest3) =>
            some (.map .string .iface (some (⟨region, next⟩, m)), next2, rest3)
          | none => none := by
  rw [parseValue, if_pos rfl, if_neg (by omega)]

theorem skipSpace_idem (s : GoString) : skipSpace (skipSpace s) = skipSpace s := by
  induction s with
  | nil => rfl
  | cons c s ih =>
    simp only [skipSpace]
    split
    · exact ih
    · rename_i h
      simp [skipSpace, h]

theorem parseElems_skipSpace (S : Scalars) (region fuel depth next : Nat) (s : GoString) :
    parseElems S region fuel depth next (skipSpace s) = parseElems S region fuel depth next s := by
  cases fuel with
  | zero => simp [parseElems]
  | succ fuel => rw [parseElems, parseElems, skipSpace_idem]

theorem parseMembers_skipSpace (S : Scalars) (region fuel depth next : Nat)
    (acc : List (GoValue × GoValue)) (s : GoString) :
    parseMembers S region fuel depth next acc (skipSpace s) =
      parseMembers S region fuel depth next acc s := by
  cases fuel with
  | zero => simp [parseMembers]
  | succ fuel => rw [parseMembers, parseMembers, skipSpace_idem]

theorem render_head (S : Scalars) (depth : Nat) (d : Doc) (hv : d.valid S depth = true) :
    ∃ c t, d.render = c :: t ∧ isSpace c = false ∧ c ≠ 93 ∧ c ≠ 125 ∧ c ≠ 44 := by
  cases d with
  | null => exact ⟨110, _, rfl, by decide, by decide, by decide, by decide⟩
  | bool b =>
    cases b
    · exact ⟨102, _, rfl, by decide, by decide, by decide, by decide⟩
    · exact ⟨116, _, rfl, by decide, by decide, by decide, by decide⟩
  | number lit =>
    simp only [Doc.valid, Bool.and_eq_true] at hv
    obtain ⟨c, t, h1, h2⟩ := validNumber_head lit hv.1
    refine ⟨c, t, h1, ?_⟩
    rcases h2 with h2 | h2
    · subst h2
      exact ⟨by decide, by decide, by decide, by decide⟩
    · simp only [isDigit, Bool.and_eq_true, decide_eq_true_eq] at h2
      refine ⟨?_, by omega, by omega, by omega⟩
      simp only [isSpace, Bool.or_eq_false_iff, beq_eq_false_iff_ne, ne_eq]
      omega
  | string raw => exact ⟨34, _, rfl, by decide, by decide, by decide, by decide⟩
  | array inner elems => exact ⟨91, _, rfl, by decide, by decide, by decide, by decide⟩
  | object inner members => exact ⟨123, _, rfl, by decide, by decide, by decide, by decide⟩

theorem numberEnd_append (w rest : GoString) (hw : allSpace w = true)
    (hr : numberEnd rest = true) : numberEnd (w ++ rest) = true := by
  cases w with
  | nil => exact hr
  | cons c w =>
    simp only [allSpace, List.all_cons, Bool.and_eq_true] at hw
    have h := hw.1
    simp only [isSpace, Bool.or_eq_true, beq_iff_eq] at h
    simp only [List.cons_append, numberEnd, isDigit, Bool.not_eq_true', Bool.or_eq_false_iff,
      Bool.and_eq_false_iff, decide_eq_false_iff_not, beq_eq_false_iff_ne, ne_eq]
    omega

/-- The text at the end of an element or of a member: space, then a comma and more, or
space and the closing byte. -/
theorem numberEnd_tail (w more : GoString) (close : Nat) (rest : GoString)
    (hw : allSpace w = true) (hc : close = 93 ∨ close = 125)
    (hm : more = [] ∨ ∃ t, more = 44 :: t) :
    numberEnd (w ++ (more ++ close :: rest)) = true := by
  apply numberEnd_append w _ hw
  rcases hm with rfl | ⟨t, rfl⟩
  · rcases hc with rfl | rfl <;> rfl
  · rfl

end json

namespace json

/-! ### The decoder on a written value -/


theorem render_length_pos (S : Scalars) (depth : Nat) (d : Doc) (hv : d.valid S depth = true) :
    1 ≤ d.render.length := by
  obtain ⟨c, t, h, _⟩ := render_head S depth d hv
  rw [h]
  simp

theorem skipSpace_render (S : Scalars) (depth : Nat) (d : Doc) (hv : d.valid S depth = true)
    (w rest : GoString) (hw : allSpace w = true) :
    skipSpace (w ++ (d.render ++ rest)) = d.render ++ rest := by
  rw [skipSpace_append w _ hw]
  obtain ⟨c, t, h, hs, _⟩ := render_head S depth d hv
  rw [h, List.cons_append, skipSpace_of_not_space c _ hs]

theorem renderElems_cons (w1 : GoString) (d : Doc) (w2 : GoString)
    (rest : List (GoString × Doc × GoString)) :
    renderElems ((w1, d, w2) :: rest) = w1 ++ (d.render ++ (w2 ++ moreElems rest)) := by
  cases rest <;> rfl

theorem renderMembers_cons (w1 raw w2 w3 : GoString) (d : Doc) (w4 : GoString)
    (rest : List (GoString × GoString × GoString × GoString × Doc × GoString)) :
    renderMembers ((w1, raw, w2, w3, d, w4) :: rest) =
      w1 ++ (34 :: (raw ++ (34 :: (w2 ++ (58 :: (w3 ++ (d.render ++
        (w4 ++ moreMembers rest)))))))) := by
  cases rest <;> rfl

theorem parse_render (S : Scalars) (region : Nat) : ∀ fuel : Nat,
    (∀ (d : Doc) (depth next : Nat) (rest : GoString), d.render.length ≤ fuel →
      d.valid S depth = true → numberEnd rest = true →
      parseValue S region fuel depth next (d.render ++ rest) =
        some ((d.decoded S region next).1, (d.decoded S region next).2, rest)) ∧
    (∀ (e : GoString × Doc × GoString) (elems : List (GoString × Doc × GoString))
      (depth next : Nat) (rest : GoString),
      (renderElems (e :: elems)).length + 1 ≤ fuel → validElems S depth (e :: elems) = true →
      parseElems S region fuel depth next (renderElems (e :: elems) ++ 93 :: rest) =
        some ((decodedElems S region next (e :: elems)).1,
          (decodedElems S region next (e :: elems)).2, rest)) ∧
    (∀ (m : GoString × GoString × GoString × GoString × Doc × GoString)
      (ms : List (GoString × GoString × GoString × GoString × Doc × GoString))
      (depth next : Nat) (acc : List (GoValue × GoValue)) (rest : GoString),
      (renderMembers (m :: ms)).length + 1 ≤ fuel → validMembers S depth (m :: ms) = true →
      parseMembers S region fuel depth next acc (renderMembers (m :: ms) ++ 125 :: rest) =
        some ((decodedMembers S region next acc (m :: ms)).1,
          (decodedMembers S region next acc (m :: ms)).2, rest)) := by
  intro fuel
  induction fuel with
  | zero =>
    refine ⟨?_, ?_, ?_⟩
    · intro d depth next rest hl hv _
      have := render_length_pos S depth d hv
      omega
    · intro e elems depth next rest hl _
      omega
    · intro m ms depth next acc rest hl _
      omega
  | succ fuel ih =>
    obtain ⟨ihV, ihE, ihM⟩ := ih
    refine ⟨?_, ?_, ?_⟩
    · intro d depth next rest hl hv hr
      cases d with
      | null => exact parseValue_null S region fuel depth next rest
      | bool b =>
        cases b
        · exact parseValue_false S region fuel depth next rest
        · exact parseValue_true S region fuel depth next rest
      | number lit =>
        simp only [Doc.valid, Bool.and_eq_true] at hv
        obtain ⟨c, t, h1, h2⟩ := validNumber_head lit hv.1
        have hscan := scanNumber_of_valid lit rest hv.1 hr
        simp only [Doc.render, Doc.decoded]
        rw [h1, List.cons_append, parseValue_number S region fuel depth next c _ h2,
          ← List.cons_append, ← h1, hscan]
        simp only
        cases hp : S.parseFloat lit with
        | none => rw [hp] at hv; simp at hv
        | some bits => rfl
      | string raw =>
        simp only [Doc.valid] at hv
        simp only [Doc.render, Doc.decoded, List.cons_append, List.append_assoc,
          List.singleton_append, List.nil_append]
        rw [parseValue_string, scanString_of_valid raw rest hv]
      | array inner elems =>
        simp only [Doc.valid, Bool.and_eq_true, decide_eq_true_eq] at hv
        obtain ⟨⟨hd, hin⟩, hel⟩ := hv
        simp only [Doc.render, Doc.decoded, List.cons_append, List.append_assoc,
          List.singleton_append, List.nil_append]
        rw [parseValue_array S region fuel depth next _ hd]
        cases elems with
        | nil =>
          have : skipSpace (inner ++ (renderElems [] ++ 93 :: rest)) = 93 :: rest := by
            rw [skipSpace_append inner _ hin]
            rfl
          rw [this]
          rfl
        | cons e es =>
          obtain ⟨w1, d, w2⟩ := e
          have hE := ihE (w1, d, w2) es (depth + 1) (next + 1) rest (by
            simp only [Doc.render, List.length_cons, List.length_append] at hl
            omega) hel
          simp only [validElems, Bool.and_eq_true] at hel
          have hskip : skipSpace (inner ++ (renderElems ((w1, d, w2) :: es) ++ 93 :: rest)) =
              skipSpace (renderElems ((w1, d, w2) :: es) ++ 93 :: rest) :=
            skipSpace_append inner _ hin
          obtain ⟨c, t, hc, hs, h93, _⟩ := render_head S (depth + 1) d hel.1.1.2
          have hhead : skipSpace (renderElems ((w1, d, w2) :: es) ++ 93 :: rest) =
              c :: (t ++ (w2 ++ (moreElems es ++ 93 :: rest))) := by
            rw [renderElems_cons, List.append_assoc, skipSpace_append w1 _ hel.1.1.1, hc,
              List.cons_append, List.cons_append, skipSpace_of_not_space c _ hs]
            simp only [List.append_assoc]
          rw [hskip, hhead]
          simp only
          rw [if_neg h93, ← hhead, parseElems_skipSpace, hE]
      | object inner members =>
        simp only [Doc.valid, Bool.and_eq_true, decide_eq_true_eq] at hv
        obtain ⟨⟨hd, hin⟩, hel⟩ := hv
        simp only [Doc.render, Doc.decoded, List.cons_append, List.append_assoc,
          List.singleton_append, List.nil_append]
        rw [parseValue_object S region fuel depth next _ hd]
        cases members with
        | nil =>
          have : skipSpace (inner ++ (renderMembers [] ++ 125 :: rest)) = 125 :: rest := by
            rw [skipSpace_append inner _ hin]
            rfl
          rw [this]
          rfl
        | cons m ms =>
          obtain ⟨w1, raw, w2, w3, d, w4⟩ := m
          have hM := ihM (w1, raw, w2, w3, d, w4) ms (depth + 1) (next + 1) [] rest (by
            simp only [Doc.render, List.length_cons, List.length_append] at hl
            omega) hel
          simp only [validMembers, Bool.and_eq_true] at hel
          have hskip : skipSpace (inner ++
              (renderMembers ((w1, raw, w2, w3, d, w4) :: ms) ++ 125 :: rest)) =
              skipSpace (renderMembers ((w1, raw, w2, w3, d, w4) :: ms) ++ 125 :: rest) :=
            skipSpace_append inner _ hin
          have hhead : ∃ t, skipSpace
              (renderMembers ((w1, raw, w2, w3, d, w4) :: ms) ++ 125 :: rest) = 34 :: t := by
            rw [renderMembers_cons, List.append_assoc, skipSpace_append w1 _ hel.1.1.1.1.1.1]
            exact ⟨_, rfl⟩
          obtain ⟨t, ht⟩ := hhead
          rw [hskip, ht]
          simp only
          rw [if_neg (by decide), ← ht, parseMembers_skipSpace, hM]
    · intro e es depth next rest hl hv
      obtain ⟨w1, d, w2⟩ := e
      simp only [validElems, Bool.and_eq_true] at hv
      obtain ⟨⟨⟨hw1, hd⟩, hw2⟩, hes⟩ := hv
      have hpos := render_length_pos S depth d hd
      rw [renderElems_cons] at hl ⊢
      simp only [List.length_append] at hl
      have hmore : moreElems es = [] ∨ ∃ t, moreElems es = 44 :: t := by
        cases es with
        | nil => exact Or.inl rfl
        | cons e2 es2 => exact Or.inr ⟨_, rfl⟩
      have hV := ihV d depth next (w2 ++ (moreElems es ++ 93 :: rest)) (by omega) hd
        (numberEnd_tail w2 (moreElems es) 93 rest hw2 (Or.inl rfl) hmore)
      rw [parseElems]
      simp only [List.append_assoc]
      rw [skipSpace_render S depth d hd w1 _ hw1, hV]
      simp only
      rw [skipSpace_append w2 _ hw2]
      cases es with
      | nil =>
        simp only [moreElems, List.nil_append, skipSpace_of_not_space 93 rest (by decide)]
        rfl
      | cons e2 es2 =>
        have hE := ihE e2 es2 depth (d.decoded S region next).2 rest (by
          simp only [moreElems, List.length_cons] at hl
          omega) hes
        simp only [moreElems, List.cons_append,
          skipSpace_of_not_space 44 _ (by decide : isSpace 44 = false)]
        rw [if_pos trivial, hE]
        rfl
    · intro m ms depth next acc rest hl hv
      obtain ⟨w1, raw, w2, w3, d, w4⟩ := m
      simp only [validMembers, Bool.and_eq_true] at hv
      obtain ⟨⟨⟨⟨⟨⟨hw1, hraw⟩, hw2⟩, hw3⟩, hd⟩, hw4⟩, hms⟩ := hv
      have hpos := render_length_pos S depth d hd
      rw [renderMembers_cons] at hl ⊢
      simp only [List.length_append, List.length_cons] at hl
      have hmore : moreMembers ms = [] ∨ ∃ t, moreMembers ms = 44 :: t := by
        cases ms with
        | nil => exact Or.inl rfl
        | cons e2 es2 => exact Or.inr ⟨_, rfl⟩
      have hV := ihV d depth next (w4 ++ (moreMembers ms ++ 125 :: rest)) (by omega) hd
        (numberEnd_tail w4 (moreMembers ms) 125 rest hw4 (Or.inr rfl) hmore)
      rw [parseMembers]
      simp only [List.append_assoc, List.cons_append]
      rw [skipSpace_append w1 _ hw1, skipSpace_of_not_space 34 _ (by decide)]
      simp only
      rw [if_pos trivial, scanString_of_valid raw _ hraw]
      simp only
      rw [skipSpace_append w2 _ hw2, skipSpace_of_not_space 58 _ (by decide)]
      simp only
      rw [if_pos trivial, skipSpace_render S depth d hd w3 _ hw3, hV]
      simp only
      rw [skipSpace_append w4 _ hw4]
      cases ms with
      | nil =>
        simp only [moreMembers, List.nil_append, skipSpace_of_not_space 125 rest (by decide)]
        rfl
      | cons m2 ms2 =>
        have hM := ihM m2 ms2 depth (d.decoded S region next).2
          (mapAssign acc (.string (S.unquote raw)) (d.decoded S region next).1) rest (by
          simp only [moreMembers, List.length_cons] at hl
          omega) hms
        simp only [moreMembers, List.cons_append,
          skipSpace_of_not_space 44 _ (by decide : isSpace 44 = false)]
        rw [if_pos trivial, hM]
        rfl


theorem numberEnd_of_allSpace (w : GoString) (hw : allSpace w = true) : numberEnd w = true := by
  have := numberEnd_append w [] hw rfl
  simpa using this

/-- A well-formed text is decoded, and to the tree of its written value. -/
theorem decode_text (S : Scalars) (region : Nat) (lead : GoString) (d : Doc) (trail : GoString)
    (hv : validText S lead d trail = true) :
    decode S region (text lead d trail) = some (d.decoded S region 0).1 := by
  simp only [validText, Bool.and_eq_true] at hv
  obtain ⟨⟨hl, hd⟩, ht⟩ := hv
  unfold decode text
  rw [skipSpace_render S 0 d hd lead trail hl,
    (parse_render S region _).1 d 0 0 trail (by simp only [List.length_append]; omega) hd
      (numberEnd_of_allSpace trail ht)]
  simp only
  rw [if_pos (skipSpace_allSpace trail ht)]

theorem Unmarshal_text (S : Scalars) (region : Nat) (lead : GoString) (d : Doc)
    (trail : GoString) (hv : validText S lead d trail = true) :
    Unmarshal S region (text lead d trail) = .ok (d.decoded S region 0).1 := by
  unfold Unmarshal
  rw [decode_text S region lead d trail hv]

end json

/-! ### Values in separate regions are compared by content -/

theorem inRegionList_iff (r : Nat) (xs : List GoValue) :
    inRegionList r xs = true ↔ ∀ x ∈ xs, inRegion r x = true := by
  induction xs with
  | nil => simp [inRegionList]
  | cons x xs ih => simp [inRegionList, ih]

theorem inRegionEntries_iff (r : Nat) (m : List (GoValue × GoValue)) :
    inRegionEntries r m = true ↔ ∀ e ∈ m, inRegion r e.1 = true ∧ inRegion r e.2 = true := by
  induction m with
  | nil => simp [inRegionEntries]
  | cons e m ih =>
    obtain ⟨k, v⟩ := e
    simp [inRegionEntries, ih, and_assoc]

theorem atRegionList_length (r : Nat) (xs : List GoValue) :
    (atRegionList r xs).length = xs.length := by
  induction xs with
  | nil => rfl
  | cons x xs ih => simp [atRegionList, ih]

theorem atRegionEntries_length (r : Nat) (m : List (GoValue × GoValue)) :
    (atRegionEntries r m).length = m.length := by
  induction m with
  | nil => rfl
  | cons e m ih =>
    obtain ⟨k, v⟩ := e
    simp [atRegionEntries, ih]

theorem goEqList_atRegion (r r2 : Nat) (fs gs : List GoValue)
    (ih : ∀ f ∈ fs, ∀ g, goEq (atRegion r f) (atRegion r2 g) = goEq f g) :
    goEqList (atRegionList r fs) (atRegionList r2 gs) = goEqList fs gs := by
  induction fs generalizing gs with
  | nil => simp [atRegionList, goEqList]
  | cons f fs ihl =>
    cases gs with
    | nil => simp [atRegionList, goEqList]
    | cons g gs =>
      simp only [atRegionList, goEqList]
      rw [ih f (List.mem_cons_self _ _) g,
        ihl gs (fun f2 hf2 => ih f2 (List.mem_cons_of_mem _ hf2))]

theorem goEq_atRegion (r r2 : Nat) (a : GoValue) :
    ∀ b, goEq (atRegion r a) (atRegion r2 b) = goEq a b := by
  induction a using GoValue.childInduction with
  | step a ih =>
    intro b
    rcases a with _ | _ | _ | _ | _ | _ | _ | _ | _ | ⟨t, _ | ⟨p, xs⟩⟩ | ⟨k, w, _ | ⟨p, m⟩⟩ | ⟨n, fs⟩
    case struct =>
      rcases b with _ | _ | _ | _ | _ | _ | _ | _ | _ | ⟨t2, _ | ⟨q, ys⟩⟩ |
        ⟨k2, w2, _ | ⟨q, m2⟩⟩ | ⟨n2, gs⟩
      case struct =>
        simp only [atRegion, goEq, atRegionList_length]
        rw [goEqList_atRegion r r2 fs gs (fun f hf g => ih f hf g)]
      all_goals simp [atRegion, goEq]
    all_goals
      rcases b with _ | _ | _ | _ | _ | _ | _ | _ | _ | ⟨t2, _ | ⟨q, ys⟩⟩ |
        ⟨k2, w2, _ | ⟨q, m2⟩⟩ | ⟨n2, gs⟩ <;> simp [atRegion, goEq]

theorem MapIndex_atRegion (r r2 : Nat) (m : List (GoValue × GoValue)) (k : GoValue) :
    MapIndex (atRegionEntries r2 m) (atRegion r k) = (MapIndex m k).map (atRegion r2) := by
  induction m with
  | nil => rfl
  | cons e m ih =>
    obtain ⟨k2, v⟩ := e
    simp only [MapIndex, atRegionEntries, List.find?, goEq_atRegion] at ih ⊢
    cases goEq k2 k with
    | true => rfl
    | false => exact ih

theorem deepEqualList_atRegion (r r2 : Nat) (xs ys : List GoValue)
    (ih : ∀ x ∈ xs, ∀ y ∈ ys,
      deepValueEqual x y = deepValueEqual (atRegion r x) (atRegion r2 y)) :
    deepEqualList xs ys = deepEqualList (atRegionList r xs) (atRegionList r2 ys) := by
  induction xs generalizing ys with
  | nil => simp [atRegionList, deepEqualList]
  | cons x xs ihl =>
    cases ys with
    | nil => simp [atRegionList, deepEqualList]
    | cons y ys =>
      simp only [atRegionList, deepEqualList]
      rw [ih x (List.mem_cons_self _ _) y (List.mem_cons_self _ _),
        ihl ys (fun a ha b hb => ih a (List.mem_cons_of_mem _ ha) b (List.mem_cons_of_mem _ hb))]

theorem deepEqualEntries_atRegion (r r2 : Nat) (m m2 : List (GoValue × GoValue))
    (ih : ∀ e ∈ m, ∀ e2 ∈ m2,
      deepValueEqual e.2 e2.2 = deepValueEqual (atRegion r e.2) (atRegion r2 e2.2)) :
    deepEqualEntries m m2 = deepEqualEntries (atRegionEntries r m) (atRegionEntries r2 m2) := by
  induction m with
  | nil => simp [atRegionEntries, deepEqualEntries]
  | cons e m ihl =>
    obtain ⟨k, v⟩ := e
    simp only [atRegionEntries, deepEqualEntries]
    rw [MapIndex_atRegion, ← ihl (fun a ha b hb => ih a (List.mem_cons_of_mem _ ha) b hb)]
    cases hmi : MapIndex m2 k with
    | none => rfl
    | some v2 =>
      obtain ⟨k2, hmem, _⟩ := MapIndex_some_mem m2 k v2 hmi
      simp only [Option.map_some']
      rw [ih (k, v) (List.mem_cons_self _ _) (k2, v2) hmem]

/-- Two values whose storage lies in different regions share no storage: their
comparison is that of their contents. -/
theorem deepValueEqual_atRegion (r r2 : Nat) (hne : r ≠ r2) (x : GoValue) :
    ∀ y, inRegion r x = true → inRegion r2 y = true →
      deepValueEqual x y = deepValueEqual (atRegion r x) (atRegion r2 y) := by
  induction x using GoValue.childInduction with
  | step x ih =>
    intro y hx hy
    rcases x with _ | _ | _ | _ | _ | _ | _ | _ | _ | ⟨t, _ | ⟨p, xs⟩⟩ | ⟨k, w, _ | ⟨p, m⟩⟩ | ⟨n, fs⟩
    case slice.some.mk =>
      rcases y with _ | _ | _ | _ | _ | _ | _ | _ | _ | ⟨t2, _ | ⟨q, ys⟩⟩ |
        ⟨k2, w2, _ | ⟨q, m2⟩⟩ | ⟨n2, gs⟩
      case slice.some.mk =>
        simp only [inRegion, Bool.and_eq_true, beq_iff_eq, inRegionList_iff] at hx hy
        have hpq : (p == q) = false := by
          rw [beq_eq_false_iff_ne]
          intro h
          rw [h] at hx
          exact hne (hx.1.symm.trans hy.1)
        have hpq2 : ((⟨r, 0⟩ : Addr) == ⟨r2, 0⟩) = false := by
          rw [beq_eq_false_iff_ne]
          intro h
          exact hne (congrArg Addr.region h)
        simp only [atRegion, deepValueEqual, hpq, hpq2, Bool.false_or, atRegionList_length]
        rw [deepEqualList_atRegion r r2 xs ys
          (fun a ha b hb => ih a (mem_children_slice _ p xs a ha) b (hx.2 a ha) (hy.2 b hb))]
      all_goals simp [atRegion, deepValueEqual]
    case map.some.mk =>
      rcases y with _ | _ | _ | _ | _ | _ | _ | _ | _ | ⟨t2, _ | ⟨q, ys⟩⟩ |
        ⟨k2, w2, _ | ⟨q, m2⟩⟩ | ⟨n2, gs⟩
      case map.some.mk =>
        simp only [inRegion, Bool.and_eq_true, beq_iff_eq, inRegionEntries_iff] at hx hy
        have hpq : (p == q) = false := by
          rw [beq_eq_false_iff_ne]
          intro h
          rw [h] at hx
          exact hne (hx.1.symm.trans hy.1)
        have hpq2 : ((⟨r, 0⟩ : Addr) == ⟨r2, 0⟩) = false := by
          rw [beq_eq_false_iff_ne]
          intro h
          exact hne (congrArg Addr.region h)
        simp only [atRegion, deepValueEqual, hpq, hpq2, Bool.false_or, atRegionEntries_length]
        rw [deepEqualEntries_atRegion r r2 m m2
          (fun a ha b hb => ih a.2 (mem_children_map _ _ p m a ha) b.2 (hx.2 a ha).2
            (hy.2 b hb).2)]
      all_goals simp [atRegion, deepValueEqual]
    case struct =>
      rcases y with _ | _ | _ | _ | _ | _ | _ | _ | _ | ⟨t2, _ | ⟨q, ys⟩⟩ |
        ⟨k2, w2, _ | ⟨q, m2⟩⟩ | ⟨n2, gs⟩
      case struct =>
        simp only [inRegion, inRegionList_iff] at hx hy
        simp only [atRegion, deepValueEqual, atRegionList_length]
        rw [deepEqualList_atRegion r r2 fs gs
          (fun a ha b hb => ih a ha b (hx a ha) (hy b hb))]
      all_goals simp [atRegion, deepValueEqual]
    all_goals
      rcases y with _ | _ | _ | _ | _ | _ | _ | _ | _ | ⟨t2, _ | ⟨q, ys⟩⟩ |
        ⟨k2, w2, _ | ⟨q, m2⟩⟩ | ⟨n2, gs⟩ <;> simp [atRegion, deepValueEqual]

/-! ### Induction over written values -/

namespace json

theorem Doc.sizeOf_lt_of_mem_parts (d c : Doc) (h : c ∈ d.children) :
    sizeOf c < sizeOf d := by
  cases d with
  | array inner elems =>
    simp only [Doc.children, List.mem_map] at h
    obtain ⟨e, he, rfl⟩ := h
    have h1 := List.sizeOf_lt_of_mem he
    obtain ⟨w1, d, w2⟩ := e
    simp only [Doc.array.sizeOf_spec, Prod.mk.sizeOf_spec] at h1 ⊢
    omega
  | object inner members =>
    simp only [Doc.children, List.mem_map] at h
    obtain ⟨m, hm, rfl⟩ := h
    have h1 := List.sizeOf_lt_of_mem hm
    obtain ⟨w1, raw, w2, w3, d, w4⟩ := m
    simp only [Doc.object.sizeOf_spec, Prod.mk.sizeOf_spec] at h1 ⊢
    omega
  | _ => simp [Doc.children] at h

/-- Induction on written values: a property that holds of a written value once it holds
of the values it directly holds, holds of every written value. -/
theorem Doc.partInduction {P : Doc → Prop}
    (step : ∀ d : Doc, (∀ c ∈ d.children, P c) → P d) (d : Doc) : P d := by
  have key : ∀ n : Nat, ∀ d : Doc, sizeOf d < n → P d := by
    intro n
    induction n with
    | zero => intro d h; omega
    | succ n ih =>
      intro d hd
      apply step
      intro c hc
      apply ih
      have := Doc.sizeOf_lt_of_mem_parts d c hc
      omega
  exact key (sizeOf d + 1) d (Nat.lt_succ_self _)

theorem mem_children_array (inner : GoString) (elems : List (GoString × Doc × GoString))
    (e : GoString × Doc × GoString) (h : e ∈ elems) :
    e.2.1 ∈ (Doc.array inner elems).children :=
  List.mem_map.2 ⟨e, h, rfl⟩

theorem mem_children_object (inner : GoString)
    (members : List (GoString × GoString × GoString × GoString × Doc × GoString))
    (m : GoString × GoString × GoString × GoString × Doc × GoString) (h : m ∈ members) :
    m.2.2.2.2.1 ∈ (Doc.object inner members).children :=
  List.mem_map.2 ⟨m, h, rfl⟩

/-! ### The content of the decoded tree -/

theorem atRegion_string (r : Nat) (k : GoValue) (s : GoString) :
    atRegion r k = .string s ↔ k = .string s := by
  rcases k with _ | _ | _ | _ | _ | _ | _ | _ | _ | ⟨t, _ | ⟨p, xs⟩⟩ | ⟨k, w, _ | ⟨p, m⟩⟩ | _ <;>
    simp [atRegion]

theorem atRegionEntries_mapAssign (r : Nat) (acc : List (GoValue × GoValue)) (s : GoString)
    (v : GoValue) :
    atRegionEntries r (mapAssign acc (.string s) v) =
      mapAssign (atRegionEntries r acc) (.string s) (atRegion r v) := by
  induction acc with
  | nil => rfl
  | cons e acc ih =>
    obtain ⟨k, w⟩ := e
    have hk : goEq (atRegion r k) (.string s) = goEq k (.string s) :=
      goEq_atRegion r r k (.string s)
    simp only [mapAssign, atRegionEntries, hk]
    cases goEq k (.string s) with
    | true => rfl
    | false =>
      simp only [Bool.false_eq_true, ↓reduceIte, atRegionEntries, ih]

theorem atRegion_decodedElems (S : Scalars) (r : Nat) (elems : List (GoString × Doc × GoString))
    (ih : ∀ e ∈ elems, ∀ next, atRegion r (e.2.1.decoded S r next).1 = e.2.1.tree S r)
    (next : Nat) :
    atRegionList r (decodedElems S r next elems).1 = treeElems S r elems := by
  induction elems generalizing next with
  | nil => rfl
  | cons e elems ihl =>
    obtain ⟨w1, d, w2⟩ := e
    simp only [decodedElems, atRegionList, treeElems]
    rw [ih (w1, d, w2) (List.mem_cons_self _ _) next,
      ihl (fun e he => ih e (List.mem_cons_of_mem _ he))]

theorem atRegion_decodedMembers (S : Scalars) (r : Nat)
    (members : List (GoString × GoString × GoString × GoString × Doc × GoString))
    (ih : ∀ m ∈ members, ∀ next,
      atRegion r (m.2.2.2.2.1.decoded S r next).1 = m.2.2.2.2.1.tree S r)
    (next : Nat) (acc : List (GoValue × GoValue)) :
    atRegionEntries r (decodedMembers S r next acc members).1 =
      treeMembers S r (atRegionEntries r acc) members := by
  induction members generalizing next acc with
  | nil => rfl
  | cons m members ihl =>
    obtain ⟨w1, raw, w2, w3, d, w4⟩ := m
    simp only [decodedMembers, treeMembers]
    rw [ihl (fun m hm => ih m (List.mem_cons_of_mem _ hm)), atRegionEntries_mapAssign,
      ih (w1, raw, w2, w3, d, w4) (List.mem_cons_self _ _) next]

/-- The decoded tree, its storage moved to the offset 0, is the tree of the written
value. -/
theorem atRegion_decoded (S : Scalars) (r : Nat) (d : Doc) :
    ∀ next, atRegion r (d.decoded S r next).1 = d.tree S r := by
  induction d using Doc.partInduction with
  | step d ih =>
    intro next
    cases d with
    | array inner elems =>
      simp only [Doc.decoded, Doc.tree, atRegion]
      rw [atRegion_decodedElems S r elems
        (fun e he => ih e.2.1 (mem_children_array inner elems e he))]
    | object inner members =>
      simp only [Doc.decoded, Doc.tree, atRegion]
      rw [atRegion_decodedMembers S r members
        (fun m hm => ih m.2.2.2.2.1 (mem_children_object inner members m hm))]
      rfl
    | _ => rfl

theorem inRegionEntries_mapAssign (r : Nat) (acc : List (GoValue × GoValue)) (s : GoString)
    (v : GoValue) (hacc : inRegionEntries r acc = true) (hv : inRegion r v = true) :
    inRegionEntries r (mapAssign acc (.string s) v) = true := by
  induction acc with
  | nil => simp [mapAssign, inRegionEntries, inRegion, hv]
  | cons e acc ih =>
    obtain ⟨k, w⟩ := e
    simp only [inRegionEntries, Bool.and_eq_true] at hacc
    simp only [mapAssign]
    split
    · simp [inRegionEntries, hacc.1.1, hacc.2, hv]
    · simp [inRegionEntries, hacc.1.1, hacc.1.2, ih hacc.2]

theorem inRegion_decodedElems (S : Scalars) (r : Nat) (elems : List (GoString × Doc × GoString))
    (ih : ∀ e ∈ elems, ∀ next, inRegion r (e.2.1.decoded S r next).1 = true) (next : Nat) :
    inRegionList r (decodedElems S r next elems).1 = true := by
  induction elems generalizing next with
  | nil => rfl
  | cons e elems ihl =>
    obtain ⟨w1, d, w2⟩ := e
    simp only [decodedElems, inRegionList, Bool.and_eq_true]
    exact ⟨ih (w1, d, w2) (List.mem_cons_self _ _) next,
      ihl (fun e he => ih e (List.mem_cons_of_mem _ he)) _⟩

theorem inRegion_decodedMembers (S : Scalars) (r : Nat)
    (members : List (GoString × GoString × GoString × GoString × Doc × GoString))
    (ih : ∀ m ∈ members, ∀ next, inRegion r (m.2.2.2.2.1.decoded S r next).1 = true)
    (next : Nat) (acc : List (GoValue × GoValue)) (hacc : inRegionEntries r acc = true) :
    inRegionEntries r (decodedMembers S r next acc members).1 = true := by
  induction members generalizing next acc with
  | nil => exact hacc
  | cons m members ihl =>
    obtain ⟨w1, raw, w2, w3, d, w4⟩ := m
    simp only [decodedMembers]
    exact ihl (fun m hm => ih m (List.mem_cons_of_mem _ hm)) _ _
      (inRegionEntries_mapAssign r acc _ _ hacc
        (ih (w1, raw, w2, w3, d, w4) (List.mem_cons_self _ _) next))

/-- The storage of the decoded tree lies in the region of the call. -/
theorem inRegion_decoded (S : Scalars) (r : Nat) (d : Doc) :
    ∀ next, inRegion r (d.decoded S r next).1 = true := by
  induction d using Doc.partInduction with
  | step d ih =>
    intro next
    cases d with
    | array inner elems =>
      simp only [Doc.decoded, inRegion, beq_self_eq_true, Bool.true_and]
      exact inRegion_decodedElems S r elems
        (fun e he => ih e.2.1 (mem_children_array inner elems e he)) _
    | object inner members =>
      simp only [Doc.decoded, inRegion, beq_self_eq_true, Bool.true_and]
      exact inRegion_decodedMembers S r members
        (fun m hm => ih m.2.2.2.2.1 (mem_children_object inner members m hm)) _ [] rfl
    | _ => rfl

/-! ### Space between the tokens -/

theorem treeElems_strip (S : Scalars) (r : Nat) (elems : List (GoString × Doc × GoString))
    (ih : ∀ e ∈ elems, e.2.1.strip.tree S r = e.2.1.tree S r) :
    treeElems S r (stripElems elems) = treeElems S r elems := by
  induction elems with
  | nil => rfl
  | cons e elems ihl =>
    obtain ⟨w1, d, w2⟩ := e
    simp only [stripElems, treeElems]
    rw [ih (w1, d, w2) (List.mem_cons_self _ _),
      ihl (fun e he => ih e (List.mem_cons_of_mem _ he))]

theorem treeMembers_strip (S : Scalars) (r : Nat)
    (members : List (GoString × GoString × GoString × GoString × Doc × GoString))
    (ih : ∀ m ∈ members, m.2.2.2.2.1.strip.tree S r = m.2.2.2.2.1.tree S r)
    (acc : List (GoValue × GoValue)) :
    treeMembers S r acc (stripMembers members) = treeMembers S r acc members := by
  induction members generalizing acc with
  | nil => rfl
  | cons m members ihl =>
    obtain ⟨w1, raw, w2, w3, d, w4⟩ := m
    simp only [stripMembers, treeMembers]
    rw [ih (w1, raw, w2, w3, d, w4) (List.mem_cons_self _ _),
      ihl (fun m hm => ih m (List.mem_cons_of_mem _ hm))]

/-- The tree of a written value does not depend on the space between its tokens. -/
theorem tree_strip (S : Scalars) (r : Nat) (d : Doc) : d.strip.tree S r = d.tree S r := by
  induction d using Doc.partInduction with
  | step d ih =>
    cases d with
    | array inner elems =>
      simp only [Doc.strip, Doc.tree]
      rw [treeElems_strip S r elems (fun e he => ih e.2.1 (mem_children_array inner elems e he))]
    | object inner members =>
      simp only [Doc.strip, Doc.tree]
      rw [treeMembers_strip S r members
        (fun m hm => ih m.2.2.2.2.1 (mem_children_object inner members m hm))]
    | _ => rfl

end json

/-! ### Reordering the entries of maps -/

theorem KeyReorderList_length (xs ys : List GoValue) (hk : KeyReorderList xs ys) :
    xs.length = ys.length := by
  induction xs generalizing ys with
  | nil =>
    simp only [KeyReorderList] at hk
    subst hk
    rfl
  | cons x xs ih =>
    simp only [KeyReorderList] at hk
    obtain ⟨y, ys2, _, hrest, rfl⟩ := hk
    simp [ih ys2 hrest]

theorem KeyReorderEntries_spec (m m2 : List (GoValue × GoValue)) (hk : KeyReorderEntries m m2) :
    m.length = m2.length ∧
    (∀ e ∈ m, ∃ v2, (e.1, v2) ∈ m2 ∧ KeyReorder e.2 v2) ∧
    (∀ e2 ∈ m2, ∃ v, (e2.1, v) ∈ m ∧ KeyReorder v e2.2) := by
  induction m generalizing m2 with
  | nil =>
    simp only [KeyReorderEntries] at hk
    subst hk
    exact ⟨rfl, by simp, by simp⟩
  | cons e m ihm =>
    obtain ⟨k, v⟩ := e
    simp only [KeyReorderEntries] at hk
    obtain ⟨v2, rest2, hv, hrest, rfl⟩ := hk
    have h := ihm rest2 hrest
    refine ⟨by simp [h.1], ?_, ?_⟩
    · intro e he
      rcases List.mem_cons.1 he with rfl | he
      · exact ⟨v2, List.mem_cons_self _ _, hv⟩
      · obtain ⟨w, hw, hkw⟩ := h.2.1 e he
        exact ⟨w, List.mem_cons_of_mem _ hw, hkw⟩
    · intro e2 he2
      rcases List.mem_cons.1 he2 with rfl | he2
      · exact ⟨v, List.mem_cons_self _ _, hv⟩
      · obtain ⟨w, hw, hkw⟩ := h.2.2 e2 he2
        exact ⟨w, List.mem_cons_of_mem _ hw, hkw⟩

theorem deepEqualList_reorder_left (xs xs2 : List GoValue) (hk : KeyReorderList xs xs2)
    (ih : ∀ x ∈ xs, ∀ x2 y, KeyReorder x x2 → deepValueEqual x y = deepValueEqual x2 y)
    (ys : List GoValue) : deepEqualList xs ys = deepEqualList xs2 ys := by
  induction xs generalizing xs2 ys with
  | nil =>
    simp only [KeyReorderList] at hk
    subst hk
    rfl
  | cons x xs ihx =>
    simp only [KeyReorderList] at hk
    obtain ⟨x2, rest2, hx, hrest, rfl⟩ := hk
    cases ys with
    | nil => simp [deepEqualList]
    | cons y ys =>
      simp only [deepEqualList]
      rw [ih x (List.mem_cons_self _ _) x2 y hx,
        ihx rest2 hrest (fun a ha => ih a (List.mem_cons_of_mem _ ha)) ys]

/-- The comparison does not depend on the order of the entries of the maps of its first
operand. -/
theorem deepValueEqual_reorder_left (x : GoValue) :
    ∀ x2 y, KeyReorder x x2 → deepValueEqual x y = deepValueEqual x2 y := by
  induction x using GoValue.childInduction with
  | step x ih =>
    intro x2 y hk
    rcases x with _ | _ | _ | _ | _ | _ | _ | _ | _ | ⟨t, _ | ⟨p, xs⟩⟩ | ⟨k, w, _ | ⟨p, m⟩⟩ | ⟨n, fs⟩
    case slice.some.mk =>
      simp only [KeyReorder] at hk
      obtain ⟨xs2, hl, rfl⟩ := hk
      rcases y with _ | _ | _ | _ | _ | _ | _ | _ | _ | ⟨t2, _ | ⟨q, ys⟩⟩ |
        ⟨k2, w2, _ | ⟨q, m2⟩⟩ | ⟨n2, gs⟩
      case slice.some.mk =>
        simp only [deepValueEqual]
        rw [deepEqualList_reorder_left xs xs2 hl
          (fun a ha => ih a (mem_children_slice _ p xs a ha)) ys,
          KeyReorderList_length xs xs2 hl]
      all_goals simp [deepValueEqual]
    case map.some.mk =>
      simp only [KeyReorder] at hk
      obtain ⟨m2, m3, hl, hperm, rfl⟩ := hk
      obtain ⟨hlen, h12, h21⟩ := KeyReorderEntries_spec m m2 hl
      rcases y with _ | _ | _ | _ | _ | _ | _ | _ | _ | ⟨t2, _ | ⟨q, ys⟩⟩ |
        ⟨k2, w2, _ | ⟨q, ym⟩⟩ | ⟨n2, gs⟩
      case map.some.mk =>
        simp only [deepValueEqual]
        have hent : deepEqualEntries m ym = deepEqualEntries m3 ym := by
          rw [Bool.eq_iff_iff, deepEqualEntries_iff, deepEqualEntries_iff]
          constructor
          · intro h e3 he3
            obtain ⟨v, hv, hkr⟩ := h21 e3 (hperm.mem_iff.2 he3)
            obtain ⟨v2, hmi, hd⟩ := h (e3.1, v) hv
            refine ⟨v2, hmi, ?_⟩
            rw [← ih v (mem_children_map _ _ p m _ hv) e3.2 v2 hkr]
            exact hd
          · intro h e he
            obtain ⟨v2, hv2, hkr⟩ := h12 e he
            obtain ⟨v3, hmi, hd⟩ := h (e.1, v2) (hperm.mem_iff.1 hv2)
            refine ⟨v3, hmi, ?_⟩
            rw [ih e.2 (mem_children_map _ _ p m e he) v2 v3 hkr]
            exact hd
        rw [hent, hlen, hperm.length_eq]
      all_goals simp [deepValueEqual]
    all_goals
      simp only [KeyReorder] at hk
      subst hk
      rfl

theorem deepEqualList_reorder_right (xs ys ys2 : List GoValue) (hk : KeyReorderList ys ys2)
    (hw : ∀ y ∈ ys, wellFormed y = true) (hw2 : ∀ y ∈ ys2, wellFormed y = true)
    (ih : ∀ x ∈ xs, ∀ y y2, KeyReorder y y2 → wellFormed y = true → wellFormed y2 = true →
      deepValueEqual x y = deepValueEqual x y2) :
    deepEqualList xs ys = deepEqualList xs ys2 := by
  induction xs generalizing ys ys2 with
  | nil => simp [deepEqualList]
  | cons x xs ihx =>
    cases ys with
    | nil =>
      simp only [KeyReorderList] at hk
      subst hk
      rfl
    | cons y ys =>
      simp only [KeyReorderList] at hk
      obtain ⟨y2, rest2, hy, hrest, rfl⟩ := hk
      simp only [deepEqualList]
      rw [ih x (List.mem_cons_self _ _) y y2 hy (hw y (List.mem_cons_self _ _))
          (hw2 y2 (List.mem_cons_self _ _)),
        ihx ys rest2 hrest (fun a ha => hw a (List.mem_cons_of_mem _ ha))
          (fun a ha => hw2 a (List.mem_cons_of_mem _ ha))
          (fun a ha => ih a (List.mem_cons_of_mem _ ha))]

/-- The comparison does not depend on the order of the entries of the maps of its
second operand, when no map holds two equal keys. -/
theorem deepValueEqual_reorder_right (x : GoValue) :
    ∀ y y2, KeyReorder y y2 → wellFormed y = true → wellFormed y2 = true →
      deepValueEqual x y = deepValueEqual x y2 := by
  induction x using GoValue.childInduction with
  | step x ih =>
    intro y y2 hk hw hw2
    rcases y with _ | _ | _ | _ | _ | _ | _ | _ | _ | ⟨t2, _ | ⟨q, ys⟩⟩ |
      ⟨k2, w2, _ | ⟨q, ym⟩⟩ | ⟨n2, gs⟩
    case slice.some.mk =>
      simp only [KeyReorder] at hk
      obtain ⟨ys2, hl, rfl⟩ := hk
      simp only [wellFormed, wellFormedList_iff] at hw hw2
      rcases x with _ | _ | _ | _ | _ | _ | _ | _ | _ | ⟨t, _ | ⟨p, xs⟩⟩ |
        ⟨k, w, _ | ⟨p, m⟩⟩ | ⟨n, fs⟩
      case slice.some.mk =>
        simp only [deepValueEqual]
        rw [deepEqualList_reorder_right xs ys ys2 hl hw hw2
          (fun a ha => ih a (mem_children_slice _ p xs a ha)),
          KeyReorderList_length ys ys2 hl]
      all_goals simp [deepValueEqual]
    case map.some.mk =>
      simp only [KeyReorder] at hk
      obtain ⟨m2, m3, hl, hperm, rfl⟩ := hk
      obtain ⟨hlen, h12, h21⟩ := KeyReorderEntries_spec ym m2 hl
      simp only [wellFormed, Bool.and_eq_true, wellFormedEntries_iff] at hw hw2
      rcases x with _ | _ | _ | _ | _ | _ | _ | _ | _ | ⟨t, _ | ⟨p, xs⟩⟩ |
        ⟨k, w, _ | ⟨p, m⟩⟩ | ⟨n, fs⟩
      case map.some.mk =>
        simp only [deepValueEqual]
        have hent : deepEqualEntries m ym = deepEqualEntries m m3 := by
          rw [Bool.eq_iff_iff, deepEqualEntries_iff, deepEqualEntries_iff]
          constructor
          · intro h e he
            obtain ⟨v2, hmi, hd⟩ := h e he
            obtain ⟨kk, hmem, hkk⟩ := MapIndex_some_mem ym e.1 v2 hmi
            obtain ⟨v3, hv3, hkr⟩ := h12 (kk, v2) hmem
            have hmem3 : (kk, v3) ∈ m3 := hperm.mem_iff.1 hv3
            refine ⟨v3, MapIndex_of_goEq m3 hw2.1 (kk, v3) e.1 hmem3 hkk, ?_⟩
            rw [← ih e.2 (mem_children_map _ _ p m e he) v2 v3 hkr (hw.2 _ hmem).2.2
              (hw2.2 _ hmem3).2.2]
            exact hd
          · intro h e he
            obtain ⟨v3, hmi, hd⟩ := h e he
            obtain ⟨kk, hmem3, hkk⟩ := MapIndex_some_mem m3 e.1 v3 hmi
            obtain ⟨v2, hv2, hkr⟩ := h21 (kk, v3) (hperm.mem_iff.2 hmem3)
            refine ⟨v2, MapIndex_of_goEq ym hw.1 (kk, v2) e.1 hv2 hkk, ?_⟩
            rw [ih e.2 (mem_children_map _ _ p m e he) v2 v3 hkr (hw.2 _ hv2).2.2
              (hw2.2 _ hmem3).2.2]
            exact hd
        rw [hent, hlen, hperm.length_eq]
      all_goals simp [deepValueEqual]
    all_goals
      simp only [KeyReorder] at hk
      subst hk
      rfl

/-! ### Reordering the members of objects -/

namespace json

theorem KeyReorderEntries_mapAssign (acc acc2 : List (GoValue × GoValue)) (k v v2 : GoValue)
    (hacc : KeyReorderEntries acc acc2) (hv : KeyReorder v v2) :
    KeyReorderEntries (mapAssign acc k v) (mapAssign acc2 k v2) := by
  induction acc generalizing acc2 with
  | nil =>
    simp only [KeyReorderEntries] at hacc
    subst hacc
    simp only [mapAssign, KeyReorderEntries]
    exact ⟨v2, [], hv, rfl, rfl⟩
  | cons e acc ih =>
    obtain ⟨k0, v0⟩ := e
    simp only [KeyReorderEntries] at hacc
    obtain ⟨w, rest2, hw, hrest, rfl⟩ := hacc
    simp only [mapAssign]
    split
    · simp only [KeyReorderEntries]
      exact ⟨v2, rest2, hv, hrest, rfl⟩
    · simp only [KeyReorderEntries]
      exact ⟨w, mapAssign rest2 k v2, hw, ih rest2 hrest, rfl⟩

theorem KeyReorderList_treeElems (S : Scalars) (r : Nat)
    (elems elems2 : List (GoString × Doc × GoString)) (hk : ReorderedElems S elems elems2)
    (ih : ∀ e ∈ elems, ∀ d2, e.2.1.Reordered S d2 →
      KeyReorder (e.2.1.tree S r) (d2.tree S r)) :
    KeyReorderList (treeElems S r elems) (treeElems S r elems2) := by
  induction elems generalizing elems2 with
  | nil =>
    simp only [ReorderedElems] at hk
    subst hk
    simp [treeElems, KeyReorderList]
  | cons e elems ihl =>
    obtain ⟨w1, d, w2⟩ := e
    simp only [ReorderedElems] at hk
    obtain ⟨d2, rest2, hd, hrest, rfl⟩ := hk
    simp only [treeElems, KeyReorderList]
    exact ⟨_, _, ih (w1, d, w2) (List.mem_cons_self _ _) d2 hd,
      ihl rest2 hrest (fun e he => ih e (List.mem_cons_of_mem _ he)), rfl⟩

theorem KeyReorderEntries_treeMembers (S : Scalars) (r : Nat)
    (members members2 : List (GoString × GoString × GoString × GoString × Doc × GoString))
    (hk : ReorderedMembers S members members2)
    (ih : ∀ m ∈ members, ∀ d2, m.2.2.2.2.1.Reordered S d2 →
      KeyReorder (m.2.2.2.2.1.tree S r) (d2.tree S r))
    (acc acc2 : List (GoValue × GoValue)) (hacc : KeyReorderEntries acc acc2) :
    KeyReorderEntries (treeMembers S r acc members) (treeMembers S r acc2 members2) := by
  induction members generalizing members2 acc acc2 with
  | nil =>
    simp only [ReorderedMembers] at hk
    subst hk
    exact hacc
  | cons m members ihl =>
    obtain ⟨w1, raw, w2, w3, d, w4⟩ := m
    simp only [ReorderedMembers] at hk
    obtain ⟨d2, rest2, hd, hrest, rfl⟩ := hk
    simp only [treeMembers]
    exact ihl rest2 hrest (fun m hm => ih m (List.mem_cons_of_mem _ hm)) _ _
      (KeyReorderEntries_mapAssign acc acc2 _ _ _ hacc
        (ih (w1, raw, w2, w3, d, w4) (List.mem_cons_self _ _) d2 hd))

theorem mapAssign_of_fresh (acc : List (GoValue × GoValue)) (s : GoString) (v : GoValue)
    (h : ∀ e ∈ acc, e.1 ≠ .string s) :
    mapAssign acc (.string s) v = acc ++ [(.string s, v)] := by
  induction acc with
  | nil => rfl
  | cons e acc ih =>
    obtain ⟨k, w⟩ := e
    have hk : goEq k (.string s) = false := by
      cases hg : goEq k (.string s) with
      | false => rfl
      | true => exact absurd ((goEq_string_right k s).1 hg) (h (k, w) (List.mem_cons_self _ _))
    simp only [mapAssign, hk, Bool.false_eq_true, ↓reduceIte, List.cons_append]
    rw [ih (fun e he => h e (List.mem_cons_of_mem _ he))]

theorem treeMembers_of_nodup (S : Scalars) (r : Nat)
    (members : List (GoString × GoString × GoString × GoString × Doc × GoString))
    (acc : List (GoValue × GoValue))
    (hacc : ∀ e ∈ acc, ∀ m ∈ members, e.1 ≠ .string (memberKey S m))
    (hnd : (members.map (memberKey S)).Nodup) :
    treeMembers S r acc members = acc ++ members.map (memberEntry S r) := by
  induction members generalizing acc with
  | nil => simp [treeMembers]
  | cons m members ih =>
    obtain ⟨w1, raw, w2, w3, d, w4⟩ := m
    simp only [List.map_cons, List.nodup_cons] at hnd
    simp only [treeMembers]
    rw [mapAssign_of_fresh acc (S.unquote raw) _
      (fun e he => hacc e he (w1, raw, w2, w3, d, w4) (List.mem_cons_self _ _)),
      ih _ ?_ hnd.2]
    · simp [memberEntry, memberKey]
    · intro e he m hm
      rcases List.mem_append.1 he with he | he
      · exact hacc e he m (List.mem_cons_of_mem _ hm)
      · simp only [List.mem_singleton] at he
        subst he
        intro heq
        simp only [GoValue.string.injEq] at heq
        apply hnd.1
        simp only [memberKey] at heq ⊢
        rw [heq]
        exact List.mem_map.2 ⟨m, hm, rfl⟩

/-- The tree of a written value whose objects are written in another order is the tree
with the entries of its maps in another order. -/
theorem KeyReorder_tree (S : Scalars) (r : Nat) (d : Doc) :
    ∀ d2, d.Reordered S d2 → KeyReorder (d.tree S r) (d2.tree S r) := by
  induction d using Doc.partInduction with
  | step d ih =>
    intro d2 hk
    cases d with
    | array inner elems =>
      simp only [Doc.Reordered] at hk
      obtain ⟨elems2, hl, rfl⟩ := hk
      simp only [Doc.tree, KeyReorder]
      exact ⟨_, KeyReorderList_treeElems S r elems elems2 hl
        (fun e he => ih e.2.1 (mem_children_array inner elems e he)), rfl⟩
    | object inner members =>
      simp only [Doc.Reordered] at hk
      obtain ⟨members2, members3, hl, hperm, hnd, rfl⟩ := hk
      simp only [Doc.tree, KeyReorder]
      refine ⟨treeMembers S r [] members2, treeMembers S r [] members3,
        KeyReorderEntries_treeMembers S r members members2 hl
          (fun m hm => ih m.2.2.2.2.1 (mem_children_object inner members m hm)) [] [] ?_,
        ?_, rfl⟩
      · simp [KeyReorderEntries]
      · rcases hnd with rfl | hnd
        · exact List.Perm.refl _
        · have hnd3 : (members3.map (memberKey S)).Nodup :=
            ((hperm.map (memberKey S)).nodup_iff).1 hnd
          rw [treeMembers_of_nodup S r members2 []
              (fun e he => absurd he (List.not_mem_nil e)) hnd,
            treeMembers_of_nodup S r members3 []
              (fun e he => absurd he (List.not_mem_nil e)) hnd3]
          simp only [List.nil_append]
          exact hperm.map (memberEntry S r)
    | null => simp only [Doc.Reordered] at hk; subst hk; simp [Doc.tree, KeyReorder]
    | bool b => simp only [Doc.Reordered] at hk; subst hk; simp [Doc.tree, KeyReorder]
    | number lit => simp only [Doc.Reordered] at hk; subst hk; simp [Doc.tree, KeyReorder]
    | string raw => simp only [Doc.Reordered] at hk; subst hk; simp [Doc.tree, KeyReorder]

/-! ### The trees are well formed -/

theorem mapAssign_keys (acc : List (GoValue × GoValue)) (k v : GoValue) :
    ∀ e ∈ mapAssign acc k v, e.1 = k ∨ ∃ e2 ∈ acc, e2.1 = e.1 := by
  induction acc with
  | nil =>
    intro e he
    simp only [mapAssign, List.mem_singleton] at he
    subst he
    exact Or.inl rfl
  | cons e0 acc ih =>
    obtain ⟨k0, v0⟩ := e0
    intro e he
    simp only [mapAssign] at he
    split at he
    · rcases List.mem_cons.1 he with rfl | he
      · exact Or.inr ⟨(k0, v0), List.mem_cons_self _ _, rfl⟩
      · exact Or.inr ⟨e, List.mem_cons_of_mem _ he, rfl⟩
    · rcases List.mem_cons.1 he with rfl | he
      · exact Or.inr ⟨(k0, v0), List.mem_cons_self _ _, rfl⟩
      · rcases ih e he with h | ⟨e2, he2, h⟩
        · exact Or.inl h
        · exact Or.inr ⟨e2, List.mem_cons_of_mem _ he2, h⟩

theorem distinctKeys_mapAssign (acc : List (GoValue × GoValue)) (k v : GoValue)
    (h : distinctKeys acc = true) : distinctKeys (mapAssign acc k v) = true := by
  induction acc with
  | nil => rfl
  | cons e0 acc ih =>
    obtain ⟨k0, v0⟩ := e0
    simp only [distinctKeys, Bool.and_eq_true, List.all_eq_true, Bool.not_eq_true'] at h
    simp only [mapAssign]
    split
    · simp only [distinctKeys, Bool.and_eq_true, List.all_eq_true, Bool.not_eq_true']
      exact h
    · rename_i hk
      simp only [distinctKeys, Bool.and_eq_true, List.all_eq_true, Bool.not_eq_true']
      refine ⟨?_, ih h.2⟩
      intro e he
      rcases mapAssign_keys acc k v e he with h1 | ⟨e2, he2, h1⟩
      · rw [h1]
        simpa using hk
      · rw [← h1]
        exact h.1 e2 he2

theorem wellFormedEntries_mapAssign (acc : List (GoValue × GoValue)) (s : GoString)
    (v : GoValue) (h : wellFormedEntries acc = true) (hv : wellFormed v = true) :
    wellFormedEntries (mapAssign acc (.string s) v) = true := by
  induction acc with
  | nil => simp [mapAssign, wellFormedEntries, hashable, wellFormed, hv]
  | cons e0 acc ih =>
    obtain ⟨k0, v0⟩ := e0
    simp only [wellFormedEntries, Bool.and_eq_true] at h
    simp only [mapAssign]
    split
    · simp [wellFormedEntries, h.1.1.1, h.1.1.2, hv, h.2]
    · simp [wellFormedEntries, h.1.1.1, h.1.1.2, h.1.2, ih h.2]

theorem wellFormed_treeMembers (S : Scalars) (r : Nat)
    (members : List (GoString × GoString × GoString × GoString × Doc × GoString))
    (ih : ∀ m ∈ members, wellFormed (m.2.2.2.2.1.tree S r) = true)
    (acc : List (GoValue × GoValue)) (hd : distinctKeys acc = true)
    (hw : wellFormedEntries acc = true) :
    distinctKeys (treeMembers S r acc members) = true ∧
      wellFormedEntries (treeMembers S r acc members) = true := by
  induction members generalizing acc with
  | nil => exact ⟨hd, hw⟩
  | cons m members ihl =>
    obtain ⟨w1, raw, w2, w3, d, w4⟩ := m
    simp only [treeMembers]
    exact ihl (fun m hm => ih m (List.mem_cons_of_mem _ hm)) _
      (distinctKeys_mapAssign acc _ _ hd)
      (wellFormedEntries_mapAssign acc _ _ hw
        (ih (w1, raw, w2, w3, d, w4) (List.mem_cons_self _ _)))

/-- No map of the tree of a written value holds two equal keys, also when an object of
the text repeats a key. -/
theorem wellFormed_tree (S : Scalars) (r : Nat) (d : Doc) : wellFormed (d.tree S r) = true := by
  induction d using Doc.partInduction with
  | step d ih =>
    cases d with
    | array inner elems =>
      simp only [Doc.tree, wellFormed, wellFormedList_iff]
      intro x hx
      have : ∀ l : List (GoString × Doc × GoString),
          (∀ e ∈ l, wellFormed (e.2.1.tree S r) = true) →
          ∀ x ∈ treeElems S r l, wellFormed x = true := by
        intro l
        induction l with
        | nil => intro _ x hx; simp [treeElems] at hx
        | cons e l ihl =>
          obtain ⟨w1, d, w2⟩ := e
          intro h x hx
          simp only [treeElems, List.mem_cons] at hx
          rcases hx with rfl | hx
          · exact h (w1, d, w2) (List.mem_cons_self _ _)
          · exact ihl (fun e he => h e (List.mem_cons_of_mem _ he)) x hx
      exact this elems (fun e he => ih e.2.1 (mem_children_array inner elems e he)) x hx
    | object inner members =>
      simp only [Doc.tree, wellFormed, Bool.and_eq_true]
      exact wellFormed_treeMembers S r members
        (fun m hm => ih m.2.2.2.2.1 (mem_children_object inner members m hm)) [] rfl rfl
    | _ => rfl

end json

/-! ### `JSONEq` on texts that parse -/

theorem JSONEq_of_parsed (R : Runtime) (t : TestingT) (expected actual : GoString)
    (args : List GoValue) (pe pa : GoValue) (he : R.unmarshal 0 expected = .ok pe)
    (ha : R.unmarshal 1 actual = .ok pa) :
    DefaultVerifier.JSONEq R t expected actual args = DefaultVerifier.Equal R t pe pa args := by
  unfold DefaultVerifier.JSONEq
  rw [he]
  simp only
  rw [ha]

theorem deepEqualList_differ (l1 l2 r1 r2 : List GoValue) (x y : GoValue)
    (hlen : l1.length = l2.length) (h : deepValueEqual x y = false) :
    deepEqualList (l1 ++ x :: r1) (l2 ++ y :: r2) = false := by
  induction l1 generalizing l2 with
  | nil =>
    cases l2 with
    | nil => simp [deepEqualList, h]
    | cons b l2 => simp at hlen
  | cons a l1 ih =>
    cases l2 with
    | nil => simp at hlen
    | cons b l2 =>
      have h2 := ih l2 (by simpa using hlen)
      rw [List.cons_append, List.cons_append]
      simp only [deepEqualList, h2, Bool.and_false]

namespace json

theorem isFunction_decoded (S : Scalars) (r next : Nat) (d : Doc) :
    isFunction (d.decoded S r next).1 = false := by
  cases d <;> rfl

theorem treeElems_append (S : Scalars) (r : Nat) (l1 l2 : List (GoString × Doc × GoString)) :
    treeElems S r (l1 ++ l2) = treeElems S r l1 ++ treeElems S r l2 := by
  induction l1 with
  | nil => rfl
  | cons e l1 ih =>
    obtain ⟨w1, d, w2⟩ := e
    simp only [List.cons_append, treeElems, List.append_eq, ih]

theorem treeElems_length (S : Scalars) (r : Nat) (l : List (GoString × Doc × GoString)) :
    (treeElems S r l).length = l.length := by
  induction l with
  | nil => rfl
  | cons e l ih =>
    obtain ⟨w1, d, w2⟩ := e
    simp [treeElems, ih]

/-- On two well-formed texts `JSONEq` compares the trees the two written values denote,
each with a storage of its own. -/
theorem JSONEq_text (R : Runtime) (S : Scalars) (t : TestingT) (args : List GoValue)
    (hdec : R.unmarshal = Unmarshal S) (le : GoString) (e : Doc) (te la : GoString) (a : Doc)
    (ta : GoString) (he : validText S le e te = true) (ha : validText S la a ta = true) :
    (DefaultVerifier.JSONEq R t (text le e te) (text la a ta) args).1 =
      deepValueEqual (e.tree S 0) (a.tree S 1) := by
  have h1 : R.unmarshal 0 (text le e te) = .ok (e.decoded S 0 0).1 := by
    rw [hdec]
    exact Unmarshal_text S 0 le e te he
  have h2 : R.unmarshal 1 (text la a ta) = .ok (a.decoded S 1 0).1 := by
    rw [hdec]
    exact Unmarshal_text S 1 la a ta ha
  rw [JSONEq_of_parsed R t _ _ args _ _ h1 h2,
    Equal_result_of_valid R t _ _ args
      ((validateEqualArgs_eq_none_iff _ _).2
        (Or.inr ⟨isFunction_decoded S 0 0 e, isFunction_decoded S 1 0 a⟩)),
    objectsAreEqual_eq_DeepEqual, DeepEqual_eq_deepValueEqual,
    deepValueEqual_atRegion 0 1 (by decide) _ _ (inRegion_decoded S 0 e 0)
      (inRegion_decoded S 1 a 0),
    atRegion_decoded, atRegion_decoded]

end json

/-- C8, counterexample: when an object repeats a key, the member written last is the one
kept, so the order of the members matters: `{"a":1,"a":2}` equals `{"a":2}`, and with its
two members in the other order it does not. -/
theorem JSONEq_repeated_key_order :
    json.Unmarshal sampleScalars 0 (ascii "\x7b\"a\":1,\"a\":2\x7d") =
      .ok (.map .string .iface (some (⟨0, 0⟩,
        [(.string (ascii "a"), .float64 0x4000000000000000)]))) ∧
    json.Unmarshal sampleScalars 0 (ascii "\x7b\"a\":2,\"a\":1\x7d") =
      .ok (.map .string .iface (some (⟨0, 0⟩,
        [(.string (ascii "a"), .float64 0x3FF0000000000000)]))) ∧
    (DefaultVerifier.JSONEq sampleRuntime sampleSink (ascii "\x7b\"a\":1,\"a\":2\x7d")
      (ascii "\x7b\"a\":2\x7d") []).1 = true ∧
    (DefaultVerifier.JSONEq sampleRuntime sampleSink (ascii "\x7b\"a\":2,\"a\":1\x7d")
      (ascii "\x7b\"a\":2\x7d") []).1 = false :=
  ⟨rfl, rfl, by decide, by decide⟩

/-- C8, amended: for two well-formed JSON texts `DefaultVerifier.JSONEq` returns the deep
equality of the two decoded trees, which is that of the trees the written values denote.
The result does not change when the space between the tokens of either text is changed,
nor when the members of objects of either text are written in another order, provided
the keys of every reordered object are pairwise different; and two arrays that differ by
the exchange of two elements that are not deeply equal are unequal. -/
theorem JSONEq_on_texts (R : Runtime) (S : json.Scalars) (t : TestingT)
    (msgAndArgs : List GoValue) (hdec : R.unmarshal = json.Unmarshal S)
    (le : GoString) (e : json.Doc) (te la : GoString) (a : json.Doc) (ta : GoString)
    (he : json.validText S le e te = true) (ha : json.validText S la a ta = true) :
    (∃ pe pa, R.unmarshal 0 (json.text le e te) = .ok pe ∧
      R.unmarshal 1 (json.text la a ta) = .ok pa ∧
      (DefaultVerifier.JSONEq R t (json.text le e te) (json.text la a ta) msgAndArgs).1 =
        reflect.DeepEqual pe pa) ∧
    (DefaultVerifier.JSONEq R t (json.text le e te) (json.text la a ta) msgAndArgs).1 =
      reflect.DeepEqual (e.tree S 0) (a.tree S 1) ∧
    (∀ le2 e2 te2, json.validText S le2 e2 te2 = true → e2.strip = e.strip →
      (DefaultVerifier.JSONEq R t (json.text le2 e2 te2) (json.text la a ta) msgAndArgs).1 =
        (DefaultVerifier.JSONEq R t (json.text le e te) (json.text la a ta) msgAndArgs).1) ∧
    (∀ la2 a2 ta2, json.validText S la2 a2 ta2 = true → a2.strip = a.strip →
      (DefaultVerifier.JSONEq R t (json.text le e te) (json.text la2 a2 ta2) msgAndArgs).1 =
        (DefaultVerifier.JSONEq R t (json.text le e te) (json.text la a ta) msgAndArgs).1) ∧
    (∀ e2, e.Reordered S e2 → json.validText S le e2 te = true →
      (DefaultVerifier.JSONEq R t (json.text le e2 te) (json.text la a ta) msgAndArgs).1 =
        (DefaultVerifier.JSONEq R t (json.text le e te) (json.text la a ta) msgAndArgs).1) ∧
    (∀ a2, a.Reordered S a2 → json.validText S la a2 ta = true →
      (DefaultVerifier.JSONEq R t (json.text le e te) (json.text la a2 ta) msgAndArgs).1 =
        (DefaultVerifier.JSONEq R t (json.text le e te) (json.text la a ta) msgAndArgs).1) ∧
    (∀ inner inner2 l1 x l2 y l3, e = .array inner (l1 ++ x :: (l2 ++ y :: l3)) →
      a = .array inner2 (l1 ++ y :: (l2 ++ x :: l3)) →
      reflect.DeepEqual (x.2.1.tree S 0) (y.2.1.tree S 1) = false →
      (DefaultVerifier.JSONEq R t (json.text le e te) (json.text la a ta) msgAndArgs).1
        = false) := by
  have hres := json.JSONEq_text R S t msgAndArgs hdec le e te la a ta he ha
  refine ⟨⟨(e.decoded S 0 0).1, (a.decoded S 1 0).1, ?_, ?_, ?_⟩, ?_, ?_, ?_, ?_, ?_, ?_⟩
  · rw [hdec]
    exact json.Unmarshal_text S 0 le e te he
  · rw [hdec]
    exact json.Unmarshal_text S 1 la a ta ha
  · rw [hres, DeepEqual_eq_deepValueEqual,
      deepValueEqual_atRegion 0 1 (by decide) _ _ (json.inRegion_decoded S 0 e 0)
        (json.inRegion_decoded S 1 a 0),
      json.atRegion_decoded, json.atRegion_decoded]
  · rw [hres, DeepEqual_eq_deepValueEqual]
  · intro le2 e2 te2 he2 hs
    rw [hres, json.JSONEq_text R S t msgAndArgs hdec le2 e2 te2 la a ta he2 ha,
      ← json.tree_strip S 0 e2, hs, json.tree_strip]
  · intro la2 a2 ta2 ha2 hs
    rw [hres, json.JSONEq_text R S t msgAndArgs hdec le e te la2 a2 ta2 he ha2,
      ← json.tree_strip S 1 a2, hs, json.tree_strip]
  · intro e2 hk he2
    rw [hres, json.JSONEq_text R S t msgAndArgs hdec le e2 te la a ta he2 ha]
    exact (deepValueEqual_reorder_left _ _ _ (json.KeyReorder_tree S 0 e e2 hk)).symm
  · intro a2 hk ha2
    rw [hres, json.JSONEq_text R S t msgAndArgs hdec le e te la a2 ta he ha2]
    exact (deepValueEqual_reorder_right _ _ _ (json.KeyReorder_tree S 1 a a2 hk)
      (json.wellFormed_tree S 1 a) (json.wellFormed_tree S 1 a2)).symm
  · intro inner inner2 l1 x l2 y l3 hx hy hxy
    rw [DeepEqual_eq_deepValueEqual] at hxy
    obtain ⟨x1, xd, x2⟩ := x
    obtain ⟨y1, yd, y2⟩ := y
    rw [hres, hx, hy]
    simp only [json.Doc.tree, deepValueEqual, json.treeElems_append, json.treeElems]
    rw [deepEqualList_differ _ _ _ _ _ _
      (by rw [json.treeElems_length, json.treeElems_length]) hxy]
    simp

/-- Witness of C8 amended: the object `{"a":1,"b":2}` against itself with its members in
the other order, and with a space added, gives what it gives against itself; the arrays
`[1,2]` and `[2,1]` are unequal. -/
theorem JSONEq_on_texts_witness :
    json.text [] (.object [] [([], ascii "a", [], [], .number (ascii "1"), []),
      ([], ascii "b", [], [], .number (ascii "2"), [])]) [] =
        ascii "\x7b\"a\":1,\"b\":2\x7d" ∧
    json.text [] (.object [] [([], ascii "b", [], [], .number (ascii "2"), []),
      ([], ascii "a", [], [], .number (ascii "1"), [])]) [] =
        ascii "\x7b\"b\":2,\"a\":1\x7d" ∧
    json.text [] (.object [] [([], ascii "b", [], [], .number (ascii "2"), []),
      ([32], ascii "a", [], [], .number (ascii "1"), [])]) [10] =
        ascii "\x7b\"b\":2, \"a\":1\x7d\n" ∧
    (DefaultVerifier.JSONEq sampleRuntime sampleSink (ascii "\x7b\"a\":1,\"b\":2\x7d")
      (ascii "\x7b\"b\":2,\"a\":1\x7d") []).1 = true ∧
    (DefaultVerifier.JSONEq sampleRuntime sampleSink (ascii "\x7b\"a\":1,\"b\":2\x7d")
      (ascii "\x7b\"b\":2, \"a\":1\x7d\n") []).1 = true ∧
    (DefaultVerifier.JSONEq sampleRuntime sampleSink (ascii "[1,2]") (ascii "[2,1]") []).1
      = false :=
  have hobj := JSONEq_on_texts sampleRuntime sampleScalars sampleSink [] rfl
    [] (.object [] [([], ascii "a", [], [], .number (ascii "1"), []),
      ([], ascii "b", [], [], .number (ascii "2"), [])]) []
    [] (.object [] [([], ascii "a", [], [], .number (ascii "1"), []),
      ([], ascii "b", [], [], .number (ascii "2"), [])]) [] (by decide) (by decide)
  have hreo := hobj.2.2.2.2.2.1
    (.object [] [([], ascii "b", [], [], .number (ascii "2"), []),
      ([], ascii "a", [], [], .number (ascii "1"), [])])
    (by
      simp only [json.Doc.Reordered, json.ReorderedMembers]
      exact ⟨_, _, ⟨_, _, rfl, ⟨_, _, rfl, rfl, rfl⟩, rfl⟩, List.Perm.swap _ _ _,
        Or.inr (by decide), rfl⟩)
    (by decide)
  have hobj2 := JSONEq_on_texts sampleRuntime sampleScalars sampleSink [] rfl
    [] (.object [] [([], ascii "a", [], [], .number (ascii "1"), []),
      ([], ascii "b", [], [], .number (ascii "2"), [])]) []
    [] (.object [] [([], ascii "b", [], [], .number (ascii "2"), []),
      ([], ascii "a", [], [], .number (ascii "1"), [])]) [] (by decide) (by decide)
  have hspace := hobj2.2.2.2.1 []
    (.object [] [([], ascii "b", [], [], .number (ascii "2"), []),
      ([32], ascii "a", [], [], .number (ascii "1"), [])]) [10] (by decide) rfl
  have harr := (JSONEq_on_texts sampleRuntime sampleScalars sampleSink [] rfl
    [] (.array [] [([], .number (ascii "1"), []), ([], .number (ascii "2"), [])]) []
    [] (.array [] [([], .number (ascii "2"), []), ([], .number (ascii "1"), [])]) []
    (by decide) (by decide)).2.2.2.2.2.2 [] [] [] ([], .number (ascii "1"), []) []
      ([], .number (ascii "2"), []) [] rfl rfl (by decide)
  have hself : (DefaultVerifier.JSONEq sampleRuntime sampleSink
      (ascii "\x7b\"a\":1,\"b\":2\x7d") (ascii "\x7b\"a\":1,\"b\":2\x7d") []).1 = true := by
    decide
  ⟨by decide, by decide, by decide, hreo.trans hself, (hspace.trans hreo).trans hself, harr⟩
